import Mathlib

/-!
# DataStructuresC — AVL tree (`src/AVL/avl.c`)

A shallow embedding of the linked AVL tree and a verification of its contract.

Modelling conventions

* A `avl_node *` is a value of the inductive type `avl_node`; the null pointer is `nil`.
  Nodes are singly owned in the C code, so value semantics loses nothing.
* `data` values are an abstract type `α`; `tree->copy` yields a value with the same
  content, so a copy is the value itself.
* C `int` fields (`height`, `size`) and `int` results are `Int`. Heights are bounded by the
  depth of the tree and `size` by the number of allocated nodes, so wrap-around is not modelled.
* A function that dereferences a pointer the C code does not test returns `Option`;
  `none` stands for the undefined behaviour of dereferencing `NULL`
  (or for a failed `assert`).
* Functions that write through `avl *tree` or `avl_node **node` return the new contents of
  those cells.
-/

namespace AVL

/-- A node pointer of `avl.h`: `nil` is `NULL`, `node value height left right` a node. -/
inductive avl_node (α : Type) where
  | nil : avl_node α
  | node (value : α) (height : Int) (left right : avl_node α) : avl_node α
  deriving DecidableEq, Repr

/-- The tree header of `avl.h`; of the four callbacks only `compare` is consulted by the
operations modelled here. -/
structure avl (α : Type) where
  size : Int
  root : avl_node α
  compare : α → α → Int

open avl_node

variable {α : Type}

/-- Macro `MAX_HEIGHT(a,b)`. -/
def MAX_HEIGHT (a b : Int) : Int := if a > b then a else b

/-- Function `avl_node_height`: 0 for `NULL`, else the cached height. -/
def avl_node_height : avl_node α → Int
  | nil => 0
  | node _ h _ _ => h

/-- Function `avl_update_height`: dereferences `node`. -/
def avl_update_height : avl_node α → Option (avl_node α)
  | nil => none
  | node v _ l r => some (node v (MAX_HEIGHT (avl_node_height l) (avl_node_height r) + 1) l r)

/-- Function `avl_rotate_left`: dereferences `node` and `node->right`. -/
def avl_rotate_left : avl_node α → Option (avl_node α)
  | node v h l (node tv th tl tr) =>
    match avl_update_height (node v h l tl) with
    | none => none
    | some n => avl_update_height (node tv th n tr)
  | _ => none

/-- Function `avl_rotate_right`: dereferences `node` and `node->left`. -/
def avl_rotate_right : avl_node α → Option (avl_node α)
  | node v h (node tv th tl tr) r =>
    match avl_update_height (node v h tr r) with
    | none => none
    | some n => avl_update_height (node tv th tl n)
  | _ => none

/-- Function `avl_balance_value`: dereferences `node`. -/
def avl_balance_value : avl_node α → Option Int
  | nil => none
  | node _ _ l r => some (avl_node_height l - avl_node_height r)

/-- The short-circuit conjunction `a && b` of C, where evaluating `b` may fail. -/
def cAnd (a : Bool) (b : Option Bool) : Option Bool :=
  if a then b else some false

/-- Function `avl_rebalance`: the four-way `if / else if` chain, conditions evaluated in order. -/
def avl_rebalance (node0 : avl_node α) : Option (avl_node α) :=
  match avl_update_height node0 with
  | none => none
  | some nil => none
  | some (node v h l r) =>
    match avl_balance_value (node v h l r) with
    | none => none
    | some balance =>
    match cAnd (decide (balance > 1)) ((avl_balance_value l).map (fun b => decide (b ≥ 0))) with
    | none => none
    | some true => avl_rotate_right (node v h l r)
    | some false =>
    match cAnd (decide (balance < -1)) ((avl_balance_value r).map (fun b => decide (b ≤ 0))) with
    | none => none
    | some true => avl_rotate_left (node v h l r)
    | some false =>
    match cAnd (decide (balance > 1)) ((avl_balance_value l).map (fun b => decide (b < 0))) with
    | none => none
    | some true =>
      (match avl_rotate_left l with
       | none => none
       | some l1 => avl_rotate_right (node v h l1 r))
    | some false =>
    match cAnd (decide (balance < -1)) ((avl_balance_value r).map (fun b => decide (b > 0))) with
    | none => none
    | some true =>
      (match avl_rotate_right r with
       | none => none
       | some r1 => avl_rotate_left (node v h l r1))
    | some false => some (node v h l r)

/-- The tail of `avl_insert_aux`: `if (inserted) avl_rebalance(node); return inserted;`. -/
def avl_insert_finish (tree : avl α) (n : avl_node α) (inserted : Int) :
    Option (avl α × avl_node α × Int) :=
  if inserted ≠ 0 then
    match avl_rebalance n with
    | none => none
    | some n1 => some (tree, n1, inserted)
  else some (tree, n, inserted)

/-- Function `avl_insert_aux`: returns the updated tree header, the new `*node` and `inserted`. -/
def avl_insert_aux (tree : avl α) : avl_node α → α → Option (avl α × avl_node α × Int)
  | nil, value =>
    avl_insert_finish { tree with size := tree.size + 1 } (node value 1 nil nil) 1
  | node v h l r, value =>
    let comp := tree.compare v value
    if comp < 0 then
      match avl_insert_aux tree l value with
      | none => none
      | some (tree1, l1, inserted) => avl_insert_finish tree1 (node v h l1 r) inserted
    else if comp > 0 then
      match avl_insert_aux tree r value with
      | none => none
      | some (tree1, r1, inserted) => avl_insert_finish tree1 (node v h l r1) inserted
    else avl_insert_finish tree (node v h l r) 0

/-- Function `avl_insert`: the new tree header and the result. -/
def avl_insert (tree : avl α) (value : α) : Option (avl α × Int) :=
  match avl_insert_aux tree tree.root value with
  | none => none
  | some (tree1, root1, inserted) => some ({ tree1 with root := root1 }, inserted)

/-- Function `avl_delete_node_left`: returns the new `*parent` and the detached replacement node. -/
def avl_delete_node_left : avl_node α → Option (avl_node α × avl_node α)
  | nil => none
  | node pv ph pl child =>
    match child with
    | nil => none
    | node cv ch cl cr =>
      match cr with
      | nil =>
        match avl_rebalance (node pv ph pl cl) with
        | none => none
        | some p1 => some (p1, node cv ch cl nil)
      | node _ _ _ _ =>
        match avl_delete_node_left child with
        | none => none
        | some (child1, repl) =>
          match avl_rebalance (node pv ph pl child1) with
          | none => none
          | some p1 => some (p1, repl)

/-- The tail of `avl_remove_aux`:
`if (*node != NULL && value != NULL) avl_rebalance(node); return value;`. -/
def avl_remove_finish (tree : avl α) (n : avl_node α) (value : Option α) :
    Option (avl α × avl_node α × Option α) :=
  match n, value with
  | node v h l r, some x =>
    match avl_rebalance (node v h l r) with
    | none => none
    | some n1 => some (tree, n1, some x)
  | _, _ => some (tree, n, value)

/-- Function `avl_remove_aux`: returns the updated tree header, the new `*node` and the removed value. -/
def avl_remove_aux (tree : avl α) : avl_node α → α → Option (avl α × avl_node α × Option α)
  | nil, _ => avl_remove_finish tree nil none
  | node v h l r, key =>
    let comp := tree.compare v key
    if comp < 0 then
      match avl_remove_aux tree l key with
      | none => none
      | some (tree1, l1, value) => avl_remove_finish tree1 (node v h l1 r) value
    else if comp > 0 then
      match avl_remove_aux tree r key with
      | none => none
      | some (tree1, r1, value) => avl_remove_finish tree1 (node v h l r1) value
    else
      let tree1 := { tree with size := tree.size - 1 }
      match l, r with
      | nil, nil => avl_remove_finish tree1 nil (some v)
      | nil, node rv rh rl rr => avl_remove_finish tree1 (node rv rh rl rr) (some v)
      | node lv lh ll lr, nil => avl_remove_finish tree1 (node lv lh ll lr) (some v)
      | node lv lh ll lr, node rv rh rl rr =>
        match lr with
        | nil => avl_remove_finish tree1 (node lv lh ll (node rv rh rl rr)) (some v)
        | node _ _ _ _ =>
          match avl_delete_node_left (node lv lh ll lr) with
          | none => none
          | some (l1, repl) =>
            match repl with
            | nil => none
            | node pv ph _ _ =>
              avl_remove_finish tree1 (node pv ph l1 (node rv rh rl rr)) (some v)

/-- Function `avl_remove`: the new tree header and the removed value. -/
def avl_remove (tree : avl α) (key : α) : Option (avl α × Option α) :=
  match avl_remove_aux tree tree.root key with
  | none => none
  | some (tree1, root1, value) => some ({ tree1 with root := root1 }, value)

/-- Function `avl_valid_aux`; `min_node` and `max_node` are passed as the values they hold. -/
def avl_valid_aux (tree : avl α) : avl_node α → Option α → Option α → Bool
  | nil, _, _ => true
  | node v h l r, min_node, max_node =>
    if (match min_node with
        | none => false
        | some m => decide (tree.compare m v ≤ 0)) then false
    else if (match max_node with
        | none => false
        | some m => decide (tree.compare m v ≥ 0)) then false
    else if |avl_node_height l - avl_node_height r| > 1 then false
    else if MAX_HEIGHT (avl_node_height l) (avl_node_height r) ≠ h - 1 then false
    else avl_valid_aux tree l min_node (some v) && avl_valid_aux tree r (some v) max_node

/-- Function `avl_valid`. -/
def avl_valid (tree : avl α) : Bool := avl_valid_aux tree tree.root none none

/-- Function avl_initialize of `avl.c`: an empty tree with the given comparison callback. -/
def avl_initialize (compare : α → α → Int) : avl α :=
  { size := 0, root := nil, compare := compare }

/-- Function `avl_size`. -/
def avl_size (tree : avl α) : Int := tree.size

/-- Function `avl_inorder_aux`: the array `values` is a map from index to element; returns the
array after the writes and the updated index. -/
def avl_inorder_aux : avl_node α → (Nat → α) → Nat → (Nat → α) × Nat
  | nil, values, index => (values, index)
  | node v _ l r, values, index =>
    let (values1, index1) := avl_inorder_aux l values index
    let values2 := Function.update values1 index1 v
    avl_inorder_aux r values2 (index1 + 1)

/-- Function `avl_inorder`: the array after the call. -/
def avl_inorder (tree : avl α) (values : Nat → α) : Nat → α :=
  (avl_inorder_aux tree.root values 0).1

/-- The loop of `avl_retrieve`, started with `node` and `value == NULL`. -/
def avl_retrieve_loop (tree : avl α) : avl_node α → α → Option α
  | nil, _ => none
  | node v _ l r, key =>
    let comp := tree.compare v key
    if comp < 0 then avl_retrieve_loop tree l key
    else if comp > 0 then avl_retrieve_loop tree r key
    else some v

/-- Function `avl_retrieve`: the tree is only read; returned with the result to state that. -/
def avl_retrieve (tree : avl α) (key : α) : avl α × Option α :=
  (tree, avl_retrieve_loop tree tree.root key)

/-- Function `avl_empty`: whether `root` is `NULL`. -/
def avl_empty (tree : avl α) : Bool :=
  match tree.root with
  | nil => true
  | node _ _ _ _ => false

/-- The loop of `avl_max`, started at `node`: follows `right` until it is `NULL`. -/
def avl_max_loop : avl_node α → Option α
  | nil => none
  | node v _ _ r =>
    match r with
    | nil => some v
    | node _ _ _ _ => avl_max_loop r

/-- Function `avl_max`: `none` is the failed `assert(tree->root != NULL)`; the tree is only
read and is returned with the result to state that. -/
def avl_max (tree : avl α) : Option (avl α × α) :=
  match tree.root with
  | nil => none
  | node v h l r =>
    match avl_max_loop (node v h l r) with
    | none => none
    | some x => some (tree, x)

/-- The loop of `avl_min`, started at `node`: follows `left` until it is `NULL`. -/
def avl_min_loop : avl_node α → Option α
  | nil => none
  | node v _ l _ =>
    match l with
    | nil => some v
    | node _ _ _ _ => avl_min_loop l

/-- Function `avl_min`: `none` is the failed `assert(tree->root != NULL)`; the tree is only
read and is returned with the result to state that. -/
def avl_min (tree : avl α) : Option (avl α × α) :=
  match tree.root with
  | nil => none
  | node v h l r =>
    match avl_min_loop (node v h l r) with
    | none => none
    | some x => some (tree, x)

/-- Function `avl_preorder_aux`: the array after the writes and the updated index. -/
def avl_preorder_aux : avl_node α → (Nat → α) → Nat → (Nat → α) × Nat
  | nil, values, index => (values, index)
  | node v _ l r, values, index =>
    let values1 := Function.update values index v
    let (values2, index2) := avl_preorder_aux l values1 (index + 1)
    avl_preorder_aux r values2 index2

/-- Function `avl_postorder_aux`: the array after the writes and the updated index. -/
def avl_postorder_aux : avl_node α → (Nat → α) → Nat → (Nat → α) × Nat
  | nil, values, index => (values, index)
  | node v _ l r, values, index =>
    let (values1, index1) := avl_postorder_aux l values index
    let (values2, index2) := avl_postorder_aux r values1 index1
    (Function.update values2 index2 v, index2 + 1)

/-- Function `avl_preorder`: the array after the call. -/
def avl_preorder (tree : avl α) (values : Nat → α) : Nat → α :=
  (avl_preorder_aux tree.root values 0).1

/-- Function `avl_postorder`: the array after the call. -/
def avl_postorder (tree : avl α) (values : Nat → α) : Nat → α :=
  (avl_postorder_aux tree.root values 0).1

/-- Function `avl_leaf_count_aux`. -/
def avl_leaf_count_aux : avl_node α → Int
  | nil => 0
  | node _ _ l r =>
    match l, r with
    | nil, nil => 1
    | _, _ => avl_leaf_count_aux l + avl_leaf_count_aux r

/-- Function `avl_one_child_count_aux`. -/
def avl_one_child_count_aux : avl_node α → Int
  | nil => 0
  | node _ _ l r =>
    match l, r with
    | nil, node _ _ _ _ => 1 + avl_one_child_count_aux r
    | node _ _ _ _, nil => 1 + avl_one_child_count_aux l
    | _, _ => avl_one_child_count_aux l + avl_one_child_count_aux r

/-- Function `avl_two_child_count_aux`. -/
def avl_two_child_count_aux : avl_node α → Int
  | nil => 0
  | node _ _ l r =>
    match l, r with
    | node _ _ _ _, node _ _ _ _ => 1 + avl_two_child_count_aux l + avl_two_child_count_aux r
    | _, _ => avl_two_child_count_aux l + avl_two_child_count_aux r

/-- Function `avl_leaf_count`. -/
def avl_leaf_count (tree : avl α) : Int := avl_leaf_count_aux tree.root

/-- Function `avl_one_child_count`. -/
def avl_one_child_count (tree : avl α) : Int := avl_one_child_count_aux tree.root

/-- Function `avl_two_child_count`. -/
def avl_two_child_count (tree : avl α) : Int := avl_two_child_count_aux tree.root

/-- Function `avl_balanced_aux`; the C truth values 1 and 0 are `true` and `false`. -/
def avl_balanced_aux : avl_node α → Bool
  | nil => true
  | node _ h l r =>
    if h = 1 then true
    else if |avl_node_height l - avl_node_height r| > 1 then false
    else avl_balanced_aux l && avl_balanced_aux r

/-- Function `avl_balanced`. -/
def avl_balanced (tree : avl α) : Bool := avl_balanced_aux tree.root

/-- Function `avl_equals_aux`; the C truth values 1 and 0 are `true` and `false`. -/
def avl_equals_aux (tree : avl α) : avl_node α → avl_node α → Bool
  | nil, nil => true
  | nil, node _ _ _ _ => false
  | node _ _ _ _, nil => false
  | node tv _ tl tr, node sv _ sl sr =>
    if tree.compare tv sv = 0 then false
    else avl_equals_aux tree tl sl && avl_equals_aux tree tr sr

/-- Function `avl_equals`: the auxiliary is run with the callbacks of `source`. -/
def avl_equals (target source : avl α) : Bool :=
  avl_equals_aux source target.root source.root

/-! ## Specification-level notions -/

/-- The values stored in the nodes of a subtree, listed left subtree, node, right subtree. -/
def elems : avl_node α → List α
  | nil => []
  | node v _ l r => elems l ++ v :: elems r

/-- Height correctness and AVL balance at every node: the cached height is one more than the
larger child height and the child heights differ by at most 1. -/
def Balanced : avl_node α → Prop
  | nil => True
  | node _ h l r =>
    avl_node_height l - avl_node_height r ≤ 1 ∧ avl_node_height r - avl_node_height l ≤ 1 ∧
    h = MAX_HEIGHT (avl_node_height l) (avl_node_height r) + 1 ∧ Balanced l ∧ Balanced r

/-- The contract on `compare`: its sign is antisymmetric and `≤` is transitive. Every strict
total order presented as a three-way comparison satisfies it. -/
structure CompareOrder (compare : α → α → Int) : Prop where
  swap : ∀ a b, compare a b < 0 ↔ 0 < compare b a
  le_trans : ∀ a b c, compare a b ≤ 0 → compare b c ≤ 0 → compare a c ≤ 0

/-- The order in which the descent of `avl_insert_aux` keeps the values: in the in-order
listing every later value compares strictly less than every earlier one. -/
def Sorted (compare : α → α → Int) (xs : List α) : Prop :=
  xs.Pairwise (fun a b => compare b a < 0)

/-- The two bound tests of `avl_valid_aux` pass at `x`. -/
def InBounds (compare : α → α → Int) (min_node max_node : Option α) (x : α) : Prop :=
  (∀ m, min_node = some m → 0 < compare m x) ∧ (∀ m, max_node = some m → compare m x < 0)

/-- Modelled from the spec: `data.h` is not part of the sources; this is an instance of the
`compare` callback of the value contract for integer data (negative, zero or positive). -/
def data_compare (a b : Int) : Int := if a < b then -1 else if a > b then 1 else 0

/-- Successive `avl_insert` calls, in list order. -/
def avl_insert_all (tree : avl α) : List α → Option (avl α)
  | [] => some tree
  | v :: vs =>
    match avl_insert tree v with
    | none => none
    | some (tree1, _) => avl_insert_all tree1 vs

/-- The sequence `avl_inorder` leaves in `values`: positions `0 .. n-1`, where `n` is the
index returned by `avl_inorder_aux`. -/
def avl_inorder_list (tree : avl α) (values : Nat → α) : List α :=
  (List.range (avl_inorder_aux tree.root values 0).2).map (avl_inorder tree values)

/-- Number of nodes reachable from a node pointer. -/
def node_count : avl_node α → Int
  | nil => 0
  | node _ _ l r => node_count l + 1 + node_count r

/-- The tree reached by inserting 5, 3, 8, 1, 4, 7 into an empty integer tree. -/
def tree6 : avl Int :=
  { size := 6, compare := data_compare,
    root := node 5 3 (node 8 2 nil (node 7 1 nil nil))
      (node 3 2 (node 4 1 nil nil) (node 1 1 nil nil)) }

/-- The tree reached by inserting 1, 2, ..., 7 in ascending order into an empty integer tree. -/
def tree7 : avl Int :=
  { size := 7, compare := data_compare,
    root := node 4 3 (node 6 2 (node 7 1 nil nil) (node 5 1 nil nil))
      (node 2 2 (node 3 1 nil nil) (node 1 1 nil nil)) }

/-- BST order in the conventional orientation: at every node each value of the left subtree
compares strictly less than the value of the node and each value of the right subtree
strictly greater (`compare a b < 0` meaning `a` is less than `b`). -/
def bst_order (compare : α → α → Int) : avl_node α → Prop
  | nil => True
  | node v _ l r =>
    (∀ x ∈ elems l, compare x v < 0) ∧ (∀ y ∈ elems r, compare y v > 0) ∧
      bst_order compare l ∧ bst_order compare r

/-- A sequence is non-decreasing under `compare`: each element compares `≤` its successor. -/
def non_decreasing (compare : α → α → Int) : List α → Prop
  | a :: b :: rest => compare a b ≤ 0 ∧ non_decreasing compare (b :: rest)
  | _ => True

/-- A call of the mutating interface: `avl_insert(tree, v)` or `avl_remove(tree, k)`. -/
inductive avl_op (α : Type) where
  | insert (v : α) : avl_op α
  | remove (k : α) : avl_op α

/-- A call sequence run on a tree, results discarded. -/
def avl_run (tree : avl α) : List (avl_op α) → Option (avl α)
  | [] => some tree
  | avl_op.insert v :: ops =>
    match avl_insert tree v with
    | none => none
    | some (tree1, _) => avl_run tree1 ops
  | avl_op.remove k :: ops =>
    match avl_remove tree k with
    | none => none
    | some (tree1, _) => avl_run tree1 ops

/-- The value-first sequence of a subtree: node, left subtree, right subtree. -/
def preorder_elems : avl_node α → List α
  | nil => []
  | node v _ l r => v :: (preorder_elems l ++ preorder_elems r)

/-- The value-last sequence of a subtree: left subtree, right subtree, node. -/
def postorder_elems : avl_node α → List α
  | nil => []
  | node v _ l r => postorder_elems l ++ (postorder_elems r ++ [v])

/-- The array `out` holds the sequence `xs` at positions `i, i+1, ..., i + |xs| - 1` and
holds what `values` held at every other position. -/
def writes_at (values out : Nat → α) (i : Nat) (xs : List α) : Prop :=
  (∀ j, j < xs.length → xs[j]? = some (out (i + j))) ∧
  (∀ j, j < i ∨ i + xs.length ≤ j → out j = values j)

/-- The three conditions of the validity contract at every node: every value of the left
subtree lies strictly on one side of the value of the node and every value of the right
subtree strictly on the other (the sides on which `avl_insert_aux` puts them), the cached
height is `1 + max` of the child heights, and the child heights differ by at most 1. -/
def valid_at_every_node (compare : α → α → Int) : avl_node α → Prop
  | nil => True
  | node v h l r =>
    ((∀ x ∈ elems l, compare v x < 0) ∧ (∀ y ∈ elems r, 0 < compare v y)) ∧
    h = 1 + max (avl_node_height l) (avl_node_height r) ∧
    |avl_node_height l - avl_node_height r| ≤ 1 ∧
    valid_at_every_node compare l ∧ valid_at_every_node compare r

/-- Every node satisfies the AVL balance condition on cached heights: the heights of its
children (0 for an absent child) differ by at most 1. -/
def all_nodes_balanced : avl_node α → Prop
  | nil => True
  | node _ _ l r =>
    |avl_node_height l - avl_node_height r| ≤ 1 ∧ all_nodes_balanced l ∧ all_nodes_balanced r

/-- Every cached height is `1 + max` of the cached child heights. -/
def heights_correct : avl_node α → Prop
  | nil => True
  | node _ h l r =>
    h = 1 + max (avl_node_height l) (avl_node_height r) ∧ heights_correct l ∧ heights_correct r

/-- A two-node integer tree whose root carries the cached height 1 above a child of cached
height 5. -/
def tree_bad_heights : avl Int :=
  { size := 2, compare := data_compare, root := node 1 1 (node 2 5 nil nil) nil }

/-- The unbalanced integer node used to exercise the rebalance engine: value 3 above a left
subtree of height 2 holding 5 and 6, and no right subtree. -/
def node_left_heavy : avl_node Int :=
  node 3 1 (node 5 2 (node 6 1 nil nil) nil) nil

/-- The five outcomes of the test chain of `avl_rebalance`. -/
inductive rebalance_case where
  | left_left : rebalance_case
  | right_right : rebalance_case
  | left_right : rebalance_case
  | right_left : rebalance_case
  | no_rotation : rebalance_case
  deriving DecidableEq, Repr

/-- Function `avl_rebalance` again, reporting next to the new subtree root which branch of
the `if / else if` chain was taken. -/
def avl_rebalance_traced (node0 : avl_node α) : Option (rebalance_case × avl_node α) :=
  match avl_update_height node0 with
  | none => none
  | some nil => none
  | some (node v h l r) =>
    match avl_balance_value (node v h l r) with
    | none => none
    | some balance =>
    match cAnd (decide (balance > 1)) ((avl_balance_value l).map (fun b => decide (b ≥ 0))) with
    | none => none
    | some true => (avl_rotate_right (node v h l r)).map (fun t => (rebalance_case.left_left, t))
    | some false =>
    match cAnd (decide (balance < -1)) ((avl_balance_value r).map (fun b => decide (b ≤ 0))) with
    | none => none
    | some true => (avl_rotate_left (node v h l r)).map (fun t => (rebalance_case.right_right, t))
    | some false =>
    match cAnd (decide (balance > 1)) ((avl_balance_value l).map (fun b => decide (b < 0))) with
    | none => none
    | some true =>
      (match avl_rotate_left l with
       | none => none
       | some l1 =>
         (avl_rotate_right (node v h l1 r)).map (fun t => (rebalance_case.left_right, t)))
    | some false =>
    match cAnd (decide (balance < -1)) ((avl_balance_value r).map (fun b => decide (b > 0))) with
    | none => none
    | some true =>
      (match avl_rotate_right r with
       | none => none
       | some r1 =>
         (avl_rotate_left (node v h l r1)).map (fun t => (rebalance_case.right_left, t)))
    | some false => some (rebalance_case.no_rotation, node v h l r)

/-- Every present node of the subtree has a cached height of at least `k`. -/
def heights_at_least (k : Int) : avl_node α → Prop
  | nil => True
  | node _ h l r => k ≤ h ∧ heights_at_least k l ∧ heights_at_least k r

/-- The cached heights of the two children of a node, 0 for an absent child, are not
negative. -/
def child_heights_nonneg : avl_node α → Prop
  | nil => True
  | node _ _ l r => 0 ≤ avl_node_height l ∧ 0 ≤ avl_node_height r

/-- An integer node with no left child above a right child whose cached height is -2. -/
def node_negative_height : avl_node Int :=
  node 1 1 nil (node 0 (-2) nil nil)

/-- Two subtrees have the same shape: a node sits at a position of one exactly when a node
sits at that position of the other. -/
def same_shape : avl_node α → avl_node α → Prop
  | nil, nil => True
  | nil, node _ _ _ _ => False
  | node _ _ _ _, nil => False
  | node _ _ tl tr, node _ _ sl sr => same_shape tl sl ∧ same_shape tr sr

/-- The tree reached by inserting 5, 3, 8, 1, 4, 7, 9 into an empty integer tree. -/
def tree6_plus_9 : avl Int :=
  { size := 7, compare := data_compare,
    root := node 5 3 (node 8 2 (node 9 1 nil nil) (node 7 1 nil nil))
      (node 3 2 (node 4 1 nil nil) (node 1 1 nil nil)) }

/-- The sparsest balanced tree of height `n` (a Fibonacci tree) on the integer keys from `lo`
upwards: its left subtree is the sparsest tree of height `n - 1`, its right subtree the
sparsest tree of height `n - 2`; the greater keys are on the left, as `avl_insert_aux`
places them. -/
def fib_tree : Nat → Int → avl_node Int
  | 0, _ => nil
  | 1, lo => node lo 1 nil nil
  | n + 2, lo =>
    node (lo + Nat.fib (n + 2) - 1) (n + 2) (fib_tree (n + 1) (lo + Nat.fib (n + 2)))
      (fib_tree n lo)

/-- The tree header over the Fibonacci tree of height `n` on the keys from 0 upwards. -/
def fib_avl (n : Nat) : avl Int :=
  { size := node_count (fib_tree n 0), root := fib_tree n 0, compare := data_compare }

/-- The right-heavy integer node used to exercise the double rotation: value 7 above a right
subtree of height 2 that holds 3 and, on its left, 5; no left subtree. -/
def node_right_left : avl_node Int :=
  node 7 1 nil (node 3 2 (node 5 1 nil nil) nil)

/-- The order of the values at every node, on the sides on which `avl_insert_aux` puts them:
the node compares less than every value of its left subtree and greater than every value of
its right subtree. -/
def ordered_at_every_node (compare : α → α → Int) : avl_node α → Prop
  | nil => True
  | node v _ l r =>
    (∀ x ∈ elems l, compare v x < 0) ∧ (∀ y ∈ elems r, 0 < compare v y) ∧
      ordered_at_every_node compare l ∧ ordered_at_every_node compare r

/-- The integer node 2 above the left child 1 and the right child 4, which has the children
3 and 5: a subtree in the conventional order, right-heavy. -/
def node_for_rotation : avl_node Int :=
  node 2 3 (node 1 1 nil nil) (node 4 2 (node 3 1 nil nil) (node 5 1 nil nil))

/-- Function `avl_full`: the constant 0. -/
def avl_full (_tree : avl α) : Bool := false

/-- Function `avl_node_counts_aux`: the contents of the cells `*zero`, `*one`, `*two` after
the call, from their contents before it. -/
def avl_node_counts_aux : avl_node α → Int × Int × Int → Int × Int × Int
  | nil, cells => cells
  | node _ _ l r, (zero, one, two) =>
    match l, r with
    | nil, nil => (zero + 1, one, two)
    | nil, node _ _ _ _ => avl_node_counts_aux r (zero, one + 1, two)
    | node _ _ _ _, nil => avl_node_counts_aux l (zero, one + 1, two)
    | node _ _ _ _, node _ _ _ _ =>
      avl_node_counts_aux r (avl_node_counts_aux l (zero, one, two + 1))

/-- Function `avl_node_counts`: the three cells are set to 0 and handed to the auxiliary;
`cells` is what they held before the call. -/
def avl_node_counts (tree : avl α) (_cells : Int × Int × Int) : Int × Int × Int :=
  avl_node_counts_aux tree.root (0, 0, 0)

end AVL

/-!
# Circular array queue (`src/Queue/queue.c`)

The array `values` is a map from index to element, so `realloc` keeps it and `memcpy` is a
block update; `capacity`, `front`, `rear` and `size` are integers without wrap-around.
-/

namespace Queue

variable {α : Type}

/-- Macro `QUEUE_SIZE`: the initial capacity. -/
def QUEUE_SIZE : Int := 8

/-- The queue header of `queue.h` together with the array `values` it points to; the two
callbacks are not consulted by the operations modelled here. -/
structure queue (α : Type) where
  capacity : Int
  front : Int
  rear : Int
  size : Int
  values : Int → α

/-- Function queue_initialize of `queue.c`; `values` is the content of the fresh array. -/
def queue_initialize (values : Int → α) : queue α :=
  { capacity := QUEUE_SIZE, front := 0, rear := 0, size := 0, values := values }

/-- Function `queue_empty`. -/
def queue_empty (q : queue α) : Bool := decide (q.size = 0)

/-- Function `queue_count`. -/
def queue_count (q : queue α) : Int := q.size

/-- The first `if` of `queue_insert`: on a full queue the capacity is doubled, the `front`
cells before the front index are copied behind the old contents and `rear` is moved there. -/
def queue_grow (q : queue α) : queue α :=
  if q.size = q.capacity then
    { q with
      capacity := q.capacity * 2,
      values := fun k =>
        if q.size ≤ k ∧ k < q.size + q.front then q.values (k - q.size) else q.values k,
      rear := q.size + q.front }
  else q

/-- Function `queue_insert`. -/
def queue_insert (q : queue α) (v : α) : queue α :=
  let q1 := queue_grow q
  let q2 := if q1.size = 0 then { q1 with front := q1.rear } else q1
  { q2 with
    values := Function.update q2.values q2.rear v,
    size := q2.size + 1,
    rear := (q2.rear + 1) % q2.capacity }

/-- Function `queue_peek`: `none` is the failed `assert(q->front != -1)`; the queue is only
read and is returned with the result to state that. -/
def queue_peek (q : queue α) : Option (queue α × α) :=
  if q.front = -1 then none else some (q, q.values q.front)

/-- Function `queue_remove`: `none` is the failed `assert(q->front != -1)`. -/
def queue_remove (q : queue α) : Option (queue α × α) :=
  if q.front = -1 then none
  else
    let v := q.values q.front
    let size1 := q.size - 1
    if size1 = 0 then some ({ q with size := size1, front := 0, rear := 0 }, v)
    else some ({ q with size := size1, front := (q.front + 1) % q.capacity }, v)

/-- A call of the mutating interface: `queue_insert(q, v)` or `queue_remove(q)`. -/
inductive queue_op (α : Type) where
  | insert (v : α) : queue_op α
  | remove : queue_op α

/-- A call sequence run on a queue; the values returned by the `queue_remove` calls are
collected in call order. -/
def queue_run (q : queue α) : List (queue_op α) → Option (queue α × List α)
  | [] => some (q, [])
  | queue_op.insert v :: ops => queue_run (queue_insert q v) ops
  | queue_op.remove :: ops =>
    match queue_remove q with
    | none => none
    | some (q1, v) =>
      match queue_run q1 ops with
      | none => none
      | some (q2, out) => some (q2, v :: out)

/-- The values inserted by a call sequence, in call order. -/
def inserted_values : List (queue_op α) → List α
  | [] => []
  | queue_op.insert v :: ops => v :: inserted_values ops
  | queue_op.remove :: ops => inserted_values ops

/-- The number of `queue_remove` calls of a call sequence. -/
def remove_count : List (queue_op α) → Nat
  | [] => 0
  | queue_op.insert _ :: ops => remove_count ops
  | queue_op.remove :: ops => remove_count ops + 1

/-- No `queue_remove` of the call sequence is made on an empty queue, when the sequence
starts on a queue holding `n` values. -/
def never_on_empty : Nat → List (queue_op α) → Bool
  | _, [] => true
  | n, queue_op.insert _ :: ops => never_on_empty (n + 1) ops
  | 0, queue_op.remove :: _ => false
  | n + 1, queue_op.remove :: ops => never_on_empty n ops

/-- The queue `q` holds the values `xs`, front first: the indices are in range and the
values sit in the cells `front, front + 1, ...` taken modulo the capacity. -/
def holds (q : queue α) (xs : List α) : Prop :=
  0 < q.capacity ∧ 0 ≤ q.front ∧ q.front < q.capacity ∧ q.size = xs.length ∧
  q.size ≤ q.capacity ∧ q.rear = (q.front + q.size) % q.capacity ∧
  ∀ i : Nat, i < xs.length → xs[i]? = some (q.values ((q.front + i) % q.capacity))

/-- Eight inserts, three removes and three inserts fill the array with the front at index 3;
the next insert doubles the capacity on wrapped contents; five removes follow. -/
def wrapped_calls : List (queue_op Int) :=
  [queue_op.insert 1, queue_op.insert 2, queue_op.insert 3, queue_op.insert 4,
   queue_op.insert 5, queue_op.insert 6, queue_op.insert 7, queue_op.insert 8,
   queue_op.remove, queue_op.remove, queue_op.remove,
   queue_op.insert 9, queue_op.insert 10, queue_op.insert 11, queue_op.insert 12,
   queue_op.remove, queue_op.remove, queue_op.remove, queue_op.remove, queue_op.remove]

end Queue

/-!
# Linked priority queue (`src/Priority Queue Linked/priority_queue.c`)

The chain of nodes starting at `front` is the list of the values it holds. A pointer into a
chain, such as `rear`, is the position of the node it points to.
-/

namespace PQ

variable {α : Type}

/-- A node pointer as seen from the chain of one queue: `NULL`, the node at a position of
the chain, or a node that is not in the chain. -/
inductive node_ptr where
  | null : node_ptr
  | idx (i : Nat) : node_ptr
  | stray : node_ptr
  deriving DecidableEq, Repr

/-- The queue header of `priority_queue.h`: `front` is the chain of nodes reached from the
front pointer (empty for `NULL`), given by the values the nodes hold; of the four callbacks
only `compare` is consulted by the operations modelled here. -/
structure priority_queue (α : Type) where
  size : Int
  front : List α
  rear : node_ptr
  compare : α → α → Int

open node_ptr

/-- Function pq_initialize of `priority_queue.c`. -/
def pq_initialize (compare : α → α → Int) : priority_queue α :=
  { size := 0, front := [], rear := null, compare := compare }

/-- Function `pq_size`. -/
def pq_size (pq : priority_queue α) : Int := pq.size

/-- The loop `while (curr != NULL && compare(curr->value, value) > 0)` of `pq_insert` and of
`pq_split_key`, started at `curr`: the number of nodes passed. Afterwards `prev` is the last
node passed and `curr` the node after it. -/
def nodes_above (compare : α → α → Int) (value : α) : List α → Nat
  | [] => 0
  | c :: rest => if compare c value > 0 then nodes_above compare value rest + 1 else 0

/-- A pointer into a chain after a node was linked in at position `k`: it points to the
same node, whose position has moved by one if it was at `k` or behind. -/
def after_link (k : Nat) : node_ptr → node_ptr
  | null => null
  | idx i => if k ≤ i then idx (i + 1) else idx i
  | stray => stray

/-- A pointer into a chain after the first `k` nodes were cut off: the nodes behind keep
their order, the nodes cut off are no longer in the chain. -/
def after_cut (k : Nat) : node_ptr → node_ptr
  | null => null
  | idx i => if k ≤ i then idx (i - k) else stray
  | stray => stray

/-- A pointer into a chain seen from a chain that has `k` more nodes in front of it. -/
def after_prepend (k : Nat) : node_ptr → node_ptr
  | null => null
  | idx i => idx (k + i)
  | stray => stray

/-- The statement `p->next = chain` for a pointer `p` into the chain `front`: the nodes up
to `p` followed by `chain`. Dereferencing `NULL` is undefined, a write into a node outside
the chain is not modelled; both give `none`. -/
def set_next (front : List α) (p : node_ptr) (chain : List α) : Option (List α × Nat) :=
  match p with
  | idx i => if i < front.length then some (front.take (i + 1) ++ chain, i + 1) else none
  | _ => none

/-- Function `pq_insert`. -/
def pq_insert (pq : priority_queue α) (value : α) : Option (priority_queue α) :=
  let k := nodes_above pq.compare value pq.front
  let curr := pq.front.drop k
  match pq.front with
  | [] => some { pq with size := pq.size + 1, front := value :: curr, rear := idx 0 }
  | _ :: _ =>
    if k = 0 then
      some { pq with size := pq.size + 1, front := value :: curr, rear := after_link 0 pq.rear }
    else
      match curr with
      | [] =>
        match set_next pq.front pq.rear (value :: curr) with
        | none => none
        | some (chain, pos) =>
          some { pq with size := pq.size + 1, front := chain, rear := idx pos }
      | _ :: _ =>
        some { pq with size := pq.size + 1, front := pq.front.take k ++ value :: curr,
                       rear := after_link k pq.rear }

/-- Function `pq_peek`: `none` is the failed `assert(pq->front != NULL)`; the queue is only
read and is returned with the result to state that. -/
def pq_peek (pq : priority_queue α) : Option (priority_queue α × α) :=
  match pq.front with
  | [] => none
  | x :: _ => some (pq, x)

/-- Function `pq_remove`: `none` is the failed `assert(pq->front != NULL)`. -/
def pq_remove (pq : priority_queue α) : Option (priority_queue α × α) :=
  match pq.front with
  | [] => none
  | x :: rest =>
    some ({ pq with front := rest, size := pq.size - 1,
                    rear := match rest with
                      | [] => null
                      | _ :: _ => after_cut 1 pq.rear }, x)

/-- Function `move_front_to_rear`: the new target and source; `none` is the failed
assertion on the source or a rear pointer of the target that cannot be followed. -/
def move_front_to_rear (target source : priority_queue α) :
    Option (priority_queue α × priority_queue α) :=
  match source.front with
  | [] => none
  | x :: rest =>
    let source1 := { source with front := rest, size := source.size - 1,
                                 rear := match rest with
                                   | [] => null
                                   | _ :: _ => after_cut 1 source.rear }
    match target.front with
    | [] => some ({ target with front := [x], rear := idx 0, size := target.size + 1 }, source1)
    | _ :: _ =>
      match set_next target.front target.rear [x] with
      | none => none
      | some (chain, pos) =>
        some ({ target with front := chain, rear := idx pos, size := target.size + 1 }, source1)

/-- Function `append_queue`: the new target and the emptied source. -/
def append_queue (target source : priority_queue α) :
    Option (priority_queue α × priority_queue α) :=
  let source1 := { source with front := [], rear := null, size := 0 }
  match target.front with
  | [] =>
    some ({ target with front := source.front, rear := source.rear,
                        size := target.size + source.size }, source1)
  | _ :: _ =>
    match set_next target.front target.rear source.front with
    | none => none
    | some (chain, pos) =>
      some ({ target with front := chain, rear := after_prepend pos source.rear,
                          size := target.size + source.size }, source1)

/-- The `while` loop of `pq_combine`, run for at most `fuel` rounds. -/
def pq_combine_loop : Nat → priority_queue α → priority_queue α → priority_queue α →
    Option (priority_queue α × priority_queue α × priority_queue α)
  | 0, target, source1, source2 =>
    match source1.front, source2.front with
    | _ :: _, _ :: _ => none
    | _, _ => some (target, source1, source2)
  | fuel + 1, target, source1, source2 =>
    match source1.front, source2.front with
    | a :: _, b :: _ =>
      if target.compare b a < 0 then
        match move_front_to_rear target source1 with
        | none => none
        | some (target1, source11) => pq_combine_loop fuel target1 source11 source2
      else
        match move_front_to_rear target source2 with
        | none => none
        | some (target1, source21) => pq_combine_loop fuel target1 source1 source21
    | _, _ => some (target, source1, source2)

/-- Function `pq_combine`: the new target and the two sources. Every round of the loop takes
a node off one source, so the number of source nodes bounds the rounds. -/
def pq_combine (target source1 source2 : priority_queue α) :
    Option (priority_queue α × priority_queue α × priority_queue α) :=
  match pq_combine_loop (source1.front.length + source2.front.length) target source1 source2 with
  | none => none
  | some (t1, s1, s2) =>
    match (match s1.front with
           | [] => some (t1, s1)
           | _ :: _ => append_queue t1 s1) with
    | none => none
    | some (t2, s11) =>
      match (match s2.front with
             | [] => some (t2, s2)
             | _ :: _ => append_queue t2 s2) with
      | none => none
      | some (t3, s21) => some (t3, s11, s21)

/-- Function `pq_split_key`: the new `higher`, `low_equal` and `source`. -/
def pq_split_key (higher low_equal source : priority_queue α) (key : α) :
    priority_queue α × priority_queue α × priority_queue α :=
  let count := nodes_above source.compare key source.front
  let curr := source.front.drop count
  let low1 := match curr with
    | [] => low_equal
    | _ :: _ => { low_equal with front := curr, rear := after_cut count source.rear }
  let high1 := match count with
    | 0 => higher
    | prev + 1 => { higher with front := source.front.take (prev + 1), rear := idx prev }
  ({ high1 with size := count },
   { low1 with size := source.size - count },
   { source with size := 0, front := [], rear := null })

/-- Successive `pq_insert` calls, in list order. -/
def pq_insert_all (pq : priority_queue α) : List α → Option (priority_queue α)
  | [] => some pq
  | v :: vs =>
    match pq_insert pq v with
    | none => none
    | some pq1 => pq_insert_all pq1 vs

/-- The pointer to the last node of a chain, `NULL` for the empty chain. -/
def rear_of (chain : List α) : node_ptr :=
  match chain.length with
  | 0 => null
  | n + 1 => idx n

/-- Priority order of a chain: no element compares less than its successor. -/
def priority_ordered (compare : α → α → Int) : List α → Prop
  | a :: b :: rest => ¬ compare a b < 0 ∧ priority_ordered compare (b :: rest)
  | _ => True

/-- The integer queue holding 5, 3, 1 in priority order. -/
def pq_531 : priority_queue Int :=
  { size := 3, front := [5, 3, 1], rear := idx 2, compare := AVL.data_compare }

/-- The integer queue holding 9, 7, 4, 4, 2 in priority order. -/
def pq_97442 : priority_queue Int :=
  { size := 5, front := [9, 7, 4, 4, 2], rear := idx 4, compare := AVL.data_compare }

/-- The merge that the loop of `pq_combine` and the two `append_queue` calls compute on the
chains of the sources. -/
def merge_chain (compare : α → α → Int) : List α → List α → List α
  | [], ys => ys
  | a :: xs, [] => a :: xs
  | a :: xs, b :: ys =>
    if compare b a < 0 then a :: merge_chain compare xs (b :: ys)
    else b :: merge_chain compare (a :: xs) ys
termination_by xs ys => xs.length + ys.length

/-- The integer queue holding 8, 5, 5, 1 in priority order. -/
def pq_8551 : priority_queue Int :=
  { size := 4, front := [8, 5, 5, 1], rear := idx 3, compare := AVL.data_compare }

/-- The integer queue holding 9, 5, 2 in priority order. -/
def pq_952 : priority_queue Int :=
  { size := 3, front := [9, 5, 2], rear := idx 2, compare := AVL.data_compare }

end PQ

/-!
# Popularity tree (`src/Popularity Tree/pt.c`)
-/

namespace PT

variable {α : Type}

/-- A node pointer of `pt.h`: `nil` is `NULL`, `node value height rcount left right` a
node. -/
inductive pt_node (α : Type) where
  | nil : pt_node α
  | node (value : α) (height rcount : Int) (left right : pt_node α) : pt_node α
  deriving DecidableEq, Repr

/-- The tree header of `pt.h`; of the four callbacks only `compare` is consulted by the
operations modelled here. -/
structure pt (α : Type) where
  count : Int
  root : pt_node α
  compare : α → α → Int

open pt_node

/-- Macro `MAX_HEIGHT(a,b)` of `pt.c`. -/
def MAX_HEIGHT (a b : Int) : Int := if a > b then a else b

/-- Function `pt_node_height`: 0 for `NULL`, else the cached height. -/
def pt_node_height : pt_node α → Int
  | nil => 0
  | node _ h _ _ _ => h

/-- Function `pt_update_height`: dereferences `node`. -/
def pt_update_height : pt_node α → Option (pt_node α)
  | nil => none
  | node v _ rc l r =>
    some (node v (MAX_HEIGHT (pt_node_height l) (pt_node_height r) + 1) rc l r)

/-- The tail of `pt_insert_aux`: `if (inserted) pt_update_height(*node); return inserted;`. -/
def pt_insert_finish (tree : pt α) (n : pt_node α) (inserted : Int) :
    Option (pt α × pt_node α × Int) :=
  if inserted ≠ 0 then
    match pt_update_height n with
    | none => none
    | some n1 => some (tree, n1, inserted)
  else some (tree, n, inserted)

/-- Function `pt_insert_aux`: the updated tree header, the new `*node` and `inserted`. -/
def pt_insert_aux (tree : pt α) : pt_node α → α → Option (pt α × pt_node α × Int)
  | nil, value =>
    pt_insert_finish { tree with count := tree.count + 1 } (node value 1 0 nil nil) 1
  | node v h rc l r, value =>
    let comp := tree.compare v value
    if comp < 0 then
      match pt_insert_aux tree l value with
      | none => none
      | some (tree1, l1, inserted) => pt_insert_finish tree1 (node v h rc l1 r) inserted
    else if comp > 0 then
      match pt_insert_aux tree r value with
      | none => none
      | some (tree1, r1, inserted) => pt_insert_finish tree1 (node v h rc l r1) inserted
    else pt_insert_finish tree (node v h rc l r) 0

/-- Function `pt_rotate_left`: dereferences `node` and `node->right`. -/
def pt_rotate_left : pt_node α → Option (pt_node α)
  | node v h rc l (node tv th trc tl tr) =>
    match pt_update_height (node v h rc l tl) with
    | none => none
    | some n => pt_update_height (node tv th trc n tr)
  | _ => none

/-- Function `pt_rotate_right`: dereferences `node` and `node->left`. -/
def pt_rotate_right : pt_node α → Option (pt_node α)
  | node v h rc (node tv th trc tl tr) r =>
    match pt_update_height (node v h rc tr r) with
    | none => none
    | some n => pt_update_height (node tv th trc tl n)
  | _ => none

/-- The test `child != NULL && node->rcount < child->rcount` of `pt_rebalance`. -/
def rcount_below (rc : Int) : pt_node α → Bool
  | nil => false
  | node _ _ crc _ _ => decide (rc < crc)

/-- Function `pt_rebalance`: dereferences `*node`. -/
def pt_rebalance : pt_node α → Option (pt_node α)
  | nil => none
  | node v h rc l r =>
    if rcount_below rc l then pt_rotate_right (node v h rc l r)
    else if rcount_below rc r then pt_rotate_left (node v h rc l r)
    else some (node v h rc l r)

/-- The tail of `pt_retrieve_aux`: `if (value != NULL) pt_rebalance(node); return value;`. -/
def pt_retrieve_finish (n : pt_node α) (value : Option α) : Option (pt_node α × Option α) :=
  match value with
  | none => some (n, none)
  | some x =>
    match pt_rebalance n with
    | none => none
    | some n1 => some (n1, some x)

/-- Function `pt_retrieve_aux`: the new `*node` and the copy of the value found. -/
def pt_retrieve_aux (tree : pt α) : pt_node α → α → Option (pt_node α × Option α)
  | nil, _ => pt_retrieve_finish nil none
  | node v h rc l r, key =>
    let comp := tree.compare v key
    if comp = 0 then pt_retrieve_finish (node v h (rc + 1) l r) (some v)
    else if comp < 0 then
      match pt_retrieve_aux tree l key with
      | none => none
      | some (l1, value) => pt_retrieve_finish (node v h rc l1 r) value
    else if comp > 0 then
      match pt_retrieve_aux tree r key with
      | none => none
      | some (r1, value) => pt_retrieve_finish (node v h rc l r1) value
    else pt_retrieve_finish (node v h rc l r) none

/-- The test `child != NULL && child->rcount > node->rcount` of `pt_valid_aux`. -/
def rcount_above (rc : Int) : pt_node α → Bool
  | nil => false
  | node _ _ crc _ _ => decide (crc > rc)

/-- The test `node->left != NULL && compare(node->value, node->left->value) >= 0`. -/
def left_out_of_order (tree : pt α) (v : α) : pt_node α → Bool
  | nil => false
  | node lv _ _ _ _ => decide (tree.compare v lv ≥ 0)

/-- The test `node->right != NULL && compare(node->value, node->right->value) <= 0`. -/
def right_out_of_order (tree : pt α) (v : α) : pt_node α → Bool
  | nil => false
  | node rv _ _ _ _ => decide (tree.compare v rv ≤ 0)

/-- Function `pt_valid_aux`; the C truth values 1 and 0 are `true` and `false`. -/
def pt_valid_aux (tree : pt α) : pt_node α → Bool
  | nil => true
  | node v h rc l r =>
    if rcount_above rc l || rcount_above rc r then false
    else if left_out_of_order tree v l || right_out_of_order tree v r then false
    else if MAX_HEIGHT (pt_node_height l) (pt_node_height r)
        ≠ pt_node_height (node v h rc l r) - 1 then false
    else pt_valid_aux tree l && pt_valid_aux tree r

/-- Function pt_initialize of `pt.c`: an empty tree with the given comparison callback. -/
def pt_initialize (compare : α → α → Int) : pt α :=
  { count := 0, root := nil, compare := compare }

/-- Function `pt_insert`: the new tree header and the result. -/
def pt_insert (tree : pt α) (value : α) : Option (pt α × Int) :=
  match pt_insert_aux tree tree.root value with
  | none => none
  | some (tree1, root1, inserted) => some ({ tree1 with root := root1 }, inserted)

/-- Function `pt_retrieve`: the new tree header and the copy of the value found. -/
def pt_retrieve (tree : pt α) (key : α) : Option (pt α × Option α) :=
  match pt_retrieve_aux tree tree.root key with
  | none => none
  | some (root1, value) => some ({ tree with root := root1 }, value)

/-- Function `pt_valid`. -/
def pt_valid (tree : pt α) : Bool := pt_valid_aux tree tree.root

/-- A call of the mutating interface: `pt_insert(tree, v)` or `pt_retrieve(tree, k)`. -/
inductive pt_op (α : Type) where
  | insert (v : α) : pt_op α
  | retrieve (k : α) : pt_op α

/-- A call sequence run on a tree, results discarded. -/
def pt_run (tree : pt α) : List (pt_op α) → Option (pt α)
  | [] => some tree
  | pt_op.insert v :: ops =>
    match pt_insert tree v with
    | none => none
    | some (tree1, _) => pt_run tree1 ops
  | pt_op.retrieve k :: ops =>
    match pt_retrieve tree k with
    | none => none
    | some (tree1, _) => pt_run tree1 ops

/-- No child has a higher retrieval count than its parent, at every node; the test at a
node is the one `pt_valid_aux` makes. -/
def rcount_heap : pt_node α → Prop
  | nil => True
  | node _ _ rc l r =>
    rcount_above rc l = false ∧ rcount_above rc r = false ∧ rcount_heap l ∧ rcount_heap r

/-- The values of a subtree with their retrieval counts, listed left subtree, node, right
subtree. -/
def pt_pairs : pt_node α → List (α × Int)
  | nil => []
  | node v _ rc l r => pt_pairs l ++ (v, rc) :: pt_pairs r

/-- The in-order sequence of the values of a subtree. -/
def pt_elems (t : pt_node α) : List α := (pt_pairs t).map Prod.fst

/-- The integer popularity tree left by inserting 1, 2, 3, 4 and retrieving 1. -/
def pt_chain : pt Int :=
  { count := 4, compare := AVL.data_compare,
    root := node 1 4 1 (node 2 3 0 (node 3 2 0 (node 4 1 0 nil nil) nil) nil) nil }

end PT

/-! # Verification of the AVL tree -/

namespace AVL

open avl_node

variable {α : Type}

/-! ## Height and rotation lemmas -/

/-- The macro computes the maximum. -/
theorem MAX_HEIGHT_eq (a b : Int) : MAX_HEIGHT a b = max a b := by
  unfold MAX_HEIGHT; split <;> omega

@[simp] theorem avl_node_height_nil : avl_node_height (nil : avl_node α) = 0 := rfl

@[simp] theorem avl_node_height_node (v : α) (h : Int) (l r : avl_node α) :
    avl_node_height (node v h l r) = h := rfl

/-- Cached heights of a balanced subtree are non-negative. -/
theorem height_nonneg : ∀ t : avl_node α, Balanced t → 0 ≤ avl_node_height t
  | nil, _ => by simp
  | node v h l r, hb => by
    obtain ⟨_, _, h3, hl, hr⟩ := hb
    have := height_nonneg l hl
    have := height_nonneg r hr
    simp only [avl_node_height_node, MAX_HEIGHT_eq] at *
    omega

/-- Rebalancing a node whose subtrees are balanced and whose child heights differ by at most 2
succeeds, yields a balanced subtree with the same in-order listing, and the new height is
`1 + max` of the child heights, or `max` of them after a rotation. -/
theorem rebalance_spec (v : α) (h : Int) (l r : avl_node α)
    (hl : Balanced l) (hr : Balanced r)
    (h1 : avl_node_height l - avl_node_height r ≤ 2)
    (h2 : avl_node_height r - avl_node_height l ≤ 2) :
    ∃ t, avl_rebalance (node v h l r) = some t ∧ Balanced t ∧
      elems t = elems l ++ v :: elems r ∧
      (avl_node_height t = max (avl_node_height l) (avl_node_height r) + 1 ∨
       (avl_node_height t = max (avl_node_height l) (avl_node_height r) ∧
        (avl_node_height l - avl_node_height r = 2 ∨
         avl_node_height r - avl_node_height l = 2))) ∧
      (avl_node_height l - avl_node_height r ≤ 1 → avl_node_height r - avl_node_height l ≤ 1 →
        t = node v (MAX_HEIGHT (avl_node_height l) (avl_node_height r) + 1) l r) := by
  have hln := height_nonneg l hl
  have hrn := height_nonneg r hr
  by_cases hb1 : avl_node_height l - avl_node_height r > 1
  · cases l with
    | nil => simp at hb1 hrn; omega
    | node lv lh ll lr =>
      obtain ⟨a1, a2, a3, hll, hlr⟩ := hl
      have hlln := height_nonneg ll hll
      have hlrn := height_nonneg lr hlr
      simp only [avl_node_height_node, MAX_HEIGHT_eq] at *
      by_cases hb2 : avl_node_height ll - avl_node_height lr ≥ 0
      · refine ⟨node lv (MAX_HEIGHT (avl_node_height ll) (MAX_HEIGHT (avl_node_height lr) (avl_node_height r) + 1) + 1) ll
          (node v (MAX_HEIGHT (avl_node_height lr) (avl_node_height r) + 1) lr r), ?_, ?_⟩
        · simp [avl_rebalance, avl_update_height, cAnd, hb1, avl_balance_value, hb2, avl_rotate_right]
        · simp only [Balanced, elems, avl_node_height_node, MAX_HEIGHT_eq]
          refine ⟨⟨?_, ?_, ?_, hll, ?_, ?_, ?_, hlr, hr⟩, ?_, ?_, ?_⟩ <;> first | omega | simp
      · cases lr with
        | nil => simp at hb2 hlln; omega
        | node lrv lrh lrl lrr =>
          obtain ⟨b1, b2, b3, hlrl, hlrr⟩ := hlr
          have hlrln := height_nonneg lrl hlrl
          have hlrrn := height_nonneg lrr hlrr
          simp only [avl_node_height_node, MAX_HEIGHT_eq] at *
          refine ⟨node lrv (MAX_HEIGHT (MAX_HEIGHT (avl_node_height ll) (avl_node_height lrl) + 1)
              (MAX_HEIGHT (avl_node_height lrr) (avl_node_height r) + 1) + 1)
            (node lv (MAX_HEIGHT (avl_node_height ll) (avl_node_height lrl) + 1) ll lrl)
            (node v (MAX_HEIGHT (avl_node_height lrr) (avl_node_height r) + 1) lrr r), ?_, ?_⟩
          · have hb3 : avl_node_height ll < lrh := by omega
            have hb4 : ¬ (lh - avl_node_height r < -1) := by omega
            simp [avl_rebalance, avl_update_height, cAnd, hb1, avl_balance_value, hb2, hb3, hb4,
              avl_rotate_right, avl_rotate_left]
          · simp only [Balanced, elems, avl_node_height_node, MAX_HEIGHT_eq]
            refine ⟨⟨?_, ?_, ?_, ⟨?_, ?_, ?_, hll, hlrl⟩, ?_, ?_, ?_, hlrr, hr⟩, ?_, ?_, ?_⟩ <;>
              first | omega | simp
  · by_cases hc1 : avl_node_height l - avl_node_height r < -1
    · cases r with
      | nil => simp at hc1 hln; omega
      | node rv rh rl rr =>
        obtain ⟨a1, a2, a3, hrl, hrr⟩ := hr
        have hrln := height_nonneg rl hrl
        have hrrn := height_nonneg rr hrr
        simp only [avl_node_height_node, MAX_HEIGHT_eq] at *
        by_cases hc2 : avl_node_height rl - avl_node_height rr ≤ 0
        · refine ⟨node rv (MAX_HEIGHT (MAX_HEIGHT (avl_node_height l) (avl_node_height rl) + 1)
              (avl_node_height rr) + 1)
            (node v (MAX_HEIGHT (avl_node_height l) (avl_node_height rl) + 1) l rl) rr, ?_, ?_⟩
          · simp [avl_rebalance, avl_update_height, cAnd, hb1, hc1, avl_balance_value, hc2,
              avl_rotate_left]
          · simp only [Balanced, elems, avl_node_height_node, MAX_HEIGHT_eq]
            refine ⟨⟨?_, ?_, ?_, ⟨?_, ?_, ?_, hl, hrl⟩, hrr⟩, ?_, ?_, ?_⟩ <;> first | omega | simp
        · cases rl with
          | nil => simp at hc2 hrrn; omega
          | node rlv rlh rll rlr =>
            obtain ⟨b1, b2, b3, hrll, hrlr⟩ := hrl
            have hrlln := height_nonneg rll hrll
            have hrlrn := height_nonneg rlr hrlr
            simp only [avl_node_height_node, MAX_HEIGHT_eq] at *
            refine ⟨node rlv (MAX_HEIGHT (MAX_HEIGHT (avl_node_height l) (avl_node_height rll) + 1)
                (MAX_HEIGHT (avl_node_height rlr) (avl_node_height rr) + 1) + 1)
              (node v (MAX_HEIGHT (avl_node_height l) (avl_node_height rll) + 1) l rll)
              (node rv (MAX_HEIGHT (avl_node_height rlr) (avl_node_height rr) + 1) rlr rr), ?_, ?_⟩
            · have hc3 : avl_node_height rr < rlh := by omega
              simp [avl_rebalance, avl_update_height, cAnd, hb1, hc1, avl_balance_value, hc2, hc3,
                avl_rotate_right, avl_rotate_left]
            · simp only [Balanced, elems, avl_node_height_node, MAX_HEIGHT_eq]
              refine ⟨⟨?_, ?_, ?_, ⟨?_, ?_, ?_, hl, hrll⟩, ?_, ?_, ?_, hrlr, hrr⟩, ?_, ?_, ?_⟩ <;>
                first | omega | simp
    · refine ⟨node v (MAX_HEIGHT (avl_node_height l) (avl_node_height r) + 1) l r, ?_, ?_⟩
      · simp [avl_rebalance, avl_update_height, avl_balance_value, cAnd, hb1, hc1]
      · simp only [Balanced, elems, avl_node_height_node, MAX_HEIGHT_eq]
        refine ⟨⟨?_, ?_, ?_, hl, hr⟩, ?_, ?_, ?_⟩ <;> first | omega | simp

/-! ## Order lemmas and insertion -/

/-- Strict comparison is transitive. -/
theorem CompareOrder.lt_trans {compare : α → α → Int} (hc : CompareOrder compare) {a b c : α}
    (h1 : compare a b < 0) (h2 : compare b c < 0) : compare a c < 0 := by
  by_contra hn
  have h3 : compare c a ≤ 0 := by
    by_contra h4
    have := (hc.swap a c).2 (by omega)
    omega
  have h5 := hc.le_trans c a b h3 (by omega)
  have := (hc.swap b c).1 h2
  omega

/-- Sortedness of the in-order listing of a node, split at the node value. -/
theorem sorted_node {compare : α → α → Int} (hc : CompareOrder compare) (v : α) (l r : List α) :
    Sorted compare (l ++ v :: r) ↔
      Sorted compare l ∧ Sorted compare r ∧ (∀ x ∈ l, compare v x < 0) ∧
        (∀ y ∈ r, compare y v < 0) := by
  unfold Sorted
  rw [List.pairwise_append, List.pairwise_cons]
  constructor
  · rintro ⟨h1, ⟨h2, h3⟩, h4⟩
    exact ⟨h1, h3, fun x hx => h4 x hx v (by simp), h2⟩
  · rintro ⟨h1, h2, h3, h4⟩
    refine ⟨h1, ⟨h4, h2⟩, ?_⟩
    intro x hx y hy
    rcases List.mem_cons.1 hy with rfl | hy
    · exact h3 x hx
    · exact hc.lt_trans (h4 y hy) (h3 x hx)

/-- Membership in a list with one element put in the middle. -/
theorem mem_insert_mid (x v : α) (p q : List α) : x ∈ p ++ v :: q ↔ x = v ∨ x ∈ p ++ q := by
  simp only [List.mem_append, List.mem_cons]
  constructor
  · rintro (h | h | h)
    · exact Or.inr (Or.inl h)
    · exact Or.inl h
    · exact Or.inr (Or.inr h)
  · rintro (h | h | h)
    · exact Or.inr (Or.inl h)
    · exact Or.inl h
    · exact Or.inr (Or.inr h)

/-- The tail of `avl_insert_aux` after a successful insertion below. -/
theorem insert_finish_spec (tree : avl α) (v : α) (h : Int) (l r : avl_node α)
    (hl : Balanced l) (hr : Balanced r)
    (h1 : avl_node_height l - avl_node_height r ≤ 2)
    (h2 : avl_node_height r - avl_node_height l ≤ 2) :
    ∃ t, avl_insert_finish tree (node v h l r) 1 = some (tree, t, 1) ∧ Balanced t ∧
      elems t = elems l ++ v :: elems r ∧
      (avl_node_height t = max (avl_node_height l) (avl_node_height r) + 1 ∨
       (avl_node_height t = max (avl_node_height l) (avl_node_height r) ∧
        (avl_node_height l - avl_node_height r = 2 ∨
         avl_node_height r - avl_node_height l = 2))) ∧
      (avl_node_height l - avl_node_height r ≤ 1 → avl_node_height r - avl_node_height l ≤ 1 →
        t = node v (MAX_HEIGHT (avl_node_height l) (avl_node_height r) + 1) l r) := by
  obtain ⟨t, e, rest⟩ := rebalance_spec v h l r hl hr h1 h2
  exact ⟨t, by simp [avl_insert_finish, e], rest⟩

/-- What `avl_insert_aux` does on a balanced subtree: either the value is found and nothing
changes, or it is put into the in-order listing, size grows by one, the height grows by at
most one, balance is restored and sortedness is kept. -/
theorem insert_aux_spec (tree : avl α) (v : α) : ∀ t : avl_node α, Balanced t →
    ∃ t1 ins, avl_insert_aux tree t v = some ({ tree with size := tree.size + ins }, t1, ins) ∧
      Balanced t1 ∧
      ((ins = 0 ∧ t1 = t ∧ avl_retrieve_loop tree t v ≠ none) ∨
       (ins = 1 ∧ avl_retrieve_loop tree t v = none ∧
        (∃ l1 l2, elems t = l1 ++ l2 ∧ elems t1 = l1 ++ v :: l2) ∧
        (avl_node_height t1 = avl_node_height t ∨ avl_node_height t1 = avl_node_height t + 1) ∧
        (CompareOrder tree.compare → Sorted tree.compare (elems t) →
          Sorted tree.compare (elems t1)))) := by
  intro t
  induction t with
  | nil =>
    intro _
    refine ⟨node v 1 nil nil, 1, ?_, ?_, Or.inr ⟨rfl, rfl, ⟨[], [], rfl, rfl⟩, Or.inr rfl, ?_⟩⟩
    · simp [avl_insert_aux, avl_insert_finish, avl_rebalance, avl_update_height, avl_balance_value,
        cAnd, MAX_HEIGHT]
    · simp [Balanced, MAX_HEIGHT]
    · intro _ _; simp [elems, Sorted]
  | node w h l r ihl ihr =>
    intro hb
    obtain ⟨a1, a2, a3, hl, hr⟩ := hb
    have hln := height_nonneg l hl
    have hrn := height_nonneg r hr
    by_cases c1 : tree.compare w v < 0
    · obtain ⟨l1, ins, e, hl1, hcase⟩ := ihl hl
      rcases hcase with ⟨i0, el, hret⟩ | ⟨i1, hret, ⟨p, q, ep, eq⟩, hh, hs⟩
      · subst i0; subst el
        refine ⟨node w h l1 r, 0, ?_, ⟨a1, a2, a3, hl, hr⟩, Or.inl ⟨rfl, rfl, ?_⟩⟩
        · simp [avl_insert_aux, c1, e, avl_insert_finish]
        · simpa [avl_retrieve_loop, c1] using hret
      · subst i1
        obtain ⟨t, et, bt, elt, ht, _⟩ := insert_finish_spec { tree with size := tree.size + 1 } w h l1 r hl1 hr
          (by omega) (by omega)
        refine ⟨t, 1, ?_, bt, Or.inr ⟨rfl, ?_, ⟨p, q ++ w :: elems r, ?_, ?_⟩, ?_, ?_⟩⟩
        · simp [avl_insert_aux, c1, e, et]
        · simpa [avl_retrieve_loop, c1] using hret
        · simp [elems, ep]
        · simp [elt, eq]
        · rw [MAX_HEIGHT_eq] at a3
          simp only [avl_node_height_node] at ht ⊢; omega
        · intro hc hso
          rw [elt]
          simp only [elems] at hso
          rw [sorted_node hc] at hso ⊢
          obtain ⟨s1, s2, s3, s4⟩ := hso
          refine ⟨hs hc s1, s2, ?_, s4⟩
          intro x hx
          rw [eq] at hx
          have : x = v ∨ x ∈ elems l := by
            rw [ep]; exact (mem_insert_mid x v p q).1 hx
          rcases this with rfl | hx
          · exact c1
          · exact s3 x hx
    · by_cases c2 : tree.compare w v > 0
      · obtain ⟨r1, ins, e, hr1, hcase⟩ := ihr hr
        rcases hcase with ⟨i0, el, hret⟩ | ⟨i1, hret, ⟨p, q, ep, eq⟩, hh, hs⟩
        · subst i0; subst el
          refine ⟨node w h l r1, 0, ?_, ⟨a1, a2, a3, hl, hr⟩, Or.inl ⟨rfl, rfl, ?_⟩⟩
          · simp [avl_insert_aux, c1, c2, e, avl_insert_finish]
          · simpa [avl_retrieve_loop, c1, c2] using hret
        · subst i1
          obtain ⟨t, et, bt, elt, ht, _⟩ := insert_finish_spec { tree with size := tree.size + 1 } w h l r1 hl hr1
            (by omega) (by omega)
          refine ⟨t, 1, ?_, bt, Or.inr ⟨rfl, ?_, ⟨elems l ++ w :: p, q, ?_, ?_⟩, ?_, ?_⟩⟩
          · simp [avl_insert_aux, c1, c2, e, et]
          · simpa [avl_retrieve_loop, c1, c2] using hret
          · simp [elems, ep]
          · simp [elt, eq]
          · rw [MAX_HEIGHT_eq] at a3
            simp only [avl_node_height_node] at ht ⊢; omega
          · intro hc hso
            rw [elt]
            simp only [elems] at hso
            rw [sorted_node hc] at hso ⊢
            obtain ⟨s1, s2, s3, s4⟩ := hso
            refine ⟨s1, hs hc s2, s3, ?_⟩
            intro x hx
            rw [eq] at hx
            have : x = v ∨ x ∈ elems r := by
              rw [ep]; exact (mem_insert_mid x v p q).1 hx
            rcases this with rfl | hx
            · exact (hc.swap _ _).2 c2
            · exact s4 x hx
      · refine ⟨node w h l r, 0, ?_, ⟨a1, a2, a3, hl, hr⟩, Or.inl ⟨rfl, rfl, ?_⟩⟩
        · simp [avl_insert_aux, c1, c2, avl_insert_finish]
        · simp [avl_retrieve_loop, c1, c2]

/-! ## Removal -/

/-- What `avl_delete_node_left` does on a balanced node with a right child: it detaches the
last node of the in-order listing and leaves a balanced subtree at most one lower. -/
theorem delete_node_left_spec : ∀ (p : avl_node α), Balanced p →
    (∃ pv ph pl cv ch cl cr, p = node pv ph pl (node cv ch cl cr)) →
    ∃ p1 x xh xl xr, avl_delete_node_left p = some (p1, node x xh xl xr) ∧ Balanced p1 ∧
      elems p = elems p1 ++ [x] ∧
      (avl_node_height p1 = avl_node_height p ∨ avl_node_height p1 = avl_node_height p - 1) := by
  intro p
  induction p with
  | nil => rintro _ ⟨pv, ph, pl, cv, ch, cl, cr, h⟩; cases h
  | node pv ph pl child _ ih =>
    rintro ⟨a1, a2, a3, hpl, hch⟩ ⟨_, _, _, cv, ch, cl, cr, h⟩
    cases h
    have hpln := height_nonneg pl hpl
    rw [MAX_HEIGHT_eq] at a3
    cases cr with
    | nil =>
      obtain ⟨b1, b2, b3, hcl, _⟩ := hch
      have hcln := height_nonneg cl hcl
      rw [MAX_HEIGHT_eq] at b3
      simp only [avl_node_height_node, avl_node_height_nil] at *
      obtain ⟨t, et, bt, elt, ht, _⟩ := rebalance_spec pv ph pl cl hpl hcl (by omega) (by omega)
      refine ⟨t, cv, ch, cl, nil, ?_, bt, ?_, ?_⟩
      · simp [avl_delete_node_left, et]
      · simp [elems, elt]
      · omega
    | node rv rh rl rr =>
      obtain ⟨c1, x, xh, xl, xr, e, hc1, el, hh⟩ := ih hch ⟨_, _, _, _, _, _, _, rfl⟩
      have hc1n := height_nonneg c1 hc1
      simp only [avl_node_height_node] at *
      obtain ⟨t, et, bt, elt, ht, _⟩ := rebalance_spec pv ph pl c1 hpl hc1 (by omega) (by omega)
      refine ⟨t, x, xh, xl, xr, ?_, bt, ?_, ?_⟩
      · rw [avl_delete_node_left]; simp only [e, et]
      · rw [elt]; simp only [elems] at el ⊢; rw [el]; simp
      · omega

/-- The tail of `avl_remove_aux` after a removal at or below the node. -/
theorem remove_finish_spec (tree : avl α) (x v : α) (h : Int) (l r : avl_node α)
    (hl : Balanced l) (hr : Balanced r)
    (h1 : avl_node_height l - avl_node_height r ≤ 2)
    (h2 : avl_node_height r - avl_node_height l ≤ 2) :
    ∃ t, avl_remove_finish tree (node v h l r) (some x) = some (tree, t, some x) ∧ Balanced t ∧
      elems t = elems l ++ v :: elems r ∧
      (avl_node_height t = max (avl_node_height l) (avl_node_height r) + 1 ∨
       (avl_node_height t = max (avl_node_height l) (avl_node_height r) ∧
        (avl_node_height l - avl_node_height r = 2 ∨
         avl_node_height r - avl_node_height l = 2))) ∧
      (avl_node_height l - avl_node_height r ≤ 1 → avl_node_height r - avl_node_height l ≤ 1 →
        t = node v (MAX_HEIGHT (avl_node_height l) (avl_node_height r) + 1) l r) := by
  obtain ⟨t, e, rest⟩ := rebalance_spec v h l r hl hr h1 h2
  exact ⟨t, by simp [avl_remove_finish, e], rest⟩

/-- What `avl_remove_aux` does on a balanced subtree: either the key is absent and nothing
changes, or the value found by the descent is taken out of the in-order listing, size drops
by one, the height drops by at most one and balance is restored. -/
theorem remove_aux_spec (tree : avl α) (k : α) : ∀ t : avl_node α, Balanced t →
    (avl_retrieve_loop tree t k = none ∧ avl_remove_aux tree t k = some (tree, t, none)) ∨
    (∃ x t1 p q, avl_retrieve_loop tree t k = some x ∧
      avl_remove_aux tree t k = some ({ tree with size := tree.size - 1 }, t1, some x) ∧
      Balanced t1 ∧ elems t = p ++ x :: q ∧ elems t1 = p ++ q ∧
      (avl_node_height t1 = avl_node_height t ∨ avl_node_height t1 = avl_node_height t - 1)) := by
  intro t
  induction t with
  | nil => intro _; left; simp [avl_retrieve_loop, avl_remove_aux, avl_remove_finish]
  | node w h l r ihl ihr =>
    intro hb
    obtain ⟨a1, a2, a3, hl, hr⟩ := hb
    have hln := height_nonneg l hl
    have hrn := height_nonneg r hr
    rw [MAX_HEIGHT_eq] at a3
    by_cases c1 : tree.compare w k < 0
    · rcases ihl hl with ⟨e1, e2⟩ | ⟨x, l1, p, q, e1, e2, hl1, ep, eq, hh⟩
      · left
        simp [avl_retrieve_loop, avl_remove_aux, avl_remove_finish, c1, e1, e2]
      · right
        have hl1n := height_nonneg l1 hl1
        obtain ⟨t, et, bt, elt, ht, _⟩ := remove_finish_spec { tree with size := tree.size - 1 }
          x w h l1 r hl1 hr (by omega) (by omega)
        refine ⟨x, t, p, q ++ w :: elems r, ?_, ?_, bt, ?_, ?_, ?_⟩
        · simpa [avl_retrieve_loop, c1] using e1
        · simp [avl_remove_aux, c1, e2, et]
        · simp [elems, ep]
        · simp [elt, eq]
        · simp only [avl_node_height_node]; omega
    · by_cases c2 : tree.compare w k > 0
      · rcases ihr hr with ⟨e1, e2⟩ | ⟨x, r1, p, q, e1, e2, hr1, ep, eq, hh⟩
        · left
          simp [avl_retrieve_loop, avl_remove_aux, avl_remove_finish, c1, c2, e1, e2]
        · right
          have hr1n := height_nonneg r1 hr1
          obtain ⟨t, et, bt, elt, ht, _⟩ := remove_finish_spec { tree with size := tree.size - 1 }
            x w h l r1 hl hr1 (by omega) (by omega)
          refine ⟨x, t, elems l ++ w :: p, q, ?_, ?_, bt, ?_, ?_, ?_⟩
          · simpa [avl_retrieve_loop, c1, c2] using e1
          · simp [avl_remove_aux, c1, c2, e2, et]
          · simp [elems, ep]
          · simp [elt, eq]
          · simp only [avl_node_height_node]; omega
      · right
        have eret : avl_retrieve_loop tree (node w h l r) k = some w := by
          simp [avl_retrieve_loop, c1, c2]
        cases l with
        | nil =>
          cases r with
          | nil =>
            refine ⟨w, nil, [], [], eret, ?_, trivial, rfl, rfl, ?_⟩
            · simp [avl_remove_aux, c1, c2, avl_remove_finish]
            · simp only [avl_node_height_node, avl_node_height_nil] at *; omega
          | node rv rh rl rr =>
            obtain ⟨b1, b2, b3, hrl, hrr⟩ := hr
            obtain ⟨t, et, bt, elt, ht, hsame⟩ := remove_finish_spec { tree with size := tree.size - 1 }
              w rv rh rl rr hrl hrr (by omega) (by omega)
            refine ⟨w, t, [], elems (node rv rh rl rr), eret, ?_, bt, rfl, ?_, ?_⟩
            · simp [avl_remove_aux, c1, c2, et]
            · simp [elems, elt]
            · rw [MAX_HEIGHT_eq] at b3
              simp only [avl_node_height_node, avl_node_height_nil] at *; omega
        | node lv lh ll lr =>
          obtain ⟨b1, b2, b3, hll, hlr⟩ := hl
          have hlln := height_nonneg ll hll
          have hlrn := height_nonneg lr hlr
          rw [MAX_HEIGHT_eq] at b3
          cases r with
          | nil =>
            obtain ⟨t, et, bt, elt, ht, hsame⟩ := remove_finish_spec { tree with size := tree.size - 1 }
              w lv lh ll lr hll hlr (by omega) (by omega)
            refine ⟨w, t, elems (node lv lh ll lr), [], eret, ?_, bt, rfl, ?_, ?_⟩
            · simp [avl_remove_aux, c1, c2, et]
            · simp [elems, elt]
            · simp only [avl_node_height_node, avl_node_height_nil] at *; omega
          | node rv rh rl rr =>
            cases lr with
            | nil =>
              simp only [avl_node_height_node, avl_node_height_nil] at *
              obtain ⟨t, et, bt, elt, ht, hsame⟩ := remove_finish_spec
                { tree with size := tree.size - 1 } w lv lh ll (node rv rh rl rr) hll hr
                (by simp only [avl_node_height_node]; omega)
                (by simp only [avl_node_height_node]; omega)
              refine ⟨w, t, elems (node lv lh ll nil), elems (node rv rh rl rr), eret, ?_, bt,
                rfl, ?_, ?_⟩
              · simp [avl_remove_aux, c1, c2, et]
              · simp [elems, elt]
              · simp only [avl_node_height_node] at ht ⊢; omega
            | node lrv lrh lrl lrr =>
              obtain ⟨l1, x, xh, xl, xr, ed, hl1, el, hh⟩ := delete_node_left_spec
                (node lv lh ll (node lrv lrh lrl lrr)) ⟨b1, b2, by rw [MAX_HEIGHT_eq]; exact b3, hll, hlr⟩
                ⟨_, _, _, _, _, _, _, rfl⟩
              have hl1n := height_nonneg l1 hl1
              simp only [avl_node_height_node] at *
              obtain ⟨t, et, bt, elt, ht, hsame⟩ := remove_finish_spec
                { tree with size := tree.size - 1 } w x xh l1 (node rv rh rl rr) hl1 hr
                (by simp only [avl_node_height_node]; omega)
                (by simp only [avl_node_height_node]; omega)
              refine ⟨w, t, elems (node lv lh ll (node lrv lrh lrl lrr)), elems (node rv rh rl rr),
                eret, ?_, bt, rfl, ?_, ?_⟩
              · simp [avl_remove_aux, c1, c2, ed, et]
              · rw [elt, el]; simp
              · simp only [avl_node_height_node] at ht ⊢; omega

/-! ## The validity check -/

/-- One step of `avl_valid_aux` at a node. -/
theorem valid_aux_node (tree : avl α) (v : α) (h : Int) (l r : avl_node α) (mn mx : Option α) :
    avl_valid_aux tree (node v h l r) mn mx = true ↔
      InBounds tree.compare mn mx v ∧
      (avl_node_height l - avl_node_height r ≤ 1 ∧ avl_node_height r - avl_node_height l ≤ 1) ∧
      h = MAX_HEIGHT (avl_node_height l) (avl_node_height r) + 1 ∧
      avl_valid_aux tree l mn (some v) = true ∧ avl_valid_aux tree r (some v) mx = true := by
  have habs : ∀ a : Int, ¬ (|a| > 1) ↔ (a ≤ 1 ∧ -a ≤ 1) := by
    intro a; rw [not_lt, abs_le]; constructor <;> rintro ⟨h1, h2⟩ <;> constructor <;> omega
  unfold InBounds
  have hmax : MAX_HEIGHT (avl_node_height l) (avl_node_height r) = h - 1 ↔
      h = MAX_HEIGHT (avl_node_height l) (avl_node_height r) + 1 := by
    constructor <;> intro e <;> omega
  cases mn <;> cases mx <;> rw [avl_valid_aux] <;> (simp [habs, hmax]; try tauto)

/-- The check `avl_valid_aux` accepts exactly the balanced subtrees with a sorted in-order
listing whose values all pass the two bound tests. -/
theorem valid_aux_iff (tree : avl α) (hc : CompareOrder tree.compare) :
    ∀ (t : avl_node α) (mn mx : Option α),
      avl_valid_aux tree t mn mx = true ↔
        Balanced t ∧ Sorted tree.compare (elems t) ∧
          ∀ x ∈ elems t, InBounds tree.compare mn mx x := by
  intro t
  induction t with
  | nil => intro mn mx; simp [avl_valid_aux, Balanced, Sorted, elems]
  | node v h l r ihl ihr =>
    intro mn mx
    rw [valid_aux_node, ihl, ihr]
    simp only [elems, sorted_node hc, Balanced]
    constructor
    · rintro ⟨hv, ⟨a1, a2⟩, a3, ⟨bl, sl, il⟩, ⟨br, sr, ir⟩⟩
      refine ⟨⟨a1, a2, a3, bl, br⟩, ⟨sl, sr, fun x hx => (il x hx).2 v rfl,
        fun y hy => (hc.swap _ _).2 ((ir y hy).1 v rfl)⟩, ?_⟩
      intro x hx
      rcases List.mem_append.1 hx with hx | hx
      · exact ⟨(il x hx).1, fun m hm => hc.lt_trans (hv.2 m hm) ((il x hx).2 v rfl)⟩
      · rcases List.mem_cons.1 hx with rfl | hx
        · exact hv
        · refine ⟨fun m hm => ?_, (ir x hx).2⟩
          have h1 := (hc.swap _ _).2 (hv.1 m hm)
          have h2 := (hc.swap _ _).2 ((ir x hx).1 v rfl)
          exact (hc.swap _ _).1 (hc.lt_trans h2 h1)
    · rintro ⟨⟨a1, a2, a3, bl, br⟩, ⟨sl, sr, ol, or⟩, hin⟩
      refine ⟨hin v (by simp), ⟨a1, a2⟩, a3, ⟨bl, sl, fun x hx => ⟨(hin x (by simp [hx])).1, ?_⟩⟩,
        ⟨br, sr, fun x hx => ⟨?_, (hin x (by simp [hx])).2⟩⟩⟩
      · intro m hm; cases hm; exact ol x hx
      · intro m hm; cases hm; exact (hc.swap _ _).1 (or x hx)

/-- The integer comparison meets the contract on `compare`. -/
theorem data_compare_order : CompareOrder data_compare := by
  constructor
  · intro a b; unfold data_compare; split_ifs <;> omega
  · intro a b c; unfold data_compare; split_ifs <;> omega

/-- The check `avl_valid` accepts exactly the balanced trees with a sorted in-order listing. -/
theorem valid_iff (tree : avl α) (hc : CompareOrder tree.compare) :
    avl_valid tree = true ↔ Balanced tree.root ∧ Sorted tree.compare (elems tree.root) := by
  unfold avl_valid
  rw [valid_aux_iff tree hc]
  constructor
  · rintro ⟨h1, h2, _⟩; exact ⟨h1, h2⟩
  · rintro ⟨h1, h2⟩
    refine ⟨h1, h2, fun x _ => ⟨?_, ?_⟩⟩ <;> intro m hm <;> cases hm

/-- The behaviour of `avl_insert` on a balanced tree. -/
theorem insert_spec (tree : avl α) (v : α) (hb : Balanced tree.root) :
    ∃ t1 ins, avl_insert tree v = some ({ tree with size := tree.size + ins, root := t1 }, ins) ∧
      Balanced t1 ∧
      ((ins = 0 ∧ t1 = tree.root ∧ avl_retrieve_loop tree tree.root v ≠ none) ∨
       (ins = 1 ∧ avl_retrieve_loop tree tree.root v = none ∧
        (∃ l1 l2, elems tree.root = l1 ++ l2 ∧ elems t1 = l1 ++ v :: l2) ∧
        (CompareOrder tree.compare → Sorted tree.compare (elems tree.root) →
          Sorted tree.compare (elems t1)))) := by
  obtain ⟨t1, ins, e, b1, hcase⟩ := insert_aux_spec tree v tree.root hb
  refine ⟨t1, ins, by simp [avl_insert, e], b1, ?_⟩
  rcases hcase with h | ⟨h1, h2, h3, _, h5⟩
  · exact Or.inl h
  · exact Or.inr ⟨h1, h2, h3, h5⟩

/-- The behaviour of `avl_remove` on a balanced tree. -/
theorem remove_spec (tree : avl α) (k : α) (hb : Balanced tree.root) :
    (avl_retrieve_loop tree tree.root k = none ∧ avl_remove tree k = some (tree, none)) ∨
    (∃ x t1 p q, avl_retrieve_loop tree tree.root k = some x ∧
      avl_remove tree k = some ({ tree with size := tree.size - 1, root := t1 }, some x) ∧
      Balanced t1 ∧ elems tree.root = p ++ x :: q ∧ elems t1 = p ++ q) := by
  rcases remove_aux_spec tree k tree.root hb with ⟨h1, h2⟩ | ⟨x, t1, p, q, h1, h2, h3, h4, h5, _⟩
  · exact Or.inl ⟨h1, by simp [avl_remove, h2]⟩
  · exact Or.inr ⟨x, t1, p, q, h1, by simp [avl_remove, h2], h3, h4, h5⟩

/-- Deleting one element keeps a list sorted. -/
theorem sorted_remove_mid (compare : α → α → Int) (x : α) (p q : List α)
    (h : Sorted compare (p ++ x :: q)) : Sorted compare (p ++ q) := by
  unfold Sorted at *
  exact h.sublist (List.Sublist.append (List.Sublist.refl p) (List.sublist_cons_self x q))

/-! ## Retrieval -/

/-- A value found by the descent is stored and compares equal to the key. -/
theorem retrieve_loop_some (tree : avl α) (k : α) : ∀ (t : avl_node α) (x : α),
    avl_retrieve_loop tree t k = some x → x ∈ elems t ∧ tree.compare x k = 0 := by
  intro t
  induction t with
  | nil => intro x h; simp [avl_retrieve_loop] at h
  | node w h l r ihl ihr =>
    intro x hx
    simp only [avl_retrieve_loop] at hx
    by_cases c1 : tree.compare w k < 0
    · simp only [c1, if_true] at hx
      obtain ⟨m, e⟩ := ihl x hx
      exact ⟨by simp [elems, m], e⟩
    · by_cases c2 : tree.compare w k > 0
      · simp only [c1, c2, if_true, if_false] at hx
        obtain ⟨m, e⟩ := ihr x hx
        exact ⟨by simp [elems, m], e⟩
      · simp only [c1, c2, if_false] at hx
        cases hx
        exact ⟨by simp [elems], by omega⟩

/-- In a sorted tree the descent misses exactly when no stored value compares equal. -/
theorem retrieve_loop_none (tree : avl α) (hc : CompareOrder tree.compare) (k : α) :
    ∀ t : avl_node α, Sorted tree.compare (elems t) →
      (avl_retrieve_loop tree t k = none ↔ ∀ x ∈ elems t, tree.compare x k ≠ 0) := by
  intro t
  induction t with
  | nil => intro _; simp [avl_retrieve_loop, elems]
  | node w h l r ihl ihr =>
    intro hs
    simp only [elems] at hs ⊢
    obtain ⟨sl, sr, ol, or⟩ := (sorted_node hc w _ _).1 hs
    simp only [avl_retrieve_loop]
    by_cases c1 : tree.compare w k < 0
    · simp only [c1, if_true]
      rw [ihl sl]
      constructor
      · intro hh x hx
        rcases List.mem_append.1 hx with hx | hx
        · exact hh x hx
        · rcases List.mem_cons.1 hx with rfl | hx
          · omega
          · have := hc.lt_trans (or x hx) c1
            omega
      · intro hh x hx
        exact hh x (List.mem_append_left _ hx)
    · by_cases c2 : tree.compare w k > 0
      · simp only [c1, c2, if_true, if_false]
        rw [ihr sr]
        constructor
        · intro hh x hx
          rcases List.mem_append.1 hx with hx | hx
          · have h1 := (hc.swap _ _).2 c2
            have h2 := hc.lt_trans h1 (ol x hx)
            have := (hc.swap _ _).1 h2
            omega
          · rcases List.mem_cons.1 hx with rfl | hx
            · omega
            · exact hh x hx
        · intro hh x hx
          exact hh x (List.mem_append_right _ (List.mem_cons_of_mem _ hx))
      · simp only [c1, c2, if_false]
        constructor
        · intro hh; cases hh
        · intro hh
          exact absurd (by omega) (hh w (by simp))

/-! ## Traversal and node count -/

/-- The node count is the length of the in-order listing. -/
theorem node_count_eq : ∀ t : avl_node α, node_count t = ((elems t).length : Int)
  | nil => rfl
  | node v h l r => by
    simp only [node_count, elems, List.length_append, List.length_cons, node_count_eq l,
      node_count_eq r]
    push_cast; ring

/-- The auxiliary `avl_inorder_aux` started at index `i` writes the in-order listing at
`i, i+1, ...`, returns the index after it and leaves all other cells alone. -/
theorem inorder_aux_spec : ∀ (t : avl_node α) (values : Nat → α) (i : Nat),
    (avl_inorder_aux t values i).2 = i + (elems t).length ∧
    (∀ j, j < (elems t).length → (elems t)[j]? = some ((avl_inorder_aux t values i).1 (i + j))) ∧
    (∀ j, j < i ∨ i + (elems t).length ≤ j → (avl_inorder_aux t values i).1 j = values j) := by
  intro t
  induction t with
  | nil => intro values i; simp [avl_inorder_aux, elems]
  | node v h l r ihl ihr =>
    intro values i
    obtain ⟨l1, l2, l3⟩ := ihl values i
    obtain ⟨r1, r2, r3⟩ := ihr (Function.update (avl_inorder_aux l values i).1
      (avl_inorder_aux l values i).2 v) ((avl_inorder_aux l values i).2 + 1)
    simp only [avl_inorder_aux, elems, List.length_append, List.length_cons]
    rw [l1] at r1 r2 r3
    rw [l1]
    refine ⟨by rw [r1]; omega, ?_, ?_⟩
    · intro j hj
      by_cases hjl : j < (elems l).length
      · rw [List.getElem?_append_left hjl, l2 j hjl, r3 (i + j) (Or.inl (by omega))]
        rw [Function.update_noteq (by omega)]
      · rw [List.getElem?_append_right (by omega)]
        by_cases hje : j = (elems l).length
        · subst hje
          simp only [Nat.sub_self, List.getElem?_cons_zero]
          rw [r3 _ (Or.inl (by omega)), Function.update_same]
        · obtain ⟨m, hm⟩ : ∃ m, j = (elems l).length + 1 + m := ⟨j - (elems l).length - 1, by omega⟩
          subst hm
          have e1 : (elems l).length + 1 + m - (elems l).length = m + 1 := by omega
          rw [e1, List.getElem?_cons_succ, r2 m (by omega)]
          rw [show i + ((elems l).length + 1 + m) = i + (elems l).length + 1 + m by omega]
    · intro j hj
      rw [r3 j (by omega), Function.update_noteq (by omega), l3 j (by omega)]

/-- The sequence produced by `avl_inorder` is the in-order listing. -/
theorem inorder_list_eq (tree : avl α) (values : Nat → α) :
    avl_inorder_list tree values = elems tree.root := by
  obtain ⟨h1, h2, _⟩ := inorder_aux_spec tree.root values 0
  unfold avl_inorder_list avl_inorder
  rw [h1]
  apply List.ext_getElem?
  intro j
  by_cases hj : j < (elems tree.root).length
  · rw [h2 j hj]
    simp [List.getElem?_map, List.getElem?_range, hj]
  · have e1 : (elems tree.root)[j]? = none := List.getElem?_eq_none (by omega)
    rw [e1, List.getElem?_eq_none]
    simp only [List.length_map, List.length_range]
    omega

/-! ## The contract of the tree operations -/

/-- Insertion keeps a valid tree valid. -/
theorem insert_valid (tree : avl α) (v : α) (hc : CompareOrder tree.compare)
    (hv : avl_valid tree = true) :
    ∃ t1 ins, avl_insert tree v = some (t1, ins) ∧ avl_valid t1 = true ∧
      t1.compare = tree.compare := by
  obtain ⟨hb, hs⟩ := (valid_iff tree hc).1 hv
  obtain ⟨t1, ins, e, b1, hcase⟩ := insert_spec tree v hb
  refine ⟨_, ins, e, ?_, rfl⟩
  refine (valid_iff _ ?_).2 ⟨b1, ?_⟩
  · exact hc
  rcases hcase with ⟨_, h2, _⟩ | ⟨_, _, _, h4⟩
  · subst h2; exact hs
  · exact h4 hc hs

/-- Insert sequences keep a valid tree valid. -/
theorem insert_all_valid : ∀ (vs : List α) (tree : avl α), CompareOrder tree.compare →
    avl_valid tree = true →
    ∃ t, avl_insert_all tree vs = some t ∧ avl_valid t = true ∧ t.compare = tree.compare
  | [], tree, _, hv => ⟨tree, rfl, hv, rfl⟩
  | v :: vs, tree, hc, hv => by
    obtain ⟨t1, ins, e, hv1, hc1⟩ := insert_valid tree v hc hv
    obtain ⟨t, e2, hv2, hc2⟩ := insert_all_valid vs t1 (hc1 ▸ hc) hv1
    exact ⟨t, by simp [avl_insert_all, e, e2], hv2, hc2.trans hc1⟩

/-- C1: on a tree accepted by `avl_valid`, with `compare` a strict total order, `avl_insert`
returns and the tree it leaves is accepted by `avl_valid` again; hence every insert sequence
started on the empty tree leaves, after each of its steps, a tree accepted by `avl_valid`. -/
theorem C1_insert_preserves_valid (tree : avl α) (v : α) (hc : CompareOrder tree.compare)
    (hv : avl_valid tree = true) :
    (∃ t1 ins, avl_insert tree v = some (t1, ins) ∧ avl_valid t1 = true) ∧
    (∀ (vs : List α) (k : Nat), ∃ t,
      avl_insert_all ( avl_initialize tree.compare) (vs.take k) = some t ∧
        avl_valid t = true) := by
  constructor
  · obtain ⟨t1, ins, e, h, _⟩ := insert_valid tree v hc hv
    exact ⟨t1, ins, e, h⟩
  · intro vs k
    obtain ⟨t, e, h, _⟩ := insert_all_valid (vs.take k) ( avl_initialize tree.compare) hc rfl
    exact ⟨t, e, h⟩

theorem C1_insert_preserves_valid_witness :
    avl_valid tree6 = true ∧
    (∃ t1 ins, avl_insert tree6 9 = some (t1, ins) ∧ avl_valid t1 = true) ∧
    (∃ t, avl_insert_all ( avl_initialize data_compare) [5, 3, 8, 1, 4, 7, 9] = some t ∧
      avl_valid t = true) :=
  ⟨by decide, (C1_insert_preserves_valid tree6 9 data_compare_order (by decide)).1,
    (C1_insert_preserves_valid tree6 9 data_compare_order (by decide)).2 [5, 3, 8, 1, 4, 7, 9] 7⟩

/-- C2: on a tree accepted by `avl_valid`, with `compare` a strict total order, `avl_remove`
returns for every key and the tree it leaves is accepted by `avl_valid` again, whichever
structural case the removal goes through. -/
theorem C2_remove_preserves_valid (tree : avl α) (key : α) (hc : CompareOrder tree.compare)
    (hv : avl_valid tree = true) :
    ∃ t1 value, avl_remove tree key = some (t1, value) ∧ avl_valid t1 = true := by
  obtain ⟨hb, hs⟩ := (valid_iff tree hc).1 hv
  rcases remove_spec tree key hb with ⟨_, e⟩ | ⟨x, t1, p, q, _, e, b1, ep, eq⟩
  · exact ⟨tree, none, e, hv⟩
  · refine ⟨_, some x, e, ?_⟩
    refine (valid_iff _ ?_).2 ⟨b1, ?_⟩
    · exact hc
    show Sorted tree.compare (elems t1)
    rw [eq]
    rw [ep] at hs
    exact sorted_remove_mid _ x p q hs

theorem C2_remove_preserves_valid_witness :
    avl_insert_all ( avl_initialize data_compare) [1, 2, 3, 4, 5, 6, 7] = some tree7 ∧
    avl_valid tree7 = true ∧
    ∃ t1 value, avl_remove tree7 1 = some (t1, value) ∧ avl_valid t1 = true :=
  ⟨rfl, by decide, C2_remove_preserves_valid tree7 1 data_compare_order (by decide)⟩

/-- C3: inserting 1 and then 2 into an empty integer tree leaves the root 1 with 2 as its left
child, so the left subtree holds a value that does not compare less than the value of the node. -/
theorem C3_left_subtree_not_less :
    ∃ t, avl_insert_all ( avl_initialize data_compare) [1, 2] = some t ∧
      t.root = node 1 2 (node 2 1 nil nil) nil ∧ avl_valid t = true ∧
      ¬ bst_order data_compare t.root := by
  refine ⟨{ size := 2, root := node 1 2 (node 2 1 nil nil) nil, compare := data_compare },
    rfl, rfl, by decide, ?_⟩
  intro h
  have := h.1 2 (by simp [elems])
  revert this
  decide

/-- C4: inserting 5, 3, 8, 1, 4, 7, 9 into an empty integer tree makes `avl_inorder` produce
9, 8, 7, 5, 4, 3, 1, which is not non-decreasing under `compare`. -/
theorem C4_inorder_descending :
    ∃ t, avl_insert_all ( avl_initialize data_compare) [5, 3, 8, 1, 4, 7, 9] = some t ∧
      avl_inorder_list t (fun _ => 0) = [9, 8, 7, 5, 4, 3, 1] ∧
      ¬ non_decreasing data_compare (avl_inorder_list t (fun _ => 0)) := by
  refine ⟨{ size := 7, compare := data_compare,
            root := node 5 3 (node 8 2 (node 9 1 nil nil) (node 7 1 nil nil))
              (node 3 2 (node 4 1 nil nil) (node 1 1 nil nil)) }, rfl, ?_, ?_⟩
  · rw [inorder_list_eq]; rfl
  · rw [inorder_list_eq]
    simp [non_decreasing, elems, data_compare]

/-- Inserting values that compare equal neither to each other nor to a stored value grows
`size` by their number. -/
theorem insert_all_distinct : ∀ (vs : List α) (tree : avl α), CompareOrder tree.compare →
    avl_valid tree = true → vs.Pairwise (fun a b => tree.compare a b ≠ 0) →
    (∀ x ∈ elems tree.root, ∀ v ∈ vs, tree.compare x v ≠ 0) →
    ∃ t, avl_insert_all tree vs = some t ∧ t.size = tree.size + vs.length
  | [], tree, _, _, _, _ => ⟨tree, rfl, by simp⟩
  | v :: vs, tree, hc, hv, hp, hd => by
    obtain ⟨hb, hs⟩ := (valid_iff tree hc).1 hv
    obtain ⟨t1, ins, e, b1, hcase⟩ := insert_spec tree v hb
    have hnone : avl_retrieve_loop tree tree.root v = none :=
      (retrieve_loop_none tree hc v tree.root hs).2 (fun x hx => hd x hx v (by simp))
    rcases hcase with ⟨_, _, h3⟩ | ⟨h1, _, ⟨p, q, ep, eq⟩, h4⟩
    · exact absurd hnone h3
    · subst h1
      obtain ⟨hp1, hp2⟩ := List.pairwise_cons.1 hp
      obtain ⟨t, e2, hsz⟩ := insert_all_distinct vs
        { tree with size := tree.size + 1, root := t1 } hc
        ((valid_iff { tree with size := tree.size + 1, root := t1 } hc).2 ⟨b1, h4 hc hs⟩) hp2 (by
          intro x hx u hu
          rw [show elems ({ tree with size := tree.size + 1, root := t1 } : avl α).root
            = elems t1 from rfl, eq] at hx
          rcases (mem_insert_mid x v p q).1 hx with rfl | hx
          · exact hp1 u hu
          · exact hd x (ep ▸ hx) u (by simp [hu]))
      refine ⟨t, by simp [avl_insert_all, e, e2], ?_⟩
      rw [hsz]; simp only [List.length_cons]; push_cast; ring

/-- C5: on a tree accepted by `avl_valid`, with `compare` a strict total order, `avl_insert`
returns 1 exactly when no stored value compares equal to the value (and 0 otherwise), and
then `size` has grown by exactly 1; hence inserting `N` values that pairwise do not compare
equal into an empty tree gives size `N`. -/
theorem C5_insert_result_and_size (tree : avl α) (v : α) (hc : CompareOrder tree.compare)
    (hv : avl_valid tree = true) :
    (∃ t1 ins, avl_insert tree v = some (t1, ins) ∧ (ins = 0 ∨ ins = 1) ∧
      (ins = 1 ↔ ∀ x ∈ elems tree.root, tree.compare x v ≠ 0) ∧
      (ins = 1 → avl_size t1 = avl_size tree + 1)) ∧
    (∀ vs : List α, vs.Pairwise (fun a b => tree.compare a b ≠ 0) →
      ∃ t, avl_insert_all ( avl_initialize tree.compare) vs = some t ∧
        avl_size t = vs.length) := by
  obtain ⟨hb, hs⟩ := (valid_iff tree hc).1 hv
  constructor
  · obtain ⟨t1, ins, e, b1, hcase⟩ := insert_spec tree v hb
    have hiff := retrieve_loop_none tree hc v tree.root hs
    refine ⟨_, ins, e, ?_, ?_, ?_⟩
    · rcases hcase with ⟨h, _⟩ | ⟨h, _⟩ <;> simp [h]
    · rcases hcase with ⟨h1, _, h3⟩ | ⟨h1, h2, _⟩
      · subst h1
        constructor
        · intro h; cases h
        · intro h; exact absurd (hiff.2 h) h3
      · exact ⟨fun _ => hiff.1 h2, fun _ => h1⟩
    · intro h; subst h; rfl
  · intro vs hp
    obtain ⟨t, e, hsz⟩ := insert_all_distinct vs ( avl_initialize tree.compare) hc rfl hp
      (by intro x hx; simp [ avl_initialize, elems] at hx)
    exact ⟨t, e, by simp [avl_size, hsz, avl_initialize]⟩

theorem C5_insert_result_and_size_witness :
    avl_valid tree6 = true ∧
    (∃ t1 ins, avl_insert tree6 9 = some (t1, ins) ∧ (ins = 0 ∨ ins = 1) ∧
      (ins = 1 ↔ ∀ x ∈ elems tree6.root, data_compare x 9 ≠ 0) ∧
      (ins = 1 → avl_size t1 = avl_size tree6 + 1)) ∧
    (∃ t, avl_insert_all ( avl_initialize data_compare) [5, 3, 8, 1, 4, 7, 9] = some t ∧
      avl_size t = 7) :=
  ⟨by decide, (C5_insert_result_and_size tree6 9 data_compare_order (by decide)).1,
    (C5_insert_result_and_size tree6 9 data_compare_order (by decide)).2 [5, 3, 8, 1, 4, 7, 9]
      (by decide)⟩

/-- C6: on a tree accepted by `avl_valid` that stores a value comparing equal to the value,
`avl_insert` returns 0 and leaves the tree as it was: same nodes, values, cached heights
and size. -/
theorem C6_duplicate_insert_unchanged (tree : avl α) (v : α) (hc : CompareOrder tree.compare)
    (hv : avl_valid tree = true) (hdup : ∃ x ∈ elems tree.root, tree.compare x v = 0) :
    avl_insert tree v = some (tree, 0) := by
  obtain ⟨hb, hs⟩ := (valid_iff tree hc).1 hv
  obtain ⟨t1, ins, e, b1, hcase⟩ := insert_spec tree v hb
  rcases hcase with ⟨h1, h2, _⟩ | ⟨_, h2, _⟩
  · subst h1; subst h2
    rw [e]; cases tree; simp
  · obtain ⟨x, hx, hx0⟩ := hdup
    exact absurd hx0 ((retrieve_loop_none tree hc v tree.root hs).1 h2 x hx)

theorem C6_duplicate_insert_unchanged_witness :
    avl_valid tree6 = true ∧ (∃ x ∈ elems tree6.root, tree6.compare x 4 = 0) ∧
      avl_insert tree6 4 = some (tree6, 0) :=
  ⟨by decide, ⟨4, by decide, by decide⟩,
    C6_duplicate_insert_unchanged tree6 4 data_compare_order (by decide) ⟨4, by decide, by decide⟩⟩

/-- Every call sequence keeps balance and the equation between `size` and the node count. -/
theorem run_invariant : ∀ (ops : List (avl_op α)) (tree : avl α), Balanced tree.root →
    tree.size = node_count tree.root →
    ∃ t, avl_run tree ops = some t ∧ t.size = node_count t.root
  | [], tree, _, hsz => ⟨tree, rfl, hsz⟩
  | avl_op.insert v :: ops, tree, hb, hsz => by
    obtain ⟨t1, ins, e, b1, hcase⟩ := insert_spec tree v hb
    obtain ⟨t, e2, h2⟩ := run_invariant ops { tree with size := tree.size + ins, root := t1 } b1
      (by
        rcases hcase with ⟨h1, h2, _⟩ | ⟨h1, _, ⟨p, q, ep, eq⟩, _⟩
        · subst h1; subst h2; simpa using hsz
        · subst h1
          simp only [hsz, node_count_eq, ep, eq, List.length_append, List.length_cons]
          push_cast; ring)
    exact ⟨t, by simp [avl_run, e, e2], h2⟩
  | avl_op.remove k :: ops, tree, hb, hsz => by
    rcases remove_spec tree k hb with ⟨_, e⟩ | ⟨x, t1, p, q, _, e, b1, ep, eq⟩
    · obtain ⟨t, e2, h2⟩ := run_invariant ops tree hb hsz
      exact ⟨t, by simp [avl_run, e, e2], h2⟩
    · obtain ⟨t, e2, h2⟩ := run_invariant ops { tree with size := tree.size - 1, root := t1 } b1
        (by
          simp only [hsz, node_count_eq, ep, eq, List.length_append, List.length_cons]
          push_cast; ring)
      exact ⟨t, by simp [avl_run, e, e2], h2⟩

/-- C7: every sequence of `avl_insert` and `avl_remove` calls started on a freshly
initialised tree runs to completion and leaves `size` equal to the number of nodes reachable
from `root`; as the sequence is arbitrary, this holds after each call. -/
theorem C7_size_is_node_count (compare : α → α → Int) (ops : List (avl_op α)) :
    ∃ t, avl_run ( avl_initialize compare) ops = some t ∧ avl_size t = node_count t.root :=
  run_invariant ops ( avl_initialize compare) trivial rfl

/-- C8: on a tree accepted by `avl_valid` that stores a value comparing equal to the key,
`avl_remove` returns that stored value, `size` drops by exactly 1, and the in-order sequence
afterwards is the previous in-order sequence with that one element deleted. -/
theorem C8_remove_present (tree : avl α) (key : α) (values : Nat → α)
    (hc : CompareOrder tree.compare) (hv : avl_valid tree = true)
    (hex : ∃ x ∈ elems tree.root, tree.compare x key = 0) :
    ∃ t1 x p q, avl_remove tree key = some (t1, some x) ∧ tree.compare x key = 0 ∧
      avl_size t1 = avl_size tree - 1 ∧
      avl_inorder_list tree values = p ++ x :: q ∧ avl_inorder_list t1 values = p ++ q := by
  obtain ⟨hb, hs⟩ := (valid_iff tree hc).1 hv
  rcases remove_spec tree key hb with ⟨h1, _⟩ | ⟨x, t1, p, q, h1, e, _, ep, eq⟩
  · obtain ⟨x, hx, hx0⟩ := hex
    exact absurd hx0 ((retrieve_loop_none tree hc key tree.root hs).1 h1 x hx)
  · refine ⟨_, x, p, q, e, (retrieve_loop_some tree key tree.root x h1).2, rfl, ?_, ?_⟩
    · rw [inorder_list_eq, ep]
    · rw [inorder_list_eq]; exact eq

theorem C8_remove_present_witness :
    avl_valid tree7 = true ∧ (∃ x ∈ elems tree7.root, tree7.compare x 4 = 0) ∧
    ∃ t1 x p q, avl_remove tree7 4 = some (t1, some x) ∧ tree7.compare x 4 = 0 ∧
      avl_size t1 = avl_size tree7 - 1 ∧
      avl_inorder_list tree7 (fun _ => 0) = p ++ x :: q ∧
      avl_inorder_list t1 (fun _ => 0) = p ++ q :=
  ⟨by decide, ⟨4, by decide, by decide⟩,
    C8_remove_present tree7 4 (fun _ => 0) data_compare_order (by decide)
      ⟨4, by decide, by decide⟩⟩

/-- C9: on a tree accepted by `avl_valid` that stores no value comparing equal to the key,
`avl_remove` returns no value (`NULL`) and leaves the tree as it was: same nodes, values,
cached heights and size. -/
theorem C9_remove_absent_unchanged (tree : avl α) (key : α) (hc : CompareOrder tree.compare)
    (hv : avl_valid tree = true) (hne : ∀ x ∈ elems tree.root, tree.compare x key ≠ 0) :
    avl_remove tree key = some (tree, none) := by
  obtain ⟨hb, hs⟩ := (valid_iff tree hc).1 hv
  rcases remove_spec tree key hb with ⟨_, e⟩ | ⟨x, _, _, _, h1, _⟩
  · exact e
  · obtain ⟨hx, hx0⟩ := retrieve_loop_some tree key tree.root x h1
    exact absurd hx0 (hne x hx)

theorem C9_remove_absent_unchanged_witness :
    avl_valid tree7 = true ∧ (∀ x ∈ elems tree7.root, tree7.compare x 9 ≠ 0) ∧
      avl_remove tree7 9 = some (tree7, none) :=
  ⟨by decide, by decide,
    C9_remove_absent_unchanged tree7 9 data_compare_order (by decide) (by decide)⟩

/-- C10: on a tree accepted by `avl_valid`, `avl_retrieve` returns a value exactly when some
stored value compares equal to the key, the value returned is a copy of such a stored value,
otherwise it returns none; the tree is left as it was. -/
theorem C10_retrieve (tree : avl α) (key : α) (hc : CompareOrder tree.compare)
    (hv : avl_valid tree = true) :
    (avl_retrieve tree key).1 = tree ∧
    ((∃ y, (avl_retrieve tree key).2 = some y) ↔ ∃ x ∈ elems tree.root, tree.compare x key = 0) ∧
    (∀ y, (avl_retrieve tree key).2 = some y → y ∈ elems tree.root ∧ tree.compare y key = 0) ∧
    ((avl_retrieve tree key).2 = none ↔ ∀ x ∈ elems tree.root, tree.compare x key ≠ 0) := by
  obtain ⟨hb, hs⟩ := (valid_iff tree hc).1 hv
  have hnone := retrieve_loop_none tree hc key tree.root hs
  have hsome := retrieve_loop_some tree key tree.root
  refine ⟨rfl, ⟨?_, ?_⟩, hsome, hnone⟩
  · rintro ⟨y, hy⟩
    exact ⟨y, hsome y hy⟩
  · rintro ⟨x, hx, hx0⟩
    cases h : (avl_retrieve tree key).2 with
    | none => exact absurd hx0 (hnone.1 h x hx)
    | some y => exact ⟨y, rfl⟩

theorem C10_retrieve_witness :
    avl_valid tree7 = true ∧ (avl_retrieve tree7 5).2 = some 5 ∧
      (avl_retrieve tree7 9).2 = none ∧
      ((∃ y, (avl_retrieve tree7 5).2 = some y) ↔
        ∃ x ∈ elems tree7.root, tree7.compare x 5 = 0) :=
  ⟨by decide, by decide, by decide,
    (C10_retrieve tree7 5 data_compare_order (by decide)).2.1⟩

/-! ## Insertion, removal and retrieval together -/

/-- A value compares equal to itself. -/
theorem CompareOrder.compare_self {compare : α → α → Int} (hc : CompareOrder compare) (a : α) :
    compare a a = 0 := by
  have h := hc.swap a a
  omega

/-- Comparing equal is symmetric. -/
theorem CompareOrder.eq_symm {compare : α → α → Int} (hc : CompareOrder compare) {a b : α}
    (h : compare a b = 0) : compare b a = 0 := by
  have h1 := hc.swap a b
  have h2 := hc.swap b a
  omega

/-- No two values that compare equal to the same key are ordered strictly. -/
theorem CompareOrder.not_lt_of_eq {compare : α → α → Int} (hc : CompareOrder compare)
    {x y k : α} (hx : compare x k = 0) (hy : compare y k = 0) : ¬ compare y x < 0 := by
  intro h
  have h1 := hc.le_trans x k y (by omega) (by have := hc.eq_symm hy; omega)
  have h2 := (hc.swap y x).1 h
  omega

/-- In a sorted listing, the values around a value that compares equal to the key do not. -/
theorem sorted_mid_unique {compare : α → α → Int} (hc : CompareOrder compare) (y k : α)
    (p q : List α) (hs : Sorted compare (p ++ y :: q)) (hy : compare y k = 0) :
    ∀ x ∈ p ++ q, compare x k ≠ 0 := by
  obtain ⟨_, _, h3, h4⟩ := (sorted_node hc y p q).1 hs
  intro x hx hx0
  rcases List.mem_append.1 hx with hx | hx
  · exact hc.not_lt_of_eq hx0 hy (h3 x hx)
  · exact hc.not_lt_of_eq hy hx0 (h4 x hx)

/-- In a sorted listing at most one value compares equal to a key. -/
theorem sorted_unique {compare : α → α → Int} (hc : CompareOrder compare) (k : α) :
    ∀ (xs : List α), Sorted compare xs → ∀ x ∈ xs, ∀ y ∈ xs,
      compare x k = 0 → compare y k = 0 → x = y := by
  intro xs
  induction xs with
  | nil => intro _ x hx; cases hx
  | cons a xs ih =>
    intro hs x hx y hy hx0 hy0
    obtain ⟨h1, h2⟩ := List.pairwise_cons.1 hs
    rcases List.mem_cons.1 hx with hxa | hx1
    · rcases List.mem_cons.1 hy with hya | hy1
      · rw [hxa, hya]
      · subst hxa
        exact absurd (h1 y hy1) (hc.not_lt_of_eq hx0 hy0)
    · rcases List.mem_cons.1 hy with hya | hy1
      · subst hya
        exact absurd (h1 x hx1) (hc.not_lt_of_eq hy0 hx0)
      · exact ih h2 x hx1 y hy1 hx0 hy0

/-- In a sorted tree the descent returns exactly the stored value comparing equal to the key. -/
theorem retrieve_loop_eq_some (tree : avl α) (hc : CompareOrder tree.compare) (k x : α)
    (t : avl_node α) (hs : Sorted tree.compare (elems t)) :
    avl_retrieve_loop tree t k = some x ↔ x ∈ elems t ∧ tree.compare x k = 0 := by
  constructor
  · exact retrieve_loop_some tree k t x
  · rintro ⟨hx, hx0⟩
    cases h : avl_retrieve_loop tree t k with
    | none => exact absurd hx0 ((retrieve_loop_none tree hc k t hs).1 h x hx)
    | some y =>
      obtain ⟨hy, hy0⟩ := retrieve_loop_some tree k t y h
      rw [sorted_unique hc k (elems t) hs y hy x hx hy0 hx0]

/-- C11: on a tree accepted by `avl_valid` that stores no value comparing equal to `v`,
`avl_insert` returns 1 and the stored values become the previous ones plus `v`; afterwards
`avl_retrieve` of `v` returns a value comparing equal to `v` (namely `v`), and for every key
that does not compare equal to `v` it returns what it returned before the insert. -/
theorem C11_insert_then_retrieve (tree : avl α) (v : α) (hc : CompareOrder tree.compare)
    (hv : avl_valid tree = true) (hnew : ∀ x ∈ elems tree.root, tree.compare x v ≠ 0) :
    ∃ t1, avl_insert tree v = some (t1, 1) ∧
      (∃ p q, elems tree.root = p ++ q ∧ elems t1.root = p ++ v :: q) ∧
      (avl_retrieve t1 v).2 = some v ∧ tree.compare v v = 0 ∧
      (∀ key, tree.compare key v ≠ 0 → (avl_retrieve t1 key).2 = (avl_retrieve tree key).2) := by
  obtain ⟨hb, hs⟩ := (valid_iff tree hc).1 hv
  obtain ⟨r1, ins, e, b1, hcase⟩ := insert_spec tree v hb
  have hnone := (retrieve_loop_none tree hc v tree.root hs).2 hnew
  rcases hcase with ⟨_, _, h3⟩ | ⟨h1, _, ⟨p, q, ep, eq⟩, h4⟩
  · exact absurd hnone h3
  · subst h1
    have hs1 : Sorted tree.compare (elems r1) := h4 hc hs
    refine ⟨_, e, ⟨p, q, ep, eq⟩, ?_, hc.compare_self v, ?_⟩
    · exact (retrieve_loop_eq_some { tree with size := tree.size + 1, root := r1 } hc v v r1
        hs1).2 ⟨by rw [eq]; simp, hc.compare_self v⟩
    · intro key hk
      show avl_retrieve_loop { tree with size := tree.size + 1, root := r1 } r1 key
        = avl_retrieve_loop tree tree.root key
      have hvk : tree.compare v key ≠ 0 := fun h => hk (hc.eq_symm h)
      cases h : avl_retrieve_loop tree tree.root key with
      | none =>
        refine (retrieve_loop_none { tree with size := tree.size + 1, root := r1 } hc key r1
          hs1).2 ?_
        intro x hx
        rw [eq] at hx
        rcases (mem_insert_mid x v p q).1 hx with rfl | hx
        · exact hvk
        · exact (retrieve_loop_none tree hc key tree.root hs).1 h x (ep ▸ hx)
      | some y =>
        obtain ⟨hy, hy0⟩ := retrieve_loop_some tree key tree.root y h
        refine (retrieve_loop_eq_some { tree with size := tree.size + 1, root := r1 } hc key y
          r1 hs1).2 ⟨?_, hy0⟩
        rw [eq]; rw [ep] at hy
        exact (mem_insert_mid y v p q).2 (Or.inr hy)

theorem C11_insert_then_retrieve_witness :
    avl_valid tree6 = true ∧ (∀ x ∈ elems tree6.root, tree6.compare x 9 ≠ 0) ∧
    ∃ t1, avl_insert tree6 9 = some (t1, 1) ∧
      (∃ p q, elems tree6.root = p ++ q ∧ elems t1.root = p ++ 9 :: q) ∧
      (avl_retrieve t1 9).2 = some 9 ∧ tree6.compare 9 9 = 0 ∧
      (∀ key, tree6.compare key 9 ≠ 0 →
        (avl_retrieve t1 key).2 = (avl_retrieve tree6 key).2) :=
  ⟨by decide, by decide,
    C11_insert_then_retrieve tree6 9 data_compare_order (by decide) (by decide)⟩

/-- After `avl_remove` of a key from a valid tree, the descent for that key misses, and the
tree is still valid; `size` drops by one exactly when the key was found. -/
theorem remove_then_retrieve (tree : avl α) (k : α) (hc : CompareOrder tree.compare)
    (hv : avl_valid tree = true) :
    ∃ t2 value, avl_remove tree k = some (t2, value) ∧
      avl_retrieve_loop t2 t2.root k = none ∧
      ((∀ x ∈ elems tree.root, tree.compare x k ≠ 0) → t2.size = tree.size) ∧
      ((∃ x ∈ elems tree.root, tree.compare x k = 0) → t2.size = tree.size - 1) := by
  obtain ⟨hb, hs⟩ := (valid_iff tree hc).1 hv
  rcases remove_spec tree k hb with ⟨h1, e⟩ | ⟨x, r1, p, q, h1, e, b1, ep, eq⟩
  · refine ⟨tree, none, e, h1, fun _ => rfl, ?_⟩
    rintro ⟨x, hx, hx0⟩
    exact absurd hx0 ((retrieve_loop_none tree hc k tree.root hs).1 h1 x hx)
  · obtain ⟨hx, hx0⟩ := retrieve_loop_some tree k tree.root x h1
    rw [ep] at hs
    refine ⟨_, some x, e, ?_, ?_, fun _ => rfl⟩
    · refine (retrieve_loop_none { tree with size := tree.size - 1, root := r1 } hc k r1
        (by rw [eq]; exact sorted_remove_mid _ x p q hs)).2 ?_
      rw [eq]
      exact sorted_mid_unique hc x k p q hs hx0
    · intro hne
      exact absurd hx0 (hne x hx)

/-- Inserting a value that no stored value compares equal to returns 1, grows `size` by one
and stores the value. -/
theorem insert_new_spec (tree : avl α) (v : α) (hc : CompareOrder tree.compare)
    (hv : avl_valid tree = true) (hnew : ∀ x ∈ elems tree.root, tree.compare x v ≠ 0) :
    ∃ t1, avl_insert tree v = some (t1, 1) ∧ t1.size = tree.size + 1 ∧
      t1.compare = tree.compare ∧ v ∈ elems t1.root := by
  obtain ⟨hb, hs⟩ := (valid_iff tree hc).1 hv
  obtain ⟨r1, ins, e, b1, hcase⟩ := insert_spec tree v hb
  have hnone := (retrieve_loop_none tree hc v tree.root hs).2 hnew
  rcases hcase with ⟨_, _, h3⟩ | ⟨h1, _, ⟨p, q, ep, eq⟩, h4⟩
  · exact absurd hnone h3
  · subst h1
    exact ⟨_, e, rfl, rfl, by show v ∈ elems r1; rw [eq]; simp⟩

/-- C12 (as amended): on a tree accepted by `avl_valid`, `avl_insert` of `v` followed by
`avl_remove` of `v` both return, a subsequent `avl_retrieve` of `v` returns none, and `size`
is back at its value before the insert provided no stored value compared equal to `v`
before the insert. -/
theorem C12_insert_remove_round_trip (tree : avl α) (v : α) (hc : CompareOrder tree.compare)
    (hv : avl_valid tree = true) :
    ∃ t1 ins t2 value, avl_insert tree v = some (t1, ins) ∧
      avl_remove t1 v = some (t2, value) ∧ (avl_retrieve t2 v).2 = none ∧
      ((∀ x ∈ elems tree.root, tree.compare x v ≠ 0) → avl_size t2 = avl_size tree) := by
  obtain ⟨hb, hs⟩ := (valid_iff tree hc).1 hv
  obtain ⟨t1, ins, e, hv1, hc1⟩ := insert_valid tree v hc hv
  have hc' : CompareOrder t1.compare := hc1 ▸ hc
  obtain ⟨t2, value, e2, hret, hsame, hless⟩ := remove_then_retrieve t1 v hc' hv1
  refine ⟨t1, ins, t2, value, e, e2, hret, ?_⟩
  intro hnew
  obtain ⟨u1, e1, hsz, hcmp, hmem⟩ := insert_new_spec tree v hc hv hnew
  rw [e] at e1
  cases e1
  have := hless ⟨v, hmem, by rw [hcmp]; exact hc.compare_self v⟩
  simp only [avl_size]
  omega

theorem C12_insert_remove_round_trip_witness :
    avl_valid tree6 = true ∧
    ∃ t1 ins t2 value, avl_insert tree6 9 = some (t1, ins) ∧
      avl_remove t1 9 = some (t2, value) ∧ (avl_retrieve t2 9).2 = none ∧
      ((∀ x ∈ elems tree6.root, tree6.compare x 9 ≠ 0) → avl_size t2 = avl_size tree6) :=
  ⟨by decide, C12_insert_remove_round_trip tree6 9 data_compare_order (by decide)⟩

/-- C12 fails as stated when the value is already stored: on the valid tree holding
5, 3, 8, 1, 4, 7, inserting 4 changes nothing and removing 4 then leaves size 5, not 6. -/
theorem C12_round_trip_counterexample :
    avl_valid tree6 = true ∧
    ∃ t1 ins t2 value, avl_insert tree6 4 = some (t1, ins) ∧
      avl_remove t1 4 = some (t2, value) ∧ avl_size tree6 = 6 ∧ avl_size t2 = 5 ∧
      avl_size t2 ≠ avl_size tree6 := by
  exact ⟨by decide, tree6, 0,
    { size := 5, compare := data_compare,
      root := node 5 3 (node 8 2 nil (node 7 1 nil nil)) (node 3 2 nil (node 1 1 nil nil)) },
    some 4, rfl, rfl, rfl, rfl, by decide⟩

/-! ## Minimum and maximum -/

/-- The loop of `avl_min` returns a value when started at a present node. -/
theorem min_loop_some : ∀ (t : avl_node α), t ≠ nil → ∃ x, avl_min_loop t = some x := by
  intro t
  induction t with
  | nil => intro h; exact absurd rfl h
  | node v h l r ihl _ =>
    intro _
    cases l with
    | nil => exact ⟨v, rfl⟩
    | node lv lh ll lr =>
      obtain ⟨x, hx⟩ := ihl (by simp)
      exact ⟨x, by rw [avl_min_loop]; exact hx⟩

/-- The loop of `avl_max` returns a value when started at a present node. -/
theorem max_loop_some : ∀ (t : avl_node α), t ≠ nil → ∃ x, avl_max_loop t = some x := by
  intro t
  induction t with
  | nil => intro h; exact absurd rfl h
  | node v h l r _ ihr =>
    intro _
    cases r with
    | nil => exact ⟨v, rfl⟩
    | node rv rh rl rr =>
      obtain ⟨x, hx⟩ := ihr (by simp)
      exact ⟨x, by rw [avl_max_loop]; exact hx⟩

/-- C13: after inserting 1 and then 2 into an empty integer tree, `avl_min` returns 2 although
1 is stored: the result does not compare less than or equal to every stored value. -/
theorem C13_min_returns_greatest :
    ∃ t, avl_insert_all ( avl_initialize data_compare) [1, 2] = some t ∧
      avl_min t = some (t, 2) ∧ 1 ∈ elems t.root ∧ ¬ data_compare 2 1 ≤ 0 :=
  ⟨{ size := 2, root := node 1 2 (node 2 1 nil nil) nil, compare := data_compare },
    rfl, rfl, by decide, by decide⟩

/-- C14: after inserting 1 and then 2 into an empty integer tree, `avl_max` returns 1 although
2 is stored: the result does not compare greater than or equal to every stored value. -/
theorem C14_max_returns_least :
    ∃ t, avl_insert_all ( avl_initialize data_compare) [1, 2] = some t ∧
      avl_max t = some (t, 1) ∧ 2 ∈ elems t.root ∧ ¬ data_compare 1 2 ≥ 0 :=
  ⟨{ size := 2, root := node 1 2 (node 2 1 nil nil) nil, compare := data_compare },
    rfl, rfl, by decide, by decide⟩

/-- C15: `avl_min` and `avl_max` fail on their assertion exactly when the tree is empty
(`root` is `NULL`); on every other tree both return a value and leave the tree as it was. -/
theorem C15_min_max_precondition (tree : avl α) :
    (avl_empty tree = true ∧ avl_min tree = none ∧ avl_max tree = none) ∨
    (avl_empty tree = false ∧ ∃ x y, avl_min tree = some (tree, x) ∧
      avl_max tree = some (tree, y)) := by
  cases hroot : tree.root with
  | nil =>
    left
    simp [avl_empty, avl_min, avl_max, hroot]
  | node v h l r =>
    right
    obtain ⟨x, hx⟩ := min_loop_some (node v h l r) (by simp)
    obtain ⟨y, hy⟩ := max_loop_some (node v h l r) (by simp)
    refine ⟨by simp [avl_empty, hroot], x, y, ?_, ?_⟩
    · simp [avl_min, hroot, hx]
    · simp [avl_max, hroot, hy]

/-! ## Pre-order and post-order traversal -/

/-- The value-first sequence has one entry per node. -/
theorem preorder_length : ∀ t : avl_node α, ((preorder_elems t).length : Int) = node_count t
  | nil => rfl
  | node v h l r => by
    simp only [node_count, preorder_elems, List.length_append, List.length_cons,
      ← preorder_length l, ← preorder_length r]
    push_cast; ring

/-- The value-last sequence has one entry per node. -/
theorem postorder_length : ∀ t : avl_node α, ((postorder_elems t).length : Int) = node_count t
  | nil => rfl
  | node v h l r => by
    simp only [node_count, postorder_elems, List.length_append, List.length_cons,
      List.length_nil, ← postorder_length l, ← postorder_length r]
    push_cast; ring

/-- The auxiliary `avl_preorder_aux` started at index `i` writes the value-first sequence at
`i, i+1, ...`, returns the index after it and leaves all other cells alone. -/
theorem preorder_aux_spec : ∀ (t : avl_node α) (values : Nat → α) (i : Nat),
    (avl_preorder_aux t values i).2 = i + (preorder_elems t).length ∧
    writes_at values (avl_preorder_aux t values i).1 i (preorder_elems t) := by
  intro t
  induction t with
  | nil => intro values i; simp [avl_preorder_aux, preorder_elems, writes_at]
  | node v h l r ihl ihr =>
    intro values i
    obtain ⟨l1, l2, l3⟩ := ihl (Function.update values i v) (i + 1)
    obtain ⟨r1, r2, r3⟩ := ihr (avl_preorder_aux l (Function.update values i v) (i + 1)).1
      (avl_preorder_aux l (Function.update values i v) (i + 1)).2
    simp only [avl_preorder_aux, preorder_elems, List.length_append, List.length_cons]
    rw [l1] at r1 r2 r3
    rw [l1]
    refine ⟨by rw [r1]; omega, ?_, ?_⟩
    · intro j hj
      simp only [List.length_cons, List.length_append] at hj
      cases j with
      | zero =>
        simp only [List.getElem?_cons_zero, Nat.add_zero]
        rw [r3 i (Or.inl (by omega)), l3 i (Or.inl (by omega)), Function.update_same]
      | succ m =>
        rw [List.getElem?_cons_succ]
        by_cases hm : m < (preorder_elems l).length
        · rw [List.getElem?_append_left hm, l2 m hm, r3 _ (Or.inl (by omega))]
          rw [show i + (m + 1) = i + 1 + m by omega]
        · obtain ⟨n, hn⟩ : ∃ n, m = (preorder_elems l).length + n :=
            ⟨m - (preorder_elems l).length, by omega⟩
          subst hn
          rw [List.getElem?_append_right (by omega)]
          rw [show (preorder_elems l).length + n - (preorder_elems l).length = n by omega]
          rw [r2 n (by omega)]
          rw [show i + ((preorder_elems l).length + n + 1)
            = i + 1 + (preorder_elems l).length + n by omega]
    · intro j hj
      simp only [List.length_cons, List.length_append] at hj
      rw [r3 j (by omega), l3 j (by omega), Function.update_noteq (by omega)]

/-- The auxiliary `avl_postorder_aux` started at index `i` writes the value-last sequence at
`i, i+1, ...`, returns the index after it and leaves all other cells alone. -/
theorem postorder_aux_spec : ∀ (t : avl_node α) (values : Nat → α) (i : Nat),
    (avl_postorder_aux t values i).2 = i + (postorder_elems t).length ∧
    writes_at values (avl_postorder_aux t values i).1 i (postorder_elems t) := by
  intro t
  induction t with
  | nil => intro values i; simp [avl_postorder_aux, postorder_elems, writes_at]
  | node v h l r ihl ihr =>
    intro values i
    obtain ⟨l1, l2, l3⟩ := ihl values i
    obtain ⟨r1, r2, r3⟩ := ihr (avl_postorder_aux l values i).1 (avl_postorder_aux l values i).2
    simp only [avl_postorder_aux, postorder_elems, List.length_append, List.length_cons,
      List.length_nil]
    rw [l1] at r1 r2 r3
    rw [l1, r1]
    refine ⟨by omega, ?_, ?_⟩
    · intro j hj
      simp only [List.length_cons, List.length_append, List.length_nil] at hj
      by_cases hjl : j < (postorder_elems l).length
      · rw [List.getElem?_append_left hjl, l2 j hjl, Function.update_noteq (by omega),
          r3 _ (Or.inl (by omega))]
      · obtain ⟨n, hn⟩ : ∃ n, j = (postorder_elems l).length + n :=
          ⟨j - (postorder_elems l).length, by omega⟩
        subst hn
        rw [List.getElem?_append_right (by omega)]
        rw [show (postorder_elems l).length + n - (postorder_elems l).length = n by omega]
        by_cases hnr : n < (postorder_elems r).length
        · rw [List.getElem?_append_left hnr, r2 n hnr, Function.update_noteq (by omega)]
          rw [show i + ((postorder_elems l).length + n)
            = i + (postorder_elems l).length + n by omega]
        · have hn : n = (postorder_elems r).length := by omega
          subst hn
          rw [List.getElem?_append_right (by omega)]
          simp only [Nat.sub_self, List.getElem?_cons_zero]
          rw [show i + ((postorder_elems l).length + (postorder_elems r).length)
            = i + (postorder_elems l).length + (postorder_elems r).length by omega]
          rw [Function.update_same]
    · intro j hj
      simp only [List.length_cons, List.length_append, List.length_nil] at hj
      rw [Function.update_noteq (by omega), r3 j (by omega), l3 j (by omega)]

/-- C16: each traversal auxiliary, called with start index `i` on a subtree of `n` nodes,
writes its sequence (left/value/right, value first, value last) at positions `i .. i+n-1`,
changes no other position and returns `i+n`; hence on a tree whose `size` equals its node
count `avl_inorder`, `avl_preorder` and `avl_postorder` each write exactly `size` values, at
positions `0 .. size-1`, and nothing beyond. -/
theorem C16_traversals_fill_size (tree : avl α) (values : Nat → α)
    (hsz : avl_size tree = node_count tree.root) :
    (∀ (t : avl_node α) (vals : Nat → α) (i : Nat),
      (((avl_inorder_aux t vals i).2 : Int) = i + node_count t ∧
        writes_at vals (avl_inorder_aux t vals i).1 i (elems t)) ∧
      (((avl_preorder_aux t vals i).2 : Int) = i + node_count t ∧
        writes_at vals (avl_preorder_aux t vals i).1 i (preorder_elems t)) ∧
      (((avl_postorder_aux t vals i).2 : Int) = i + node_count t ∧
        writes_at vals (avl_postorder_aux t vals i).1 i (postorder_elems t))) ∧
    (((elems tree.root).length : Int) = avl_size tree ∧
      writes_at values (avl_inorder tree values) 0 (elems tree.root)) ∧
    (((preorder_elems tree.root).length : Int) = avl_size tree ∧
      writes_at values (avl_preorder tree values) 0 (preorder_elems tree.root)) ∧
    (((postorder_elems tree.root).length : Int) = avl_size tree ∧
      writes_at values (avl_postorder tree values) 0 (postorder_elems tree.root)) := by
  have hin : ∀ (t : avl_node α) (vals : Nat → α) (i : Nat),
      (avl_inorder_aux t vals i).2 = i + (elems t).length ∧
        writes_at vals (avl_inorder_aux t vals i).1 i (elems t) := by
    intro t vals i
    obtain ⟨h1, h2, h3⟩ := inorder_aux_spec t vals i
    exact ⟨h1, h2, h3⟩
  refine ⟨?_, ⟨?_, (hin tree.root values 0).2⟩, ⟨?_, (preorder_aux_spec tree.root values 0).2⟩,
    ⟨?_, (postorder_aux_spec tree.root values 0).2⟩⟩
  · intro t vals i
    refine ⟨⟨?_, (hin t vals i).2⟩, ⟨?_, (preorder_aux_spec t vals i).2⟩,
      ⟨?_, (postorder_aux_spec t vals i).2⟩⟩
    · rw [(hin t vals i).1, node_count_eq]; push_cast; rfl
    · rw [(preorder_aux_spec t vals i).1, ← preorder_length]; push_cast; rfl
    · rw [(postorder_aux_spec t vals i).1, ← postorder_length]; push_cast; rfl
  · rw [hsz, node_count_eq]
  · rw [hsz, preorder_length]
  · rw [hsz, postorder_length]

theorem C16_traversals_fill_size_witness :
    avl_size tree7 = node_count tree7.root ∧
    (List.range 7).map (avl_inorder tree7 (fun _ => 0)) = [7, 6, 5, 4, 3, 2, 1] ∧
    (List.range 7).map (avl_preorder tree7 (fun _ => 0)) = [4, 6, 7, 5, 2, 3, 1] ∧
    (List.range 7).map (avl_postorder tree7 (fun _ => 0)) = [7, 5, 6, 3, 1, 2, 4] ∧
    writes_at (fun _ => 0) (avl_preorder tree7 (fun _ => 0)) 0 (preorder_elems tree7.root) :=
  ⟨by decide, by decide, by decide, by decide,
    (C16_traversals_fill_size tree7 (fun _ => 0) (by decide)).2.2.1.2⟩

/-! ## Structural queries -/

/-- The three tallies add up to the number of nodes. -/
theorem counts_sum : ∀ t : avl_node α,
    avl_leaf_count_aux t + avl_one_child_count_aux t + avl_two_child_count_aux t
      = node_count t := by
  intro t
  induction t with
  | nil => rfl
  | node v h l r ihl ihr =>
    cases l <;> cases r <;>
      simp only [avl_leaf_count_aux, avl_one_child_count_aux, avl_two_child_count_aux,
        node_count] at ihl ihr ⊢ <;> omega

/-- C17: for a tree of any shape the leaf, one-child and two-child tallies add up to the
number of nodes, and after every sequence of `avl_insert` and `avl_remove` calls on a freshly
initialised tree they add up to `size`. -/
theorem C17_counts_sum_to_size (tree : avl α) (compare : α → α → Int) (ops : List (avl_op α)) :
    avl_leaf_count tree + avl_one_child_count tree + avl_two_child_count tree
      = node_count tree.root ∧
    ∃ t, avl_run ( avl_initialize compare) ops = some t ∧
      avl_leaf_count t + avl_one_child_count t + avl_two_child_count t = avl_size t := by
  refine ⟨counts_sum tree.root, ?_⟩
  obtain ⟨t, e, h⟩ := run_invariant ops ( avl_initialize compare) trivial rfl
  exact ⟨t, e, by rw [avl_size, h]; exact counts_sum t.root⟩

/-- Balance, height correctness and sortedness of the listing, node by node. -/
theorem balanced_sorted_iff {compare : α → α → Int} (hc : CompareOrder compare) :
    ∀ t : avl_node α,
      (Balanced t ∧ Sorted compare (elems t)) ↔ valid_at_every_node compare t := by
  intro t
  induction t with
  | nil => simp [Balanced, Sorted, elems, valid_at_every_node]
  | node v h l r ihl ihr =>
    simp only [Balanced, elems, valid_at_every_node, sorted_node hc, MAX_HEIGHT_eq, ← ihl, ← ihr,
      abs_le]
    constructor
    · rintro ⟨⟨a1, a2, a3, bl, br⟩, sl, sr, ol, or⟩
      exact ⟨⟨ol, fun y hy => (hc.swap _ _).1 (or y hy)⟩, by omega, ⟨by omega, by omega⟩,
        ⟨bl, sl⟩, ⟨br, sr⟩⟩
    · rintro ⟨⟨ol, or⟩, a3, ⟨a1, a2⟩, ⟨bl, sl⟩, ⟨br, sr⟩⟩
      exact ⟨⟨by omega, by omega, by omega, bl, br⟩, sl, sr, ol,
        fun y hy => (hc.swap _ _).2 (or y hy)⟩

/-- C18: with `compare` a strict total order, `avl_valid` accepts a tree of arbitrary shape,
values and cached heights if and only if at every node (1) all values of one subtree lie
strictly on one side of the value of the node and all values of the other subtree strictly
on the other side, (2) the cached height is `1 + max` of the child heights and (3) the child
heights differ by at most 1. -/
theorem C18_valid_iff_every_node (tree : avl α) (hc : CompareOrder tree.compare) :
    avl_valid tree = true ↔ valid_at_every_node tree.compare tree.root := by
  rw [valid_iff tree hc]
  exact balanced_sorted_iff hc tree.root

theorem C18_valid_iff_every_node_witness :
    avl_valid tree7 = true ∧ valid_at_every_node tree7.compare tree7.root :=
  ⟨by decide, (C18_valid_iff_every_node tree7 data_compare_order).1 (by decide)⟩

/-- Correct cached heights are at least 1 at a present node. -/
theorem heights_correct_pos : ∀ t : avl_node α, heights_correct t →
    0 ≤ avl_node_height t ∧ (avl_node_height t = 0 → t = nil)
  | nil, _ => ⟨by simp, fun _ => rfl⟩
  | node v h l r, hh => by
    obtain ⟨h1, hl, hr⟩ := hh
    have := (heights_correct_pos l hl).1
    have := (heights_correct_pos r hr).1
    simp only [avl_node_height_node]
    constructor
    · omega
    · intro h0; omega

/-- Whatever the cached heights, a tree balanced at every node is accepted by
`avl_balanced_aux`. -/
theorem balanced_aux_of_all : ∀ t : avl_node α, all_nodes_balanced t →
    avl_balanced_aux t = true := by
  intro t
  induction t with
  | nil => intro _; rfl
  | node v h l r ihl ihr =>
    rintro ⟨h1, hl, hr⟩
    rw [avl_balanced_aux]
    by_cases e : h = 1
    · simp [e]
    · simp [e, not_lt.2 h1, ihl hl, ihr hr]

/-- With correct cached heights, `avl_balanced_aux` accepts only trees balanced at every
node. -/
theorem all_of_balanced_aux : ∀ t : avl_node α, heights_correct t →
    avl_balanced_aux t = true → all_nodes_balanced t := by
  intro t
  induction t with
  | nil => intro _ _; trivial
  | node v h l r ihl ihr =>
    rintro ⟨h1, hl, hr⟩ hb
    obtain ⟨pl, zl⟩ := heights_correct_pos l hl
    obtain ⟨pr, zr⟩ := heights_correct_pos r hr
    rw [avl_balanced_aux] at hb
    by_cases e : h = 1
    · have el : l = nil := zl (by omega)
      have er : r = nil := zr (by omega)
      subst el; subst er
      simp [all_nodes_balanced]
    · simp only [e, if_false] at hb
      by_cases e2 : |avl_node_height l - avl_node_height r| > 1
      · simp [e2] at hb
      · simp only [e2, if_false, Bool.and_eq_true] at hb
        exact ⟨not_lt.1 e2, ihl hl hb.1, ihr hr hb.2⟩

/-- C19 (as amended): on a tree whose cached heights are all `1 + max` of the child heights,
`avl_balanced` returns true if and only if every node satisfies
`|height(left) - height(right)| ≤ 1`, the height of an absent child being 0 and that of a
present child its cached height. -/
theorem C19_balanced_iff_every_node (tree : avl α) (hh : heights_correct tree.root) :
    avl_balanced tree = true ↔ all_nodes_balanced tree.root :=
  ⟨all_of_balanced_aux tree.root hh, balanced_aux_of_all tree.root⟩

theorem C19_balanced_iff_every_node_witness :
    heights_correct tree7.root ∧ avl_balanced tree7 = true ∧ all_nodes_balanced tree7.root :=
  ⟨by simp [heights_correct, tree7], by decide,
    (C19_balanced_iff_every_node tree7 (by simp [heights_correct, tree7])).1 (by decide)⟩

/-- C19 fails as stated on arbitrary cached heights: a root with cached height 1 is accepted
without looking at its children, here a left child of cached height 5 beside no right child. -/
theorem C19_balanced_counterexample :
    avl_balanced tree_bad_heights = true ∧ ¬ all_nodes_balanced tree_bad_heights.root := by
  refine ⟨by decide, ?_⟩
  intro h
  have := h.1
  revert this
  simp [tree_bad_heights]

/-- C20: a tree holding the single value 5 compared against itself (the same insert sequence
replayed) is reported as not equal by `avl_equals`, while single-node trees holding the
different values 1 and 2 are reported as equal. -/
theorem C20_equals_inverted :
    ∃ a b c, avl_insert_all ( avl_initialize data_compare) [5] = some a ∧
      avl_insert_all ( avl_initialize data_compare) [1] = some b ∧
      avl_insert_all ( avl_initialize data_compare) [2] = some c ∧
      avl_equals a a = false ∧ avl_equals b c = true :=
  ⟨{ size := 1, compare := data_compare, root := node 5 1 nil nil },
    { size := 1, compare := data_compare, root := node 1 1 nil nil },
    { size := 1, compare := data_compare, root := node 2 1 nil nil },
    rfl, rfl, rfl, by decide, by decide⟩

/-- C29: for a present node whose two subtrees are accepted by `avl_valid`, whose value lies
strictly between the values of its two subtrees in the ordering of the tree, and whose child
heights differ by at most 2, `avl_rebalance` returns a subtree root that is accepted by
`avl_valid`, has the same in-order sequence as before, and has height `1 + max` of the child
heights before the call, or one less. -/
theorem C29_rebalance_restores_valid (tree : avl α) (v : α) (h : Int) (l r : avl_node α)
    (hc : CompareOrder tree.compare)
    (hl : avl_valid { tree with root := l } = true)
    (hr : avl_valid { tree with root := r } = true)
    (hbetween : (∀ x ∈ elems l, tree.compare v x < 0) ∧ (∀ y ∈ elems r, 0 < tree.compare v y))
    (hdiff : |avl_node_height l - avl_node_height r| ≤ 2) :
    ∃ t, avl_rebalance (node v h l r) = some t ∧
      avl_valid { tree with root := t } = true ∧
      elems t = elems (node v h l r) ∧
      (avl_node_height t = 1 + max (avl_node_height l) (avl_node_height r) ∨
       avl_node_height t = 1 + max (avl_node_height l) (avl_node_height r) - 1) := by
  obtain ⟨bl, sl⟩ := (valid_iff { tree with root := l } hc).1 hl
  obtain ⟨br, sr⟩ := (valid_iff { tree with root := r } hc).1 hr
  obtain ⟨d1, d2⟩ := abs_le.1 hdiff
  obtain ⟨t, e, bt, elt, ht, _⟩ := rebalance_spec v h l r bl br (by omega) (by omega)
  refine ⟨t, e, (valid_iff { tree with root := t } hc).2 ⟨bt, ?_⟩, elt, by omega⟩
  show Sorted tree.compare (elems t)
  rw [elt]
  exact (sorted_node hc v _ _).2 ⟨sl, sr, hbetween.1,
    fun y hy => (hc.swap _ _).2 (hbetween.2 y hy)⟩

theorem C29_rebalance_restores_valid_witness :
    ∃ t, avl_rebalance node_left_heavy = some t ∧
      avl_valid { tree6 with root := t } = true ∧
      elems t = elems node_left_heavy ∧
      (avl_node_height t = 1 + max 2 0 ∨ avl_node_height t = 1 + max 2 0 - 1) :=
  C29_rebalance_restores_valid tree6 3 1 (node 5 2 (node 6 1 nil nil) nil) nil
    data_compare_order (by decide) (by decide) (by decide) (by decide)

/-- The balance value of a present node. -/
theorem avl_balance_value_node (v : α) (h : Int) (l r : avl_node α) :
    avl_balance_value (node v h l r) = some (avl_node_height l - avl_node_height r) := rfl

/-- The traced rebalance returns the subtree root that `avl_rebalance` returns. -/
theorem rebalance_traced_snd (n : avl_node α) :
    (avl_rebalance_traced n).map Prod.snd = avl_rebalance n := by
  cases n with
  | nil => rfl
  | node v h l r =>
    simp only [avl_rebalance_traced, avl_rebalance, avl_update_height, avl_balance_value_node]
    generalize avl_node_height l - avl_node_height r = b
    generalize MAX_HEIGHT (avl_node_height l) (avl_node_height r) + 1 = h1
    generalize cAnd (decide (b > 1)) (Option.map (fun b => decide (b ≥ 0)) (avl_balance_value l)) = c1
    generalize cAnd (decide (b < -1)) (Option.map (fun b => decide (b ≤ 0)) (avl_balance_value r)) = c2
    generalize cAnd (decide (b > 1)) (Option.map (fun b => decide (b < 0)) (avl_balance_value l)) = c3
    generalize cAnd (decide (b < -1)) (Option.map (fun b => decide (b > 0)) (avl_balance_value r)) = c4
    rcases c1 with _ | _ | _
    · rfl
    · rcases c2 with _ | _ | _
      · rfl
      · rcases c3 with _ | _ | _
        · rfl
        · rcases c4 with _ | _ | _
          · rfl
          · rfl
          · cases avl_rotate_right r with
            | none => rfl
            | some r1 => simp [Option.map_map, Function.comp_def]
        · cases avl_rotate_left l with
          | none => rfl
          | some l1 => simp [Option.map_map, Function.comp_def]
      · simp [Option.map_map, Function.comp_def]
    · simp [Option.map_map, Function.comp_def]

/-- The test chain of the rebalance engine as a decision tree on the balance factor of the
node and of the child on the heavy side. -/
theorem rebalance_traced_eq (v : α) (h : Int) (l r : avl_node α) :
    avl_rebalance_traced (node v h l r) =
      if avl_node_height l - avl_node_height r > 1 then
        match avl_balance_value l with
        | none => none
        | some bl =>
          if bl ≥ 0 then
            (avl_rotate_right (node v (MAX_HEIGHT (avl_node_height l) (avl_node_height r) + 1)
              l r)).map (fun t => (rebalance_case.left_left, t))
          else
            match avl_rotate_left l with
            | none => none
            | some l1 =>
              (avl_rotate_right (node v (MAX_HEIGHT (avl_node_height l) (avl_node_height r) + 1)
                l1 r)).map (fun t => (rebalance_case.left_right, t))
      else if avl_node_height l - avl_node_height r < -1 then
        match avl_balance_value r with
        | none => none
        | some br =>
          if br ≤ 0 then
            (avl_rotate_left (node v (MAX_HEIGHT (avl_node_height l) (avl_node_height r) + 1)
              l r)).map (fun t => (rebalance_case.right_right, t))
          else
            match avl_rotate_right r with
            | none => none
            | some r1 =>
              (avl_rotate_left (node v (MAX_HEIGHT (avl_node_height l) (avl_node_height r) + 1)
                l r1)).map (fun t => (rebalance_case.right_left, t))
      else some (rebalance_case.no_rotation,
        node v (MAX_HEIGHT (avl_node_height l) (avl_node_height r) + 1) l r) := by
  simp only [avl_rebalance_traced, avl_update_height, avl_balance_value_node]
  by_cases hb1 : avl_node_height l - avl_node_height r > 1
  · have hb2 : ¬ (avl_node_height l - avl_node_height r < -1) := by omega
    cases hl : avl_balance_value l with
    | none => simp [cAnd, hb1]
    | some bl =>
      by_cases hb3 : bl ≥ 0
      · simp [cAnd, hb1, hb3]
      · have hb4 : bl < 0 := by omega
        simp [cAnd, hb1, hb2, hb3, hb4]
  · by_cases hb2 : avl_node_height l - avl_node_height r < -1
    · cases hr : avl_balance_value r with
      | none => simp [cAnd, hb1, hb2]
      | some br =>
        by_cases hb3 : br ≤ 0
        · simp [cAnd, hb1, hb2, hb3]
        · have hb4 : br > 0 := by omega
          simp [cAnd, hb1, hb2, hb3, hb4]
    · simp [cAnd, hb1, hb2]

/-- Cached heights bounded below by 0 make the height of every subtree non-negative. -/
theorem heights_at_least_nonneg : ∀ t : avl_node α, heights_at_least 0 t →
    0 ≤ avl_node_height t
  | nil, _ => by simp
  | node _ _ _ _, h => h.1

/-- In a subtree all of whose present nodes have a cached height of at least 1, the child
heights of every node are not negative. -/
theorem child_heights_of_data_model : ∀ t : avl_node α, heights_at_least 1 t →
    child_heights_nonneg t ∧
    (∀ v h l r, t = node v h l r → child_heights_nonneg l ∧ child_heights_nonneg r) := by
  have one : ∀ t : avl_node α, heights_at_least 1 t → child_heights_nonneg t := by
    intro t ht
    cases t with
    | nil => trivial
    | node v h l r =>
      refine ⟨?_, ?_⟩
      · cases l with
        | nil => simp
        | node _ _ _ _ => have := ht.2.1.1; simp only [avl_node_height_node]; omega
      · cases r with
        | nil => simp
        | node _ _ _ _ => have := ht.2.2.1; simp only [avl_node_height_node]; omega
  intro t ht
  refine ⟨one t ht, ?_⟩
  intro v h l r e
  subst e
  exact ⟨one l ht.2.1, one r ht.2.2⟩

/-- C30: for a present node of a tree of the data model, where a present node has a cached
height of at least 1 (used here only as: the cached heights of the children and
grandchildren of the node, 0 for an absent one, are not negative), exactly one of the five
cases of `avl_rebalance` applies. A rotation case applies if and only if the balance factor
computed after the height recompute is above 1 or below -1; each rotation case performs its
rotation on the node with the recomputed height; and in the remaining case the result is
the same node, value and both children unchanged, with its cached height rewritten to
`1 + max` of the child heights. -/
theorem C30_rebalance_case_split (v : α) (h : Int) (l r : avl_node α)
    (hn : child_heights_nonneg (node v h l r)) (hl : child_heights_nonneg l)
    (hr : child_heights_nonneg r) :
    ∃ c t, avl_rebalance_traced (node v h l r) = some (c, t) ∧
      avl_rebalance (node v h l r) = some t ∧
      (c ≠ rebalance_case.no_rotation ↔
        (avl_node_height l - avl_node_height r > 1 ∨
          avl_node_height l - avl_node_height r < -1)) ∧
      (c = rebalance_case.no_rotation →
        t = node v (1 + max (avl_node_height l) (avl_node_height r)) l r) ∧
      (c = rebalance_case.left_left →
        avl_node_height l - avl_node_height r > 1 ∧
        (∃ bl, avl_balance_value l = some bl ∧ bl ≥ 0) ∧
        avl_rotate_right (node v (1 + max (avl_node_height l) (avl_node_height r)) l r)
          = some t) ∧
      (c = rebalance_case.right_right →
        avl_node_height l - avl_node_height r < -1 ∧
        (∃ br, avl_balance_value r = some br ∧ br ≤ 0) ∧
        avl_rotate_left (node v (1 + max (avl_node_height l) (avl_node_height r)) l r)
          = some t) ∧
      (c = rebalance_case.left_right →
        avl_node_height l - avl_node_height r > 1 ∧
        (∃ bl, avl_balance_value l = some bl ∧ bl < 0) ∧
        ∃ l1, avl_rotate_left l = some l1 ∧
          avl_rotate_right (node v (1 + max (avl_node_height l) (avl_node_height r)) l1 r)
            = some t) ∧
      (c = rebalance_case.right_left →
        avl_node_height l - avl_node_height r < -1 ∧
        (∃ br, avl_balance_value r = some br ∧ br > 0) ∧
        ∃ r1, avl_rotate_right r = some r1 ∧
          avl_rotate_left (node v (1 + max (avl_node_height l) (avl_node_height r)) l r1)
            = some t) := by
  have hln : 0 ≤ avl_node_height l := hn.1
  have hrn : 0 ≤ avl_node_height r := hn.2
  have hmax : MAX_HEIGHT (avl_node_height l) (avl_node_height r) + 1
      = 1 + max (avl_node_height l) (avl_node_height r) := by rw [MAX_HEIGHT_eq]; ring
  have key : ∀ c t, avl_rebalance_traced (node v h l r) = some (c, t) →
      avl_rebalance (node v h l r) = some t := by
    intro c t e
    rw [← rebalance_traced_snd, e]; rfl
  have e0 := rebalance_traced_eq v h l r
  rw [hmax] at e0
  by_cases hb1 : avl_node_height l - avl_node_height r > 1
  · rw [if_pos hb1] at e0
    cases l with
    | nil => simp at hb1; omega
    | node lv lh ll lr =>
      have hlln : 0 ≤ avl_node_height ll := hl.1
      have hlrn : 0 ≤ avl_node_height lr := hl.2
      rw [avl_balance_value_node] at e0
      by_cases hb2 : avl_node_height ll - avl_node_height lr ≥ 0
      · simp only [hb2, if_true] at e0
        obtain ⟨t, et⟩ : ∃ t, avl_rotate_right (node v (1 + max (avl_node_height
            (node lv lh ll lr)) (avl_node_height r)) (node lv lh ll lr) r) = some t :=
          ⟨_, rfl⟩
        rw [et] at e0
        exact ⟨_, t, e0, key _ _ e0, ⟨fun _ => Or.inl hb1, fun _ => by simp⟩, by simp, fun _ => ⟨hb1, ⟨_, rfl, hb2⟩, et⟩,
          by simp, by simp, by simp⟩
      · simp only [hb2, if_false] at e0
        cases lr with
        | nil => simp at hb2; omega
        | node lrv lrh lrl lrr =>
          obtain ⟨l1, el1⟩ : ∃ l1, avl_rotate_left (node lv lh ll (node lrv lrh lrl lrr))
              = some l1 := ⟨_, rfl⟩
          rw [el1] at e0
          have hl1 : ∃ a b c d, l1 = node a b c d := by
            simp only [avl_rotate_left, avl_update_height, Option.some.injEq] at el1
            exact ⟨_, _, _, _, el1.symm⟩
          obtain ⟨a, b, c, d, rfl⟩ := hl1
          obtain ⟨t, et⟩ : ∃ t, avl_rotate_right (node v (1 + max (avl_node_height
              (node lv lh ll (node lrv lrh lrl lrr))) (avl_node_height r)) (node a b c d) r)
              = some t := ⟨_, rfl⟩
          simp only [et, Option.map_some'] at e0
          exact ⟨_, t, e0, key _ _ e0, ⟨fun _ => Or.inl hb1, fun _ => by simp⟩, by simp, by simp, by simp,
            fun _ => ⟨hb1, ⟨_, rfl, by omega⟩, _, el1, et⟩, by simp⟩
  · rw [if_neg hb1] at e0
    by_cases hc1 : avl_node_height l - avl_node_height r < -1
    · rw [if_pos hc1] at e0
      cases r with
      | nil => simp at hc1; omega
      | node rv rh rl rr =>
        have hrln : 0 ≤ avl_node_height rl := hr.1
        have hrrn : 0 ≤ avl_node_height rr := hr.2
        rw [avl_balance_value_node] at e0
        by_cases hc2 : avl_node_height rl - avl_node_height rr ≤ 0
        · simp only [hc2, if_true] at e0
          obtain ⟨t, et⟩ : ∃ t, avl_rotate_left (node v (1 + max (avl_node_height l)
              (avl_node_height (node rv rh rl rr))) l (node rv rh rl rr)) = some t :=
            ⟨_, rfl⟩
          rw [et] at e0
          exact ⟨_, t, e0, key _ _ e0, ⟨fun _ => Or.inr hc1, fun _ => by simp⟩, by simp, by simp,
            fun _ => ⟨hc1, ⟨_, rfl, hc2⟩, et⟩, by simp, by simp⟩
        · simp only [hc2, if_false] at e0
          cases rl with
          | nil => simp at hc2; omega
          | node rlv rlh rll rlr =>
            obtain ⟨r1, er1⟩ : ∃ r1, avl_rotate_right (node rv rh (node rlv rlh rll rlr) rr)
                = some r1 := ⟨_, rfl⟩
            rw [er1] at e0
            have hr1 : ∃ a b c d, r1 = node a b c d := by
              simp only [avl_rotate_right, avl_update_height, Option.some.injEq] at er1
              exact ⟨_, _, _, _, er1.symm⟩
            obtain ⟨a, b, c, d, rfl⟩ := hr1
            obtain ⟨t, et⟩ : ∃ t, avl_rotate_left (node v (1 + max (avl_node_height l)
                (avl_node_height (node rv rh (node rlv rlh rll rlr) rr))) l (node a b c d))
                = some t := ⟨_, rfl⟩
            simp only [et, Option.map_some'] at e0
            exact ⟨_, t, e0, key _ _ e0, ⟨fun _ => Or.inr hc1, fun _ => by simp⟩, by simp, by simp, by simp, by simp,
              fun _ => ⟨hc1, ⟨_, rfl, by omega⟩, _, er1, et⟩⟩
    · rw [if_neg hc1] at e0
      exact ⟨_, _, e0, key _ _ e0, ⟨fun hne => absurd rfl hne, fun hh => absurd hh (by omega)⟩, fun _ => rfl, by simp, by simp,
        by simp, by simp⟩

theorem C30_rebalance_case_split_witness :
    child_heights_nonneg node_left_heavy ∧
    child_heights_nonneg (node 5 2 (node 6 1 nil nil) nil : avl_node Int) ∧
    avl_rebalance_traced node_left_heavy
      = some (rebalance_case.left_left, node 5 2 (node 6 1 nil nil) (node 3 1 nil nil)) ∧
    ∃ c t, avl_rebalance_traced node_left_heavy = some (c, t) ∧
      avl_rebalance node_left_heavy = some t ∧
      (c ≠ rebalance_case.no_rotation ↔ ((2 : Int) - 0 > 1 ∨ (2 : Int) - 0 < -1)) :=
  ⟨by simp [child_heights_nonneg, node_left_heavy], by simp [child_heights_nonneg],
    by decide,
    (C30_rebalance_case_split 3 1 (node 5 2 (node 6 1 nil nil) nil) nil
      (by simp [child_heights_nonneg]) (by simp [child_heights_nonneg])
      (by simp [child_heights_nonneg])).imp
      (fun _ hc => hc.imp (fun _ ht => ⟨ht.1, ht.2.1, ht.2.2.1⟩))⟩

/-- Outside the data model, on a node above a negative cached height, the case analysis
has nothing to say: with no left child and a right child of cached height -2 the recomputed
balance factor is 2 and the first test reads the balance of the absent left child. No tree
built by the operations of `avl.c` holds such a node. -/
theorem rebalance_negative_height :
    avl_node_height (nil : avl_node Int) - avl_node_height (node (0 : Int) (-2) nil nil) > 1 ∧
    avl_rebalance_traced node_negative_height = none ∧
    avl_rebalance node_negative_height = none := by
  decide

/-- Trees that `avl_equals_aux` reports equal have the same shape. -/
theorem equals_aux_same_shape (tree : avl α) : ∀ a b : avl_node α,
    avl_equals_aux tree a b = true → same_shape a b := by
  intro a
  induction a with
  | nil =>
    intro b hb
    cases b with
    | nil => trivial
    | node _ _ _ _ => simp [avl_equals_aux] at hb
  | node tv th tl tr ihl ihr =>
    intro b hb
    cases b with
    | nil => simp [avl_equals_aux] at hb
    | node sv sh sl sr =>
      rw [avl_equals_aux] at hb
      by_cases hc : tree.compare tv sv = 0
      · simp [hc] at hb
      · simp only [hc, if_false, Bool.and_eq_true] at hb
        exact ⟨ihl sl hb.1, ihr sr hb.2⟩

/-- Trees of the same shape have the same number of stored values. -/
theorem same_shape_length : ∀ a b : avl_node α, same_shape a b →
    (elems a).length = (elems b).length := by
  intro a
  induction a with
  | nil =>
    intro b hb
    cases b with
    | nil => rfl
    | node _ _ _ _ => exact hb.elim
  | node tv th tl tr ihl ihr =>
    intro b hb
    cases b with
    | nil => exact hb.elim
    | node sv sh sl sr =>
      simp only [elems, List.length_append, List.length_cons, ihl sl hb.1, ihr sr hb.2]

/-- Comparing equal is transitive. -/
theorem CompareOrder.eq_trans {compare : α → α → Int} (hc : CompareOrder compare) {a b c : α}
    (h1 : compare a b = 0) (h2 : compare b c = 0) : compare a c = 0 := by
  have h3 := hc.le_trans a b c (by omega) (by omega)
  have h4 := hc.le_trans c b a (by have := hc.eq_symm h2; omega) (by have := hc.eq_symm h1; omega)
  have h5 := hc.swap a c
  have h6 := hc.swap c a
  omega

/-- Counting argument: if no two values of `xs` compare equal, every value of `xs` compares
equal to some value of `ys`, and `ys` holds a value that compares equal to none of `xs`,
then `ys` is longer than `xs`. -/
theorem length_lt_of_extra {compare : α → α → Int} (hc : CompareOrder compare) :
    ∀ (xs ys : List α), xs.Pairwise (fun a b => compare a b ≠ 0) →
      (∀ x ∈ xs, ∃ y ∈ ys, compare x y = 0) →
      (∃ y ∈ ys, ∀ x ∈ xs, compare x y ≠ 0) → xs.length < ys.length := by
  intro xs
  induction xs with
  | nil =>
    intro ys _ _ ⟨y, hy, _⟩
    exact List.length_pos_of_mem hy
  | cons a xs ih =>
    intro ys hp hsub ⟨y0, hy0, hne⟩
    obtain ⟨hpa, hpx⟩ := List.pairwise_cons.1 hp
    obtain ⟨y, hy, hay⟩ := hsub a (by simp)
    obtain ⟨p, q, rfl⟩ := List.append_of_mem hy
    have hlen := ih (p ++ q) hpx ?_ ?_
    · simp only [List.length_append, List.length_cons] at hlen ⊢; omega
    · intro x hx
      obtain ⟨z, hz, hxz⟩ := hsub x (by simp [hx])
      refine ⟨z, ?_, hxz⟩
      rcases (mem_insert_mid z y p q).1 hz with rfl | hz
      · exact absurd (hc.eq_trans hay (hc.eq_symm hxz)) (hpa x hx)
      · exact hz
    · refine ⟨y0, ?_, fun x hx => hne x (by simp [hx])⟩
      rcases (mem_insert_mid y0 y p q).1 hy0 with rfl | hz
      · exact absurd hay (hne a (by simp))
      · exact hz

/-- In a sorted listing no two values compare equal. -/
theorem sorted_pairwise_ne {compare : α → α → Int} (hc : CompareOrder compare) (xs : List α)
    (hs : Sorted compare xs) : xs.Pairwise (fun a b => compare a b ≠ 0) := by
  unfold Sorted at hs
  refine hs.imp ?_
  intro a b hab h0
  have := hc.eq_symm h0
  omega

/-- C21: whenever the shapes of two trees differ, `avl_equals` returns 0; in particular it
returns 0 when one valid tree stores a value comparing equal to every value of the other
valid tree and at least one value comparing equal to none of them. -/
theorem C21_equals_zero_on_shape_mismatch (a b : avl α) :
    (¬ same_shape a.root b.root → avl_equals a b = false) ∧
    (CompareOrder b.compare → a.compare = b.compare → avl_valid a = true →
      avl_valid b = true →
      (∀ x ∈ elems a.root, ∃ y ∈ elems b.root, b.compare x y = 0) →
      (∃ y ∈ elems b.root, ∀ x ∈ elems a.root, b.compare x y ≠ 0) →
      ¬ same_shape a.root b.root ∧ avl_equals a b = false ∧ avl_equals b a = false) := by
  have hshape : ∀ (t : avl α) (x y : avl_node α), ¬ same_shape x y →
      avl_equals_aux t x y = false := by
    intro t x y hn
    cases h : avl_equals_aux t x y with
    | false => rfl
    | true => exact absurd (equals_aux_same_shape t x y h) hn
  refine ⟨fun hn => hshape b a.root b.root hn, ?_⟩
  intro hc hcmp hva hvb hsub hextra
  have hsa : Sorted b.compare (elems a.root) := by
    have := ((valid_iff a (hcmp ▸ hc)).1 hva).2
    rwa [hcmp] at this
  have hlt := length_lt_of_extra hc (elems a.root) (elems b.root)
    (sorted_pairwise_ne hc _ hsa) hsub hextra
  have hns : ¬ same_shape a.root b.root := fun h => by
    have := same_shape_length _ _ h; omega
  have hns2 : ¬ same_shape b.root a.root := fun h => by
    have := same_shape_length _ _ h; omega
  exact ⟨hns, hshape b a.root b.root hns, hshape a b.root a.root hns2⟩

theorem C21_equals_zero_on_shape_mismatch_witness :
    ¬ same_shape tree6.root tree6_plus_9.root ∧ avl_equals tree6 tree6_plus_9 = false ∧
      avl_equals tree6_plus_9 tree6 = false :=
  (C21_equals_zero_on_shape_mismatch tree6 tree6_plus_9).2 data_compare_order rfl
    (by decide) (by decide) (by decide) (by decide)

/-- Height correctness and balance at every node, stated as the two separate conditions. -/
theorem balanced_iff_heights : ∀ t : avl_node α,
    Balanced t ↔ heights_correct t ∧ all_nodes_balanced t := by
  intro t
  induction t with
  | nil => simp [Balanced, heights_correct, all_nodes_balanced]
  | node v h l r ihl ihr =>
    simp only [Balanced, heights_correct, all_nodes_balanced, MAX_HEIGHT_eq, ihl, ihr, abs_le]
    constructor
    · rintro ⟨a1, a2, a3, ⟨hl, bl⟩, ⟨hr, br⟩⟩
      exact ⟨⟨by omega, hl, hr⟩, ⟨by omega, by omega⟩, bl, br⟩
    · rintro ⟨⟨a3, hl, hr⟩, ⟨a1, a2⟩, bl, br⟩
      exact ⟨by omega, by omega, by omega, ⟨hl, bl⟩, ⟨hr, br⟩⟩

/-- A height is below a rational multiple of the binary logarithm exactly if the matching
inequality between integer powers holds. -/
theorem le_logb_iff_pow (n p q : Nat) (M : ℝ) (hM : 0 < M) (hq : 0 < q) :
    (n : ℝ) ≤ ((p : ℝ) / q) * Real.logb 2 M ↔ (2 : ℝ) ^ (q * n) ≤ M ^ p := by
  have hq0 : (0 : ℝ) < q := by exact_mod_cast hq
  have e1 : ((p : ℝ) / q) * Real.logb 2 M = Real.logb 2 (M ^ p) / q := by
    rw [Real.logb_pow]; ring
  rw [e1, le_div_iff₀ hq0, Real.le_logb_iff_rpow_le (by norm_num) (by positivity)]
  have e2 : ((n : ℝ) * q) = ((q * n : Nat) : ℝ) := by push_cast; ring
  rw [e2, Real.rpow_natCast]

/-- The integer comparison is negative exactly on a smaller first argument. -/
theorem data_compare_neg (a b : Int) : data_compare a b < 0 ↔ a < b := by
  unfold data_compare; split_ifs <;> omega

/-- The Fibonacci tree of height `n` from key `lo`: it is balanced with correct heights, has
height `n` and `fib (n + 2) - 1` nodes, and lists its keys, all between `lo` and
`lo + fib (n + 2) - 2`, in the order of the descent. -/
theorem fib_tree_spec : ∀ n : Nat,
    (∀ lo : Int, Balanced (fib_tree n lo) ∧ avl_node_height (fib_tree n lo) = n ∧
      node_count (fib_tree n lo) = Nat.fib (n + 2) - 1 ∧
      Sorted data_compare (elems (fib_tree n lo)) ∧
      ∀ x ∈ elems (fib_tree n lo), lo ≤ x ∧ x ≤ lo + Nat.fib (n + 2) - 2) ∧
    (∀ lo : Int, Balanced (fib_tree (n + 1) lo) ∧ avl_node_height (fib_tree (n + 1) lo) = n + 1 ∧
      node_count (fib_tree (n + 1) lo) = Nat.fib (n + 3) - 1 ∧
      Sorted data_compare (elems (fib_tree (n + 1) lo)) ∧
      ∀ x ∈ elems (fib_tree (n + 1) lo), lo ≤ x ∧ x ≤ lo + Nat.fib (n + 3) - 2) := by
  intro n
  induction n with
  | zero =>
    constructor
    · intro lo
      simp [fib_tree, Balanced, avl_node_height, node_count, elems, Sorted]
    · intro lo
      simp [fib_tree, Balanced, avl_node_height, node_count, elems, Sorted, MAX_HEIGHT,
        Nat.fib_add_two]
  | succ n ih =>
    refine ⟨ih.2, ?_⟩
    intro lo
    obtain ⟨b0, h0, c0, s0, m0⟩ := ih.1 lo
    obtain ⟨b1, h1, c1, s1, m1⟩ := ih.2 (lo + Nat.fib (n + 2))
    have hf : Nat.fib (n + 1 + 3) = Nat.fib (n + 2) + Nat.fib (n + 3) := Nat.fib_add_two
    have hpos : 0 < Nat.fib (n + 2) := Nat.fib_pos.2 (by omega)
    have hpos3 : 0 < Nat.fib (n + 3) := Nat.fib_pos.2 (by omega)
    have e : fib_tree (n + 1 + 1) lo
        = node (lo + Nat.fib (n + 2) - 1) (n + 2) (fib_tree (n + 1) (lo + Nat.fib (n + 2)))
            (fib_tree n lo) := rfl
    rw [e]
    refine ⟨⟨by rw [h0, h1]; omega, by rw [h0, h1]; omega, ?_, b1, b0⟩, ?_, ?_, ?_, ?_⟩
    · rw [h0, h1, MAX_HEIGHT_eq]; omega
    · simp only [avl_node_height]; push_cast; ring
    · simp only [node_count, c0, c1, hf]; push_cast; ring
    · simp only [elems]
      rw [sorted_node data_compare_order]
      refine ⟨s1, s0, ?_, ?_⟩
      · intro x hx
        have := m1 x hx
        rw [data_compare_neg]; omega
      · intro y hy
        have := m0 y hy
        rw [data_compare_neg]; omega
    · intro x hx
      simp only [elems, List.mem_append, List.mem_cons] at hx
      rw [hf]
      push_cast
      rcases hx with hx | rfl | hx
      · have := m1 x hx; omega
      · omega
      · have := m0 x hx; omega

/-- The limit on the number of nodes is what the constant 1.44 rests on: the Fibonacci tree
of height 1124 on the keys from 0 upwards satisfies height correctness and balance at every
node and is accepted by `avl_valid`, it has `N = fib 1126 - 1` nodes, which is more than
`2 ^ 780` and far more than this code can hold, and its height 1124 exceeds
`1.44 * log2(N + 2)`. -/
theorem fib_tree_above_bound :
    heights_correct (fib_tree 1124 0) ∧ all_nodes_balanced (fib_tree 1124 0) ∧
    avl_valid (fib_avl 1124) = true ∧
    avl_node_height (fib_tree 1124 0) = 1124 ∧
    node_count (fib_tree 1124 0) = Nat.fib 1126 - 1 ∧
    (2 : Int) ^ 780 < node_count (fib_tree 1124 0) ∧
    ¬ ((avl_node_height (fib_tree 1124 0) : ℝ)
        ≤ 1.44 * Real.logb 2 ((node_count (fib_tree 1124 0) : ℝ) + 2)) := by
  obtain ⟨b, h, c, s, _⟩ := (fib_tree_spec 1124).1 0
  have hhb := (balanced_iff_heights _).1 b
  refine ⟨hhb.1, hhb.2, ?_, h, c, ?_, ?_⟩
  · exact (valid_iff (fib_avl 1124) data_compare_order).2 ⟨b, s⟩
  · rw [c]; norm_num [Nat.fib_add_two]
  · rw [h, c]
    have e : (1.44 : ℝ) = ((36 : Nat) : ℝ) / ((25 : Nat) : ℝ) := by norm_num
    have e2 : (((1124 : Nat) : Int) : ℝ) = ((1124 : Nat) : ℝ) := by norm_num
    have e3 : ((((Nat.fib (1124 + 2) : Int) - 1 : Int) : ℝ) + 2)
        = ((Nat.fib 1126 + 1 : Nat) : ℝ) := by push_cast; ring
    rw [e, e2, e3, le_logb_iff_pow 1124 36 25 _ (by positivity) (by norm_num), not_le]
    have hnat : (Nat.fib 1126 + 1) ^ 36 < 2 ^ (25 * 1124) := by norm_num [Nat.fib_add_two]
    exact_mod_cast hnat

/-- Cached heights bounded below by 1 are bounded below by 0. -/
theorem heights_at_least_weaken : ∀ t : avl_node α, heights_at_least 1 t →
    heights_at_least 0 t
  | nil, _ => trivial
  | node _ _ l r, h =>
    ⟨by have := h.1; omega, heights_at_least_weaken l h.2.1, heights_at_least_weaken r h.2.2⟩

/-- C31: for a present node all of whose present descendants have a cached height of at
least 1, `avl_rebalance` returns (no absent node is dereferenced) and every rotation it
performs has its child present: a balance factor above 1 implies a left child, one below -1 a
right child, the Left-Left and Right-Right rotations turn around a present child, and in the
Left-Right (Right-Left) case the left child has a right child (the right child has a left
child), so that both rotations of the double rotation succeed. -/
theorem C31_rebalance_children_present (v : α) (h : Int) (l r : avl_node α)
    (hl : heights_at_least 1 l) (hr : heights_at_least 1 r) :
    (avl_node_height l - avl_node_height r > 1 → l ≠ nil) ∧
    (avl_node_height l - avl_node_height r < -1 → r ≠ nil) ∧
    ∃ c t, avl_rebalance_traced (node v h l r) = some (c, t) ∧
      avl_rebalance (node v h l r) = some t ∧
      (c = rebalance_case.left_left → ∃ lv lh ll lr, l = node lv lh ll lr) ∧
      (c = rebalance_case.right_right → ∃ rv rh rl rr, r = node rv rh rl rr) ∧
      (c = rebalance_case.left_right →
        ∃ lv lh ll xv xh xl xr l1, l = node lv lh ll (node xv xh xl xr) ∧
          avl_rotate_left l = some l1 ∧ l1 ≠ nil) ∧
      (c = rebalance_case.right_left →
        ∃ rv rh yv yh yl yr rr r1, r = node rv rh (node yv yh yl yr) rr ∧
          avl_rotate_right r = some r1 ∧ r1 ≠ nil) := by
  have hln := heights_at_least_nonneg l (heights_at_least_weaken l hl)
  have hrn := heights_at_least_nonneg r (heights_at_least_weaken r hr)
  have key : ∀ c t, avl_rebalance_traced (node v h l r) = some (c, t) →
      avl_rebalance (node v h l r) = some t := by
    intro c t e
    rw [← rebalance_traced_snd, e]; rfl
  refine ⟨?_, ?_, ?_⟩
  · intro hb e; subst e; simp at hb; omega
  · intro hb e; subst e; simp at hb; omega
  have e0 := rebalance_traced_eq v h l r
  by_cases hb1 : avl_node_height l - avl_node_height r > 1
  · rw [if_pos hb1] at e0
    cases l with
    | nil => simp at hb1; omega
    | node lv lh ll lr =>
      have hlln := heights_at_least_nonneg ll (heights_at_least_weaken ll hl.2.1)
      have hlrn := heights_at_least_nonneg lr (heights_at_least_weaken lr hl.2.2)
      rw [avl_balance_value_node] at e0
      by_cases hb2 : avl_node_height ll - avl_node_height lr ≥ 0
      · simp only [hb2, if_true] at e0
        obtain ⟨t, et⟩ : ∃ t, avl_rotate_right (node v (MAX_HEIGHT (avl_node_height
            (node lv lh ll lr)) (avl_node_height r) + 1) (node lv lh ll lr) r) = some t :=
          ⟨_, rfl⟩
        rw [et] at e0
        exact ⟨_, t, e0, key _ _ e0, fun _ => ⟨_, _, _, _, rfl⟩, by simp, by simp, by simp⟩
      · simp only [hb2, if_false] at e0
        cases lr with
        | nil => simp at hb2; omega
        | node lrv lrh lrl lrr =>
          obtain ⟨l1, el1⟩ : ∃ l1, avl_rotate_left (node lv lh ll (node lrv lrh lrl lrr))
              = some l1 := ⟨_, rfl⟩
          rw [el1] at e0
          have hl1 : ∃ a b c d, l1 = node a b c d := by
            simp only [avl_rotate_left, avl_update_height, Option.some.injEq] at el1
            exact ⟨_, _, _, _, el1.symm⟩
          obtain ⟨a, b, c, d, rfl⟩ := hl1
          obtain ⟨t, et⟩ : ∃ t, avl_rotate_right (node v (MAX_HEIGHT (avl_node_height
              (node lv lh ll (node lrv lrh lrl lrr))) (avl_node_height r) + 1) (node a b c d) r)
              = some t := ⟨_, rfl⟩
          simp only [et, Option.map_some'] at e0
          exact ⟨_, t, e0, key _ _ e0, by simp, by simp,
            fun _ => ⟨_, _, _, _, _, _, _, _, rfl, el1, by simp⟩, by simp⟩
  · rw [if_neg hb1] at e0
    by_cases hc1 : avl_node_height l - avl_node_height r < -1
    · rw [if_pos hc1] at e0
      cases r with
      | nil => simp at hc1; omega
      | node rv rh rl rr =>
        have hrln := heights_at_least_nonneg rl (heights_at_least_weaken rl hr.2.1)
        have hrrn := heights_at_least_nonneg rr (heights_at_least_weaken rr hr.2.2)
        rw [avl_balance_value_node] at e0
        by_cases hc2 : avl_node_height rl - avl_node_height rr ≤ 0
        · simp only [hc2, if_true] at e0
          obtain ⟨t, et⟩ : ∃ t, avl_rotate_left (node v (MAX_HEIGHT (avl_node_height l)
              (avl_node_height (node rv rh rl rr)) + 1) l (node rv rh rl rr)) = some t :=
            ⟨_, rfl⟩
          rw [et] at e0
          exact ⟨_, t, e0, key _ _ e0, by simp, fun _ => ⟨_, _, _, _, rfl⟩, by simp, by simp⟩
        · simp only [hc2, if_false] at e0
          cases rl with
          | nil => simp at hc2; omega
          | node rlv rlh rll rlr =>
            obtain ⟨r1, er1⟩ : ∃ r1, avl_rotate_right (node rv rh (node rlv rlh rll rlr) rr)
                = some r1 := ⟨_, rfl⟩
            rw [er1] at e0
            have hr1 : ∃ a b c d, r1 = node a b c d := by
              simp only [avl_rotate_right, avl_update_height, Option.some.injEq] at er1
              exact ⟨_, _, _, _, er1.symm⟩
            obtain ⟨a, b, c, d, rfl⟩ := hr1
            obtain ⟨t, et⟩ : ∃ t, avl_rotate_left (node v (MAX_HEIGHT (avl_node_height l)
                (avl_node_height (node rv rh (node rlv rlh rll rlr) rr)) + 1) l (node a b c d))
                = some t := ⟨_, rfl⟩
            simp only [et, Option.map_some'] at e0
            exact ⟨_, t, e0, key _ _ e0, by simp, by simp, by simp,
              fun _ => ⟨_, _, _, _, _, _, _, _, rfl, er1, by simp⟩⟩
    · rw [if_neg hc1] at e0
      exact ⟨_, _, e0, key _ _ e0, by simp, by simp, by simp, by simp⟩

theorem C31_rebalance_children_present_witness :
    heights_at_least 1 (node 3 2 (node 5 1 nil nil) nil : avl_node Int) ∧
    avl_rebalance_traced node_right_left
      = some (rebalance_case.right_left, node 5 2 (node 7 1 nil nil) (node 3 1 nil nil)) ∧
    ∃ c t, avl_rebalance_traced node_right_left = some (c, t) ∧
      avl_rebalance node_right_left = some t ∧
      (c = rebalance_case.right_left →
        ∃ rv rh yv yh yl yr rr r1,
          (node 3 2 (node 5 1 nil nil) nil : avl_node Int) = node rv rh (node yv yh yl yr) rr ∧
          avl_rotate_right (node 3 2 (node 5 1 nil nil) nil : avl_node Int) = some r1 ∧
          r1 ≠ nil) :=
  ⟨by simp [heights_at_least], by decide,
    (C31_rebalance_children_present 7 1 nil (node 3 2 (node 5 1 nil nil) nil)
      (by simp [heights_at_least]) (by simp [heights_at_least])).2.2.imp
      (fun _ hc => hc.imp (fun _ ht => ⟨ht.1, ht.2.1, ht.2.2.2.2.2⟩))⟩

/-- C32: on a node with its right child R present, `avl_rotate_left` returns R as the new
root with the node as its left child; the node keeps its left child and takes the old left
child of R as its right child, R keeps its right child; the cached height of the node and
then that of R are recomputed as `1 + max` of the heights of their new children.
`avl_rotate_right` is the mirror image on a node with its left child present. Without that
child neither rotation returns. -/
theorem C32_rotation_result (v tv : α) (h th : Int) (l tl tr r : avl_node α) :
    avl_rotate_left (node v h l (node tv th tl tr))
      = some (node tv
          (1 + max (1 + max (avl_node_height l) (avl_node_height tl)) (avl_node_height tr))
          (node v (1 + max (avl_node_height l) (avl_node_height tl)) l tl) tr) ∧
    avl_rotate_right (node v h (node tv th tl tr) r)
      = some (node tv
          (1 + max (avl_node_height tl) (1 + max (avl_node_height tr) (avl_node_height r)))
          tl (node v (1 + max (avl_node_height tr) (avl_node_height r)) tr r)) ∧
    avl_rotate_left (node v h l nil) = none ∧
    avl_rotate_right (node v h nil r) = none := by
  have e : ∀ a b : Int, MAX_HEIGHT a b + 1 = 1 + max a b := by
    intro a b; rw [MAX_HEIGHT_eq]; ring
  refine ⟨?_, ?_, rfl, rfl⟩
  · simp only [avl_rotate_left, avl_update_height, avl_node_height_node, e]
  · simp only [avl_rotate_right, avl_update_height, avl_node_height_node, e]

/-- A sorted in-order listing is the same as the order of the values at every node. -/
theorem sorted_iff_ordered {compare : α → α → Int} (hc : CompareOrder compare) :
    ∀ t : avl_node α, Sorted compare (elems t) ↔ ordered_at_every_node compare t := by
  intro t
  induction t with
  | nil => simp [Sorted, elems, ordered_at_every_node]
  | node v h l r ihl ihr =>
    simp only [elems, ordered_at_every_node, sorted_node hc, ihl, ihr]
    constructor
    · rintro ⟨sl, sr, ol, or⟩
      exact ⟨ol, fun y hy => (hc.swap _ _).1 (or y hy), sl, sr⟩
    · rintro ⟨ol, or, sl, sr⟩
      exact ⟨sl, sr, ol, fun y hy => (hc.swap _ _).2 (or y hy)⟩

/-- The comparison with its arguments exchanged is a consistent order too. -/
theorem CompareOrder.flip {compare : α → α → Int} (hc : CompareOrder compare) :
    CompareOrder (fun a b => compare b a) :=
  ⟨fun a b => hc.swap b a, fun a b c h1 h2 => hc.le_trans c b a h2 h1⟩

/-- The conventional BST order is the order at every node for the exchanged comparison. -/
theorem bst_order_iff_ordered (compare : α → α → Int) :
    ∀ t : avl_node α, bst_order compare t ↔ ordered_at_every_node (fun a b => compare b a) t := by
  intro t
  induction t with
  | nil => simp [bst_order, ordered_at_every_node]
  | node v h l r ihl ihr =>
    simp only [bst_order, ordered_at_every_node, ihl, ihr, gt_iff_lt]

/-- A rotation keeps the in-order listing. -/
theorem rotate_elems (n t : avl_node α)
    (hrot : avl_rotate_left n = some t ∨ avl_rotate_right n = some t) : elems t = elems n := by
  rcases hrot with e | e
  · cases n with
    | nil => simp [avl_rotate_left] at e
    | node v h l r =>
      cases r with
      | nil => simp [avl_rotate_left] at e
      | node tv th tl tr =>
        simp only [avl_rotate_left, avl_update_height, Option.some.injEq] at e
        subst e
        simp [elems]
  · cases n with
    | nil => simp [avl_rotate_right] at e
    | node v h l r =>
      cases l with
      | nil => simp [avl_rotate_right] at e
      | node tv th tl tr =>
        simp only [avl_rotate_right, avl_update_height, Option.some.injEq] at e
        subst e
        simp [elems]

/-- C33: `avl_rotate_left` and `avl_rotate_right`, whenever they return, leave the in-order
sequence of the subtree as it was: the same values in the same order, and as many nodes as
before. Hence the order of the values at every node is preserved, in the orientation kept
by `avl_insert_aux` and in the conventional one alike. -/
theorem C33_rotation_keeps_inorder (compare : α → α → Int) (hc : CompareOrder compare)
    (n t : avl_node α) (hrot : avl_rotate_left n = some t ∨ avl_rotate_right n = some t) :
    elems t = elems n ∧ (elems t).Perm (elems n) ∧ node_count t = node_count n ∧
    (Sorted compare (elems n) → Sorted compare (elems t)) ∧
    (ordered_at_every_node compare n → ordered_at_every_node compare t) ∧
    (bst_order compare n → bst_order compare t) := by
  have e := rotate_elems n t hrot
  refine ⟨e, by rw [e], by rw [node_count_eq, node_count_eq, e], fun h => by rw [e]; exact h,
    ?_, ?_⟩
  · intro h
    rw [← sorted_iff_ordered hc] at h ⊢
    rw [e]; exact h
  · intro h
    rw [bst_order_iff_ordered, ← sorted_iff_ordered hc.flip] at h ⊢
    rw [e]; exact h

theorem C33_rotation_keeps_inorder_witness :
    avl_rotate_left node_for_rotation
      = some (node 4 3 (node 2 2 (node 1 1 nil nil) (node 3 1 nil nil)) (node 5 1 nil nil)) ∧
    elems node_for_rotation = [1, 2, 3, 4, 5] ∧
    bst_order data_compare node_for_rotation ∧
    (elems (node 4 3 (node 2 2 (node 1 1 nil nil) (node 3 1 nil nil)) (node 5 1 nil nil))
        = elems node_for_rotation ∧
      (elems (node 4 3 (node 2 2 (node 1 1 nil nil) (node 3 1 nil nil))
        (node 5 1 nil nil))).Perm (elems node_for_rotation) ∧
      node_count (node 4 3 (node 2 2 (node 1 1 nil nil) (node 3 1 nil nil)) (node 5 1 nil nil))
        = node_count node_for_rotation ∧
      (Sorted data_compare (elems node_for_rotation) →
        Sorted data_compare (elems (node 4 3 (node 2 2 (node 1 1 nil nil) (node 3 1 nil nil))
          (node 5 1 nil nil)))) ∧
      (ordered_at_every_node data_compare node_for_rotation →
        ordered_at_every_node data_compare
          (node 4 3 (node 2 2 (node 1 1 nil nil) (node 3 1 nil nil)) (node 5 1 nil nil))) ∧
      (bst_order data_compare node_for_rotation →
        bst_order data_compare
          (node 4 3 (node 2 2 (node 1 1 nil nil) (node 3 1 nil nil)) (node 5 1 nil nil)))) :=
  ⟨by decide, by decide, by simp [bst_order, node_for_rotation, elems, data_compare],
    C33_rotation_keeps_inorder data_compare data_compare_order node_for_rotation _
      (Or.inl (by decide))⟩

/-- The loop of `avl_max` ends on the node that holds the last value of the in-order
listing. -/
theorem max_loop_last : ∀ t : avl_node α, avl_max_loop t = (elems t).getLast?
  | nil => rfl
  | node v h l nil => by simp [avl_max_loop, elems]
  | node v h l (node rv rh rl rr) => by
    have ih := max_loop_last (node rv rh rl rr)
    have hne : elems (node rv rh rl rr) ≠ [] := by simp [elems]
    rw [avl_max_loop, ih]
    conv => rhs; rw [elems]
    generalize elems (node rv rh rl rr) = ys at hne
    rw [List.getLast?_append_of_ne_nil _ (by simp), ← List.singleton_append,
      List.getLast?_append_of_ne_nil _ hne]

/-- The loop of `avl_min` ends on the node that holds the first value of the in-order
listing. -/
theorem min_loop_first : ∀ t : avl_node α, avl_min_loop t = (elems t).head?
  | nil => rfl
  | node v h nil r => by simp [avl_min_loop, elems]
  | node v h (node lv lh ll lr) r => by
    have ih := min_loop_first (node lv lh ll lr)
    have hne : elems (node lv lh ll lr) ≠ [] := by simp [elems]
    rw [avl_min_loop, ih]
    conv => rhs; rw [elems]
    rw [List.head?_append_of_ne_nil _ hne]

/-- C34: in a tree accepted by `avl_valid`, (1) `avl_delete_node_left`, called on a subtree
whose root has a right child, returns the right-most node of that subtree, which holds the
last value of its in-order sequence, and leaves behind a subtree accepted by `avl_valid`
whose in-order sequence is the original one without that last value; (2) when
`avl_remove_aux` finds the key at a node with two children, the node spliced into its place
(the node handed to the final rebalance) holds the in-order predecessor, that is the value of
the right-most node of the left subtree, above the left subtree without that node and the
unchanged right subtree, and the resulting subtree is accepted by `avl_valid` and lists the
old sequence without the removed value. -/
theorem C34_replacement_is_predecessor (tree : avl α) (hc : CompareOrder tree.compare) :
    (∀ p : avl_node α, (∃ pv ph pl cv ch cl cr, p = node pv ph pl (node cv ch cl cr)) →
      avl_valid { tree with root := p } = true →
      ∃ p1 x xh xl xr, avl_delete_node_left p = some (p1, node x xh xl xr) ∧
        avl_max_loop p = some x ∧ (elems p).getLast? = some x ∧
        elems p = elems p1 ++ [x] ∧ avl_valid { tree with root := p1 } = true) ∧
    (∀ (v : α) (h : Int) (l r : avl_node α) (key : α), l ≠ nil → r ≠ nil →
      tree.compare v key = 0 → avl_valid { tree with root := node v h l r } = true →
      ∃ x xh l1 t1, avl_max_loop l = some x ∧ elems l = elems l1 ++ [x] ∧
        avl_valid { tree with root := l1 } = true ∧
        avl_remove_aux tree (node v h l r) key
          = avl_remove_finish { tree with size := tree.size - 1 } (node x xh l1 r) (some v) ∧
        avl_remove_aux tree (node v h l r) key
          = some ({ tree with size := tree.size - 1 }, t1, some v) ∧
        elems t1 = elems l1 ++ x :: elems r ∧
        avl_valid { tree with root := t1 } = true) := by
  have part1 : ∀ p : avl_node α, (∃ pv ph pl cv ch cl cr, p = node pv ph pl (node cv ch cl cr)) →
      Balanced p → Sorted tree.compare (elems p) →
      ∃ p1 x xh xl xr, avl_delete_node_left p = some (p1, node x xh xl xr) ∧
        avl_max_loop p = some x ∧ (elems p).getLast? = some x ∧
        elems p = elems p1 ++ [x] ∧ Balanced p1 ∧ Sorted tree.compare (elems p1) ∧
        (avl_node_height p1 = avl_node_height p ∨
          avl_node_height p1 = avl_node_height p - 1) := by
    intro p hp hb hs
    obtain ⟨p1, x, xh, xl, xr, e, b1, el, hh⟩ := delete_node_left_spec p hb hp
    have hlast : (elems p).getLast? = some x := by rw [el]; simp
    refine ⟨p1, x, xh, xl, xr, e, by rw [max_loop_last, hlast], hlast, el, b1, ?_, hh⟩
    rw [el] at hs
    unfold Sorted at hs ⊢
    exact hs.sublist (List.sublist_append_left _ _)
  constructor
  · intro p hp hv
    obtain ⟨hb, hs⟩ := (valid_iff { tree with root := p } hc).1 hv
    obtain ⟨p1, x, xh, xl, xr, e, m, hlast, el, b1, s1, _⟩ := part1 p hp hb hs
    exact ⟨p1, x, xh, xl, xr, e, m, hlast, el,
      (valid_iff { tree with root := p1 } hc).2 ⟨b1, s1⟩⟩
  · intro v h l r key hl hr hk hv
    obtain ⟨hb, hs⟩ := (valid_iff { tree with root := node v h l r } hc).1 hv
    obtain ⟨a1, a2, a3, hbl, hbr⟩ := hb
    have hs0 : Sorted tree.compare (elems l ++ v :: elems r) := hs
    obtain ⟨sl, sr, _, _⟩ := (sorted_node hc v (elems l) (elems r)).1 hs0
    have hrn := height_nonneg r hbr
    have k1 : ¬ tree.compare v key < 0 := by omega
    have k2 : ¬ tree.compare v key > 0 := by omega
    have hrepl : ∃ x xh l1, avl_max_loop l = some x ∧ elems l = elems l1 ++ [x] ∧
        Balanced l1 ∧ Sorted tree.compare (elems l1) ∧
        (avl_node_height l1 = avl_node_height l ∨ avl_node_height l1 = avl_node_height l - 1) ∧
        avl_remove_aux tree (node v h l r) key
          = avl_remove_finish { tree with size := tree.size - 1 } (node x xh l1 r) (some v) := by
      cases l with
      | nil => exact absurd rfl hl
      | node lv lh ll lr =>
        cases r with
        | nil => exact absurd rfl hr
        | node rv rh rl rr =>
          cases lr with
          | nil =>
            obtain ⟨b1, b2, b3, hll, _⟩ := hbl
            have hlln := height_nonneg ll hll
            rw [MAX_HEIGHT_eq] at b3
            simp only [avl_node_height_nil, avl_node_height_node] at b1 b2 b3
            refine ⟨lv, lh, ll, by simp [avl_max_loop], by simp [elems], hll, ?_, ?_, ?_⟩
            · have : Sorted tree.compare (elems ll ++ [lv]) := by simpa [elems] using sl
              unfold Sorted at this ⊢
              exact this.sublist (List.sublist_append_left _ _)
            · right; simp only [avl_node_height_node]; omega
            · simp [avl_remove_aux, k1, k2]
          | node xv0 xh0 xl0 xr0 =>
            obtain ⟨p1, x, xh, xl, xr, e, m, _, el, b1, s1, hh⟩ :=
              part1 (node lv lh ll (node xv0 xh0 xl0 xr0)) ⟨_, _, _, _, _, _, _, rfl⟩ hbl sl
            refine ⟨x, xh, p1, m, el, b1, s1, hh, ?_⟩
            simp [avl_remove_aux, k1, k2, e]
    obtain ⟨x, xh, l1, m, el, b1, s1, hh, erem⟩ := hrepl
    have hl1n := height_nonneg l1 b1
    obtain ⟨t1, et, bt, elt, _, _⟩ := remove_finish_spec { tree with size := tree.size - 1 }
      v x xh l1 r b1 hbr (by omega) (by omega)
    refine ⟨x, xh, l1, t1, m, el, (valid_iff { tree with root := l1 } hc).2 ⟨b1, s1⟩, erem,
      by rw [erem, et], elt, (valid_iff { tree with root := t1 } hc).2 ⟨bt, ?_⟩⟩
    show Sorted tree.compare (elems t1)
    rw [elt]
    rw [el] at hs0
    have := sorted_remove_mid tree.compare v (elems l1 ++ [x]) (elems r) hs0
    simpa using this

theorem C34_replacement_is_predecessor_witness :
    avl_delete_node_left tree7.root
      = some (node 4 3 (node 6 2 (node 7 1 nil nil) (node 5 1 nil nil))
          (node 2 2 (node 3 1 nil nil) nil), node 1 1 nil nil) ∧
    (avl_remove tree7 4).map (fun p => p.1.root)
      = some (node 5 3 (node 6 2 (node 7 1 nil nil) nil)
          (node 2 2 (node 3 1 nil nil) (node 1 1 nil nil))) ∧
    (∃ p1 x xh xl xr, avl_delete_node_left tree7.root = some (p1, node x xh xl xr) ∧
      avl_max_loop tree7.root = some x ∧ (elems tree7.root).getLast? = some x ∧
      elems tree7.root = elems p1 ++ [x] ∧ avl_valid { tree7 with root := p1 } = true) ∧
    (∃ x xh l1 t1, avl_max_loop (node 6 2 (node 7 1 nil nil) (node 5 1 nil nil)) = some x ∧
      elems (node 6 2 (node 7 1 nil nil) (node 5 1 nil nil)) = elems l1 ++ [x] ∧
      avl_valid { tree7 with root := l1 } = true ∧
      avl_remove_aux tree7 tree7.root 4
        = avl_remove_finish { tree7 with size := tree7.size - 1 }
            (node x xh l1 (node 2 2 (node 3 1 nil nil) (node 1 1 nil nil))) (some 4) ∧
      avl_remove_aux tree7 tree7.root 4
        = some ({ tree7 with size := tree7.size - 1 }, t1, some 4) ∧
      elems t1 = elems l1 ++ x :: elems (node 2 2 (node 3 1 nil nil) (node 1 1 nil nil)) ∧
      avl_valid { tree7 with root := t1 } = true) :=
  ⟨by decide, by decide,
    (C34_replacement_is_predecessor tree7 data_compare_order).1 tree7.root
      ⟨_, _, _, _, _, _, _, rfl⟩ (by decide),
    (C34_replacement_is_predecessor tree7 data_compare_order).2 4 3
      (node 6 2 (node 7 1 nil nil) (node 5 1 nil nil))
      (node 2 2 (node 3 1 nil nil) (node 1 1 nil nil)) 4 (by simp) (by simp) (by decide)
      (by decide)⟩

/-- C35: on a tree accepted by `avl_valid`, `avl_insert` and `avl_remove` return; an insert
that returns 1 leaves the height of the root unchanged or one higher, and a remove that
returns a value leaves it unchanged or one lower. The same holds for `avl_insert_aux` and
`avl_remove_aux` on every subtree that is balanced with correct heights, as every subtree on
the recursion path is, and the subtree they leave is balanced again. -/
theorem C35_height_changes_by_at_most_one (tree : avl α) (hc : CompareOrder tree.compare)
    (hv : avl_valid tree = true) (v : α) :
    (∃ tree1 ins, avl_insert tree v = some (tree1, ins) ∧ (ins = 0 ∨ ins = 1) ∧
      (ins = 1 → avl_node_height tree1.root = avl_node_height tree.root ∨
        avl_node_height tree1.root = avl_node_height tree.root + 1)) ∧
    (∃ tree1 res, avl_remove tree v = some (tree1, res) ∧
      (res ≠ none → avl_node_height tree1.root = avl_node_height tree.root ∨
        avl_node_height tree1.root = avl_node_height tree.root - 1)) ∧
    (∀ t : avl_node α, Balanced t →
      (∃ tr t1 ins, avl_insert_aux tree t v = some (tr, t1, ins) ∧ Balanced t1 ∧
        (ins = 1 → avl_node_height t1 = avl_node_height t ∨
          avl_node_height t1 = avl_node_height t + 1)) ∧
      (∃ tr t1 res, avl_remove_aux tree t v = some (tr, t1, res) ∧ Balanced t1 ∧
        (res ≠ none → avl_node_height t1 = avl_node_height t ∨
          avl_node_height t1 = avl_node_height t - 1))) := by
  have hb := ((valid_iff tree hc).1 hv).1
  have aux : ∀ t : avl_node α, Balanced t →
      (∃ tr t1 ins, avl_insert_aux tree t v = some (tr, t1, ins) ∧ Balanced t1 ∧
        (ins = 0 ∨ ins = 1) ∧
        (ins = 1 → avl_node_height t1 = avl_node_height t ∨
          avl_node_height t1 = avl_node_height t + 1)) ∧
      (∃ tr t1 res, avl_remove_aux tree t v = some (tr, t1, res) ∧ Balanced t1 ∧
        (res ≠ none → avl_node_height t1 = avl_node_height t ∨
          avl_node_height t1 = avl_node_height t - 1)) := by
    intro t ht
    constructor
    · obtain ⟨t1, ins, e, b1, hcase⟩ := insert_aux_spec tree v t ht
      refine ⟨_, t1, ins, e, b1, ?_, ?_⟩
      · rcases hcase with ⟨h0, _⟩ | ⟨h1, _⟩
        · exact Or.inl h0
        · exact Or.inr h1
      · intro hi
        rcases hcase with ⟨h0, _⟩ | ⟨_, _, _, hh, _⟩
        · omega
        · exact hh
    · rcases remove_aux_spec tree v t ht with ⟨_, e⟩ | ⟨x, t1, p, q, _, e, b1, _, _, hh⟩
      · exact ⟨_, t, none, e, ht, fun h => absurd rfl h⟩
      · exact ⟨_, t1, some x, e, b1, fun _ => hh⟩
  refine ⟨?_, ?_, fun t ht => ?_⟩
  · obtain ⟨tr, t1, ins, e, _, h01, hh⟩ := (aux tree.root hb).1
    exact ⟨{ tr with root := t1 }, ins, by simp [avl_insert, e], h01, hh⟩
  · obtain ⟨tr, t1, res, e, _, hh⟩ := (aux tree.root hb).2
    exact ⟨{ tr with root := t1 }, res, by simp [avl_remove, e], hh⟩
  · obtain ⟨⟨tr, t1, ins, e, b1, _, hh⟩, hrem⟩ := aux t ht
    exact ⟨⟨tr, t1, ins, e, b1, hh⟩, hrem⟩

theorem C35_height_changes_by_at_most_one_witness :
    avl_valid tree7 = true ∧ avl_node_height tree7.root = 3 ∧
    (avl_insert tree7 8).map (fun p => (avl_node_height p.1.root, p.2)) = some (4, 1) ∧
    (avl_remove tree7 4).map (fun p => (avl_node_height p.1.root, p.2)) = some (3, some 4) ∧
    (∃ tree1 ins, avl_insert tree7 8 = some (tree1, ins) ∧ (ins = 0 ∨ ins = 1) ∧
      (ins = 1 → avl_node_height tree1.root = avl_node_height tree7.root ∨
        avl_node_height tree1.root = avl_node_height tree7.root + 1)) :=
  ⟨by decide, rfl, by decide, by decide,
    (C35_height_changes_by_at_most_one tree7 data_compare_order (by decide) 8).1⟩

/-- C36: on a non-empty tree of any shape `avl_min` returns the first and `avl_max` the last
element of the sequence that `avl_inorder` writes: the values of the left-most and of the
right-most node reached from the root. -/
theorem C36_min_max_ends_of_inorder (tree : avl α) (values : Nat → α)
    (hne : tree.root ≠ nil) :
    ∃ x y, avl_min tree = some (tree, x) ∧ avl_max tree = some (tree, y) ∧
      (avl_inorder_list tree values).head? = some x ∧
      (avl_inorder_list tree values).getLast? = some y ∧
      avl_min_loop tree.root = some x ∧ avl_max_loop tree.root = some y := by
  obtain ⟨x, ex⟩ := min_loop_some tree.root hne
  obtain ⟨y, ey⟩ := max_loop_some tree.root hne
  refine ⟨x, y, ?_, ?_, ?_, ?_, ex, ey⟩
  · unfold avl_min
    cases hr : tree.root with
    | nil => exact absurd hr hne
    | node v h l r => rw [hr] at ex; simp only [ex]
  · unfold avl_max
    cases hr : tree.root with
    | nil => exact absurd hr hne
    | node v h l r => rw [hr] at ey; simp only [ey]
  · rw [inorder_list_eq, ← min_loop_first, ex]
  · rw [inorder_list_eq, ← max_loop_last, ey]

theorem C36_min_max_ends_of_inorder_witness :
    tree_bad_heights.root ≠ nil ∧ elems tree_bad_heights.root = [2, 1] ∧
    ∃ x y, avl_min tree_bad_heights = some (tree_bad_heights, x) ∧
      avl_max tree_bad_heights = some (tree_bad_heights, y) ∧
      (avl_inorder_list tree_bad_heights (fun _ => 0)).head? = some x ∧
      (avl_inorder_list tree_bad_heights (fun _ => 0)).getLast? = some y ∧
      avl_min_loop tree_bad_heights.root = some x ∧
      avl_max_loop tree_bad_heights.root = some y :=
  ⟨by decide, by decide,
    C36_min_max_ends_of_inorder tree_bad_heights (fun _ => 0) (by decide)⟩

/-- A subtree that passes `avl_valid_aux` is balanced at every node. -/
theorem valid_aux_all_balanced (tree : avl α) : ∀ (t : avl_node α) (mn mx : Option α),
    avl_valid_aux tree t mn mx = true → all_nodes_balanced t := by
  intro t
  induction t with
  | nil => intro _ _ _; trivial
  | node v h l r ihl ihr =>
    intro mn mx hv
    obtain ⟨_, ⟨h1, h2⟩, _, hl, hr⟩ := (valid_aux_node tree v h l r mn mx).1 hv
    exact ⟨abs_le.2 ⟨by omega, by omega⟩, ihl _ _ hl, ihr _ _ hr⟩

/-- C37: for a tree of any shape, with any values, cached heights and `compare` callback, if
`avl_valid` returns true then `avl_balanced` returns true. -/
theorem C37_valid_implies_balanced (tree : avl α) (hv : avl_valid tree = true) :
    avl_balanced tree = true :=
  balanced_aux_of_all tree.root (valid_aux_all_balanced tree tree.root none none hv)

theorem C37_valid_implies_balanced_witness :
    avl_valid tree7 = true ∧ avl_balanced tree7 = true ∧
    avl_balanced tree_bad_heights = true ∧ avl_valid tree_bad_heights = false :=
  ⟨by decide, C37_valid_implies_balanced tree7 (by decide), by decide, by decide⟩

/-- The single-pass count adds the three tallies to the cells. -/
theorem node_counts_aux_spec : ∀ (t : avl_node α) (zero one two : Int),
    avl_node_counts_aux t (zero, one, two)
      = (zero + avl_leaf_count_aux t, one + avl_one_child_count_aux t,
          two + avl_two_child_count_aux t) := by
  intro t
  induction t with
  | nil => intro zero one two; simp [avl_node_counts_aux, avl_leaf_count_aux,
      avl_one_child_count_aux, avl_two_child_count_aux]
  | node v h l r ihl ihr =>
    intro zero one two
    cases l with
    | nil =>
      cases r with
      | nil => simp [avl_node_counts_aux, avl_leaf_count_aux, avl_one_child_count_aux,
          avl_two_child_count_aux]
      | node rv rh rl rr =>
        rw [avl_node_counts_aux, ihr]
        simp only [avl_leaf_count_aux, avl_one_child_count_aux, avl_two_child_count_aux,
          Prod.mk.injEq]
        refine ⟨by omega, by omega, by omega⟩
    | node lv lh ll lr =>
      cases r with
      | nil =>
        rw [avl_node_counts_aux, ihl]
        simp only [avl_leaf_count_aux, avl_one_child_count_aux, avl_two_child_count_aux,
          Prod.mk.injEq]
        refine ⟨by omega, by omega, by omega⟩
      | node rv rh rl rr =>
        rw [avl_node_counts_aux, ihl, ihr]
        simp only [avl_leaf_count_aux, avl_one_child_count_aux, avl_two_child_count_aux,
          Prod.mk.injEq]
        refine ⟨by omega, by omega, by omega⟩

/-- C38: for every tree and whatever the three output cells held before the call,
`avl_node_counts` leaves in them the results of `avl_leaf_count`, `avl_one_child_count` and
`avl_two_child_count`. -/
theorem C38_node_counts_agree (tree : avl α) (cells : Int × Int × Int) :
    avl_node_counts tree cells
      = (avl_leaf_count tree, avl_one_child_count tree, avl_two_child_count tree) := by
  unfold avl_node_counts avl_leaf_count avl_one_child_count avl_two_child_count
  rw [node_counts_aux_spec]
  simp

/-- C39: every sequence of `avl_insert` and `avl_remove` calls started on a freshly
initialised tree runs to completion and ends in a tree on which `avl_empty` returns 1 if
and only if `avl_size` returns 0, and on which `avl_full` returns 0. -/
theorem C39_empty_iff_size_zero (compare : α → α → Int) (ops : List (avl_op α)) :
    ∃ t, avl_run ( avl_initialize compare) ops = some t ∧
      (avl_empty t = true ↔ avl_size t = 0) ∧ avl_full t = false := by
  obtain ⟨t, e, h⟩ := run_invariant ops ( avl_initialize compare) trivial rfl
  refine ⟨t, e, ?_, rfl⟩
  rw [avl_size, h, node_count_eq]
  unfold avl_empty
  cases t.root with
  | nil => simp [elems]
  | node v hh l r =>
    simp only [elems, List.length_append, List.length_cons, Bool.false_eq_true, false_iff]
    push_cast
    omega

end AVL

/-! # Verification of the circular array queue -/

namespace Queue

variable {α : Type}

/-- An index below twice the capacity either is in range or wraps once. -/
theorem emod_cases (a c : Int) (h0 : 0 ≤ a) (h1 : a < 2 * c) :
    (a < c ∧ a % c = a) ∨ (c ≤ a ∧ a % c = a - c) := by
  by_cases h : a < c
  · exact Or.inl ⟨h, Int.emod_eq_of_lt h0 h⟩
  · refine Or.inr ⟨by omega, ?_⟩
    have e : a % c = (a - c) % c := by
      have := Int.add_mul_emod_self (a := a - c) (b := 1) (c := c)
      rw [← this]; congr 1; ring
    rw [e, Int.emod_eq_of_lt (by omega) (by omega)]

/-- A freshly initialised queue holds no value. -/
theorem holds_fresh (values : Int → α) : holds ( queue_initialize values) [] := by
  simp [holds, queue_initialize, QUEUE_SIZE]

/-- Inserting appends the value at the rear of the held sequence. -/
theorem holds_insert (q : queue α) (xs : List α) (v : α) (h : holds q xs) :
    holds (queue_insert q v) (xs ++ [v]) := by
  obtain ⟨hc, hf0, hf1, hsz, hle, hr, hv⟩ := h
  have hlen : (0 : Int) ≤ xs.length := Int.natCast_nonneg _
  by_cases hfull : q.size = q.capacity
  · -- the capacity is doubled
    have hs0 : ¬ q.size = 0 := by omega
    have e : queue_insert q v =
        { capacity := q.capacity * 2, front := q.front,
          rear := (q.size + q.front + 1) % (q.capacity * 2), size := q.size + 1,
          values := Function.update (fun k =>
            if q.size ≤ k ∧ k < q.size + q.front then q.values (k - q.size) else q.values k)
            (q.size + q.front) v } := by
      have e1 : queue_grow q = { q with
          capacity := q.capacity * 2,
          values := fun k =>
            if q.size ≤ k ∧ k < q.size + q.front then q.values (k - q.size) else q.values k,
          rear := q.size + q.front } := by
        unfold queue_grow; rw [if_pos hfull]
      unfold queue_insert
      rw [e1]
      simp only [hs0, if_false]
    rw [e]
    refine ⟨by simp; omega, hf0, by simp; omega, by simp [hsz], by simp; omega, ?_, ?_⟩
    · simp only; congr 1; ring
    · intro i hi
      simp only [List.length_append, List.length_singleton] at hi
      simp only
      have hidx : (q.front + (i : Int)) % (q.capacity * 2) = q.front + i :=
        Int.emod_eq_of_lt (by omega) (by omega)
      rw [hidx]
      by_cases hil : i < xs.length
      · rw [List.getElem?_append_left hil, hv i hil]
        rw [Function.update_noteq (by omega)]
        rcases emod_cases (q.front + i) q.capacity (by omega) (by omega) with ⟨h1, h2⟩ | ⟨h1, h2⟩
        · rw [h2, if_neg (by omega)]
        · rw [h2, if_pos ⟨by omega, by omega⟩]
          congr 2; omega
      · have hie : i = xs.length := by omega
        subst hie
        rw [List.getElem?_append_right (le_refl _)]
        simp only [Nat.sub_self, List.getElem?_cons_zero]
        rw [show q.front + (xs.length : Int) = q.size + q.front by omega, Function.update_same]
  · -- the array has room
    have e1 : queue_grow q = q := by unfold queue_grow; rw [if_neg hfull]
    have hidx : ∀ i : Nat, (i : Int) ≤ q.size →
        (q.front + (i : Int) < q.capacity ∧ (q.front + i) % q.capacity = q.front + i) ∨
        (q.capacity ≤ q.front + i ∧ (q.front + i) % q.capacity = q.front + i - q.capacity) :=
      fun i hi => emod_cases (q.front + i) q.capacity (by omega) (by omega)
    have e : queue_insert q v =
        { capacity := q.capacity, front := q.front,
          rear := (q.rear + 1) % q.capacity, size := q.size + 1,
          values := Function.update q.values q.rear v } := by
      unfold queue_insert
      rw [e1]
      by_cases hs0 : q.size = 0
      · have hrf : q.rear = q.front := by
          rw [hr, hs0, Int.add_zero, Int.emod_eq_of_lt hf0 hf1]
        simp only [hs0, if_true, hrf]
      · simp only [hs0, if_false]
    rw [e]
    refine ⟨hc, hf0, hf1, by simp [hsz], by simp; omega, ?_, ?_⟩
    · simp only
      rw [hr, Int.emod_add_emod]
      congr 1; ring
    · intro i hi
      simp only [List.length_append, List.length_singleton] at hi
      simp only
      by_cases hil : i < xs.length
      · rw [List.getElem?_append_left hil, hv i hil, Function.update_noteq]
        rw [hr]
        have h1 := hidx i (by omega)
        have h2 := hidx xs.length (by omega)
        rw [← hsz] at h2
        omega
      · have hie : i = xs.length := by omega
        subst hie
        rw [List.getElem?_append_right (le_refl _)]
        simp only [Nat.sub_self, List.getElem?_cons_zero]
        rw [hr, hsz, Function.update_same]

/-- Removing returns the front of the held sequence and leaves the rest. -/
theorem holds_remove (q : queue α) (x : α) (xs : List α) (h : holds q (x :: xs)) :
    ∃ q1, queue_remove q = some (q1, x) ∧ holds q1 xs := by
  obtain ⟨hc, hf0, hf1, hsz, hle, hr, hv⟩ := h
  have hx : q.values q.front = x := by
    have := hv 0 (by simp)
    simp only [List.getElem?_cons_zero, Nat.cast_zero, Int.add_zero, Option.some.injEq,
      Int.emod_eq_of_lt hf0 hf1] at this
    exact this.symm
  have hfm : ¬ q.front = -1 := by omega
  simp only [List.length_cons, Nat.cast_add, Nat.cast_one] at hsz
  by_cases hlast : q.size - 1 = 0
  · have hnil : xs = [] := by
      apply List.eq_nil_of_length_eq_zero; omega
    subst hnil
    refine ⟨{ q with size := q.size - 1, front := 0, rear := 0 }, ?_, ?_⟩
    · simp [queue_remove, hfm, hlast, hx]
    · refine ⟨hc, le_refl _, hc, by simp; omega, by simp; omega, ?_, ?_⟩
      · simp [hlast]
      · intro i hi; simp at hi
  · refine ⟨{ q with size := q.size - 1, front := (q.front + 1) % q.capacity }, ?_, ?_⟩
    · simp [queue_remove, hfm, hlast, hx]
    · refine ⟨hc, Int.emod_nonneg _ (by omega), Int.emod_lt_of_pos _ hc, by simp; omega,
        by simp; omega, ?_, ?_⟩
      · simp only
        rw [hr, Int.emod_add_emod]
        congr 1; ring
      · intro i hi
        have := hv (i + 1) (by simp; omega)
        simp only [List.getElem?_cons_succ] at this
        simp only
        rw [this, Int.emod_add_emod]
        congr 3; push_cast; ring

/-- A call sequence that never removes from an empty queue runs to completion: the removes
return the held and then the inserted values in order, and the queue holds what is left. -/
theorem run_holds : ∀ (ops : List (queue_op α)) (q : queue α) (xs : List α),
    holds q xs → never_on_empty xs.length ops = true →
    ∃ q1 out, queue_run q ops = some (q1, out) ∧
      out = (xs ++ inserted_values ops).take (remove_count ops) ∧
      holds q1 ((xs ++ inserted_values ops).drop (remove_count ops))
  | [], q, xs, h, _ => ⟨q, [], rfl, by simp [remove_count], by simpa [inserted_values, remove_count] using h⟩
  | queue_op.insert v :: ops, q, xs, h, hn => by
    have hn1 : never_on_empty (xs ++ [v]).length ops = true := by
      simpa [never_on_empty] using hn
    obtain ⟨q1, out, e, ho, hh⟩ := run_holds ops (queue_insert q v) (xs ++ [v])
      (holds_insert q xs v h) hn1
    refine ⟨q1, out, by simpa [queue_run] using e, ?_, ?_⟩
    · simpa [inserted_values, remove_count] using ho
    · simpa [inserted_values, remove_count] using hh
  | queue_op.remove :: ops, q, [], _, hn => by
    simp [never_on_empty] at hn
  | queue_op.remove :: ops, q, x :: xs, h, hn => by
    obtain ⟨q0, e0, h0⟩ := holds_remove q x xs h
    have hn1 : never_on_empty xs.length ops = true := by
      simpa [never_on_empty] using hn
    obtain ⟨q1, out, e, ho, hh⟩ := run_holds ops q0 xs h0 hn1
    refine ⟨q1, x :: out, by simp [queue_run, e0, e], ?_, ?_⟩
    · simp [inserted_values, remove_count, ho]
    · simpa [inserted_values, remove_count] using hh

/-- No call sequence that never removes from an empty queue makes more removes than it has
values to remove. -/
theorem remove_count_le : ∀ (ops : List (queue_op α)) (n : Nat),
    never_on_empty n ops = true → remove_count ops ≤ n + (inserted_values ops).length
  | [], n, _ => by simp [remove_count]
  | queue_op.insert v :: ops, n, h => by
    have := remove_count_le ops (n + 1) (by simpa [never_on_empty] using h)
    simp only [remove_count, inserted_values, List.length_cons]; omega
  | queue_op.remove :: ops, 0, h => by simp [never_on_empty] at h
  | queue_op.remove :: ops, n + 1, h => by
    have := remove_count_le ops n (by simpa [never_on_empty] using h)
    simp only [remove_count, inserted_values]; omega

/-- C23: every sequence of `queue_insert` and `queue_remove` calls on an initialised queue
that never removes from an empty queue runs to completion, the k-th `queue_remove` returns
the k-th inserted value, and `queue_count` equals the number of inserts minus the number of
removes, whatever the capacity doublings on the way. -/
theorem C23_queue_fifo (values : Int → α) (ops : List (queue_op α))
    (h : never_on_empty 0 ops = true) :
    ∃ q out, queue_run ( queue_initialize values) ops = some (q, out) ∧
      out = (inserted_values ops).take (remove_count ops) ∧
      queue_count q = ((inserted_values ops).length : Int) - (remove_count ops : Int) := by
  obtain ⟨q, out, e, ho, hh⟩ := run_holds ops ( queue_initialize values) []
    (holds_fresh values) h
  have hle := remove_count_le ops 0 h
  refine ⟨q, out, e, by simpa using ho, ?_⟩
  have hsz := hh.2.2.2.1
  simp only [List.nil_append, List.length_drop] at hsz
  rw [queue_count, hsz]
  omega

theorem C23_queue_fifo_witness :
    never_on_empty 0 wrapped_calls = true ∧
    (queue_run ( queue_initialize (fun _ => 0)) wrapped_calls).map
      (fun p => (p.1.capacity, p.1.front, p.1.size, p.2))
      = some (16, 8, 4, [1, 2, 3, 4, 5, 6, 7, 8]) ∧
    ∃ q out, queue_run ( queue_initialize (fun _ => 0)) wrapped_calls = some (q, out) ∧
      out = (inserted_values wrapped_calls).take (remove_count wrapped_calls) ∧
      queue_count q = ((inserted_values wrapped_calls).length : Int)
        - (remove_count wrapped_calls : Int) :=
  ⟨by decide, by decide, C23_queue_fifo (fun _ => 0) wrapped_calls (by decide)⟩

/-- C24: on a freshly initialised queue, and on a queue emptied by a remove, `size` is 0 but
`front` is 0 and not -1, so the assertion of `queue_peek` and `queue_remove` passes:
`queue_peek` returns the content of cell 0 and `queue_remove` returns it too, leaving
`size` at -1 and `front` at 1. -/
theorem C24_empty_queue_not_rejected (values : Int → α) (v : α) :
    queue_count ( queue_initialize values) = 0 ∧
    queue_peek ( queue_initialize values) = some ( queue_initialize values, values 0) ∧
    (∃ q1, queue_remove ( queue_initialize values) = some (q1, values 0) ∧
      q1.size = -1 ∧ q1.front = 1 ∧ q1.rear = 0) ∧
    (∃ q1 q2, queue_remove (queue_insert ( queue_initialize values) v) = some (q1, v) ∧
      queue_count q1 = 0 ∧ queue_remove q1 = some (q2, v) ∧
      q2.size = -1 ∧ q2.front = 1 ∧ q2.rear = 0) := by
  refine ⟨rfl, rfl, ⟨{ capacity := 8, front := 1, rear := 0, size := -1, values := values },
    rfl, rfl, rfl, rfl⟩, ?_⟩
  refine ⟨{ capacity := 8, front := 0, rear := 0, size := 0,
            values := Function.update values 0 v },
    { capacity := 8, front := 1, rear := 0, size := -1,
      values := Function.update values 0 v }, ?_, rfl, ?_, rfl, rfl, rfl⟩
  · simp [queue_remove, queue_insert, queue_grow, queue_initialize, QUEUE_SIZE]
  · simp [queue_remove]

end Queue

/-! # Verification of the linked priority queue -/

namespace PQ

open node_ptr

variable {α : Type}

/-- Priority order relates every element to every later one. -/
theorem ordered_iff_pairwise {compare : α → α → Int} (hc : AVL.CompareOrder compare) :
    ∀ xs : List α, priority_ordered compare xs ↔ xs.Pairwise (fun a b => compare b a ≤ 0) := by
  intro xs
  induction xs with
  | nil => simp [priority_ordered]
  | cons a xs ih =>
    cases xs with
    | nil => simp [priority_ordered]
    | cons b rest =>
      rw [priority_ordered, ih]
      simp only [List.pairwise_cons]
      have hab : ¬ compare a b < 0 ↔ compare b a ≤ 0 := by
        have := hc.swap a b; omega
      constructor
      · rintro ⟨h1, h2, h3⟩
        refine ⟨?_, h2, h3⟩
        intro y hy
        rcases List.mem_cons.1 hy with rfl | hy
        · exact hab.1 h1
        · exact hc.le_trans _ _ _ (h2 y hy) (hab.1 h1)
      · rintro ⟨h1, h2, h3⟩
        exact ⟨hab.2 (h1 b (List.mem_cons_self _ _)), h2, h3⟩

/-- The loop stops within the chain, has passed only elements that compare greater than the
value, and stops at an element that does not. -/
theorem nodes_above_spec (compare : α → α → Int) (v : α) : ∀ xs : List α,
    nodes_above compare v xs ≤ xs.length ∧
    (∀ x ∈ xs.take (nodes_above compare v xs), 0 < compare x v) ∧
    (∀ y rest, xs.drop (nodes_above compare v xs) = y :: rest → compare y v ≤ 0) := by
  intro xs
  induction xs with
  | nil => simp [nodes_above]
  | cons c xs ih =>
    obtain ⟨h1, h2, h3⟩ := ih
    by_cases hcv : compare c v > 0
    · simp only [nodes_above, hcv, if_true, List.length_cons, List.take_succ_cons,
        List.drop_succ_cons, List.mem_cons]
      refine ⟨by omega, ?_, h3⟩
      rintro x (rfl | hx)
      · exact hcv
      · exact h2 x hx
    · simp only [nodes_above, hcv, if_false, List.take_zero, List.drop_zero]
      refine ⟨by omega, by simp, ?_⟩
      intro y rest e
      cases e
      omega

/-- Linking through the rear pointer of a chain whose rear is its last node appends. -/
theorem set_next_rear (x : α) (xs chain : List α) :
    set_next (x :: xs) (rear_of (x :: xs)) chain
      = some (x :: xs ++ chain, (x :: xs).length) := by
  simp [set_next, rear_of]

/-- The rear pointer after a node was linked in before the last node. -/
theorem after_link_rear (k : Nat) (xs : List α) (hk : k < xs.length) :
    after_link k (rear_of xs) = idx xs.length := by
  cases xs with
  | nil => simp at hk
  | cons x xs =>
    simp only [rear_of, List.length_cons, after_link] at hk ⊢
    rw [if_pos (by omega)]

/-- What `pq_insert` does on a queue whose rear pointer is its last node: the value is
linked in behind the elements the loop has passed. -/
theorem pq_insert_spec (pq : priority_queue α) (v : α) (hrear : pq.rear = rear_of pq.front) :
    ∃ pq1, pq_insert pq v = some pq1 ∧
      pq1.front = pq.front.take (nodes_above pq.compare v pq.front) ++
        v :: pq.front.drop (nodes_above pq.compare v pq.front) ∧
      pq1.size = pq.size + 1 ∧ pq1.rear = rear_of pq1.front ∧ pq1.compare = pq.compare := by
  obtain ⟨hk, _, _⟩ := nodes_above_spec pq.compare v pq.front
  cases hf : pq.front with
  | nil =>
    refine ⟨{ pq with size := pq.size + 1, front := [v], rear := idx 0 }, ?_, ?_, rfl, rfl, rfl⟩
    · simp [pq_insert, hf, nodes_above]
    · simp [nodes_above]
  | cons x xs =>
    rw [hf] at hk hrear
    by_cases hk0 : nodes_above pq.compare v (x :: xs) = 0
    · refine ⟨{ pq with size := pq.size + 1, front := v :: x :: xs,
                        rear := after_link 0 pq.rear }, ?_, ?_, rfl, ?_, rfl⟩
      · simp [pq_insert, hf, hk0]
      · simp [hk0]
      · simp only [hrear]
        rw [after_link_rear 0 (x :: xs) (by simp)]
        simp [rear_of]
    · cases hd : (x :: xs).drop (nodes_above pq.compare v (x :: xs)) with
      | nil =>
        have hlen : nodes_above pq.compare v (x :: xs) = (x :: xs).length := by
          have := List.drop_eq_nil_iff.1 hd
          omega
        refine ⟨{ pq with size := pq.size + 1, front := x :: xs ++ [v],
                          rear := idx (x :: xs).length }, ?_, ?_, rfl, ?_, rfl⟩
        · simp only [pq_insert, hf, hk0, if_false, hd, hrear, set_next_rear]
        · simp [hlen]
        · simp [rear_of]
      | cons c rest =>
        have hlt : nodes_above pq.compare v (x :: xs) < (x :: xs).length := by
          by_contra hge
          have := List.drop_eq_nil_iff.2 (Nat.le_of_not_lt hge)
          rw [this] at hd; cases hd
        refine ⟨{ pq with size := pq.size + 1,
                          front := (x :: xs).take (nodes_above pq.compare v (x :: xs))
                            ++ v :: c :: rest,
                          rear := after_link (nodes_above pq.compare v (x :: xs)) pq.rear },
          ?_, ?_, rfl, ?_, rfl⟩
        · simp only [pq_insert, hf, hk0, if_false, hd]
        · simp
        · simp only [hrear]
          rw [after_link_rear _ (x :: xs) hlt]
          have hl : ((x :: xs).take (nodes_above pq.compare v (x :: xs)) ++ v :: c :: rest).length
              = (x :: xs).length + 1 := by
            rw [← hd]
            simp only [List.length_append, List.length_take, List.length_cons, List.length_drop]
            simp only [List.length_cons] at hlt
            omega
          simp only [rear_of, hl]

/-- Linking a value in behind the elements the loop has passed keeps the priority order. -/
theorem insert_ordered {compare : α → α → Int} (hc : AVL.CompareOrder compare) (v : α)
    (xs : List α) (h : xs.Pairwise (fun a b => compare b a ≤ 0)) :
    (xs.take (nodes_above compare v xs) ++ v :: xs.drop (nodes_above compare v xs)).Pairwise
      (fun a b => compare b a ≤ 0) := by
  obtain ⟨_, h2, h3⟩ := nodes_above_spec compare v xs
  have hsplit := h
  rw [← List.take_append_drop (nodes_above compare v xs) xs, List.pairwise_append] at hsplit
  obtain ⟨p1, p2, p3⟩ := hsplit
  rw [List.pairwise_append, List.pairwise_cons]
  refine ⟨p1, ⟨?_, p2⟩, ?_⟩
  · intro y hy
    cases hd : xs.drop (nodes_above compare v xs) with
    | nil => rw [hd] at hy; cases hy
    | cons c rest =>
      have hcv := h3 c rest hd
      rw [hd] at hy p2
      rcases List.mem_cons.1 hy with rfl | hy
      · exact hcv
      · exact hc.le_trans _ _ _ ((List.pairwise_cons.1 p2).1 y hy) hcv
  · intro a ha b hb
    rcases List.mem_cons.1 hb with rfl | hb
    · have := (hc.swap b a).2 (h2 a ha); omega
    · exact p3 a ha b hb

/-- The front of a priority-ordered chain compares greater than or equal to every element. -/
theorem front_is_top {compare : α → α → Int} (hc : AVL.CompareOrder compare) (top : α)
    (rest : List α) (h : (top :: rest).Pairwise (fun a b => compare b a ≤ 0)) :
    ∀ x ∈ top :: rest, 0 ≤ compare top x := by
  intro x hx
  rcases List.mem_cons.1 hx with rfl | hx
  · rw [hc.compare_self]
  · have h1 := (List.pairwise_cons.1 h).1 x hx
    have := hc.swap top x
    omega

/-- C25: if the chain from front to rear is in priority order (no element compares less than
its successor) and `rear` is its last node, then `pq_insert` leaves it in priority order,
holding the old elements plus the value, with `size` one larger and `rear` the last node;
`pq_peek` and `pq_remove` then return an element that compares greater than or equal to
every element of the queue. -/
theorem C25_insert_keeps_priority_order (pq : priority_queue α) (value : α)
    (hc : AVL.CompareOrder pq.compare) (hrear : pq.rear = rear_of pq.front)
    (hord : priority_ordered pq.compare pq.front) :
    ∃ pq1, pq_insert pq value = some pq1 ∧
      priority_ordered pq.compare pq1.front ∧
      (∃ p q, pq.front = p ++ q ∧ pq1.front = p ++ value :: q) ∧
      pq_size pq1 = pq_size pq + 1 ∧ pq1.rear = rear_of pq1.front ∧
      ∃ top pq2, pq_peek pq1 = some (pq1, top) ∧ pq_remove pq1 = some (pq2, top) ∧
        ∀ x ∈ pq1.front, 0 ≤ pq.compare top x := by
  obtain ⟨pq1, e, hf, hs, hr, _⟩ := pq_insert_spec pq value hrear
  have hp := insert_ordered hc value pq.front ((ordered_iff_pairwise hc _).1 hord)
  rw [← hf] at hp
  refine ⟨pq1, e, (ordered_iff_pairwise hc _).2 hp,
    ⟨_, _, (List.take_append_drop _ _).symm, hf⟩, hs, hr, ?_⟩
  cases hfront : pq1.front with
  | nil => rw [hf] at hfront; simp at hfront
  | cons top rest =>
    rw [hfront] at hp
    have e2 : ∃ pq2, pq_remove pq1 = some (pq2, top) := by
      unfold pq_remove; rw [hfront]; exact ⟨_, rfl⟩
    obtain ⟨pq2, e2⟩ := e2
    exact ⟨top, pq2, by simp [pq_peek, hfront], e2, front_is_top hc top rest hp⟩

theorem C25_insert_keeps_priority_order_witness :
    pq_insert pq_531 4
      = some { size := 4, front := [5, 4, 3, 1], rear := idx 3, compare := AVL.data_compare } ∧
    ∃ pq1, pq_insert pq_531 4 = some pq1 ∧
      priority_ordered AVL.data_compare pq1.front ∧
      (∃ p q, pq_531.front = p ++ q ∧ pq1.front = p ++ 4 :: q) ∧
      pq_size pq1 = pq_size pq_531 + 1 ∧ pq1.rear = rear_of pq1.front ∧
      ∃ top pq2, pq_peek pq1 = some (pq1, top) ∧ pq_remove pq1 = some (pq2, top) ∧
        ∀ x ∈ pq1.front, 0 ≤ AVL.data_compare top x :=
  ⟨rfl, C25_insert_keeps_priority_order pq_531 4 AVL.data_compare_order rfl
    (by simp [priority_ordered, pq_531, AVL.data_compare])⟩

/-- The rear pointer of a non-empty chain. -/
theorem rear_of_cons (x : α) (xs : List α) : rear_of (x :: xs) = idx xs.length := rfl

/-- Cutting nodes off the front of a chain leaves the rear pointer on the last node. -/
theorem after_cut_rear (k : Nat) (xs : List α) (hk : k < xs.length) :
    after_cut k (rear_of xs) = rear_of (xs.drop k) := by
  cases xs with
  | nil => simp at hk
  | cons x xs =>
    have hl : ((x :: xs).drop k).length = xs.length + 1 - k := by simp
    cases hd : (x :: xs).drop k with
    | nil => rw [hd] at hl; simp at hl hk; omega
    | cons y ys =>
      rw [hd] at hl
      simp only [List.length_cons] at hl hk
      rw [rear_of_cons, rear_of_cons]
      have : k ≤ xs.length := by omega
      simp only [after_cut, this, if_true]
      congr 1
      omega

/-- In a priority-ordered chain every node from the split position on compares less than or
equal to the key. -/
theorem below_after_split {compare : α → α → Int} (hc : AVL.CompareOrder compare) (key : α)
    (xs : List α) (h : xs.Pairwise (fun a b => compare b a ≤ 0)) :
    ∀ y ∈ xs.drop (nodes_above compare key xs), compare y key ≤ 0 := by
  obtain ⟨_, _, h3⟩ := nodes_above_spec compare key xs
  have p2 : (xs.drop (nodes_above compare key xs)).Pairwise (fun a b => compare b a ≤ 0) :=
    h.sublist (List.drop_sublist _ _)
  intro y hy
  cases hd : xs.drop (nodes_above compare key xs) with
  | nil => rw [hd] at hy; cases hy
  | cons c rest =>
    have hcv := h3 c rest hd
    rw [hd] at hy p2
    rcases List.mem_cons.1 hy with rfl | hy
    · exact hcv
    · exact hc.le_trans _ _ _ ((List.pairwise_cons.1 p2).1 y hy) hcv

/-- The nodes in front of the split position are the elements greater than the key, the
nodes behind it the elements less than or equal to the key. -/
theorem split_is_filter {compare : α → α → Int} (hc : AVL.CompareOrder compare) (key : α)
    (xs : List α) (h : xs.Pairwise (fun a b => compare b a ≤ 0)) :
    xs.take (nodes_above compare key xs) = xs.filter (fun x => decide (0 < compare x key)) ∧
    xs.drop (nodes_above compare key xs) = xs.filter (fun x => decide (compare x key ≤ 0)) := by
  obtain ⟨_, h2, _⟩ := nodes_above_spec compare key xs
  have h3 := below_after_split hc key xs h
  generalize nodes_above compare key xs = k at h2 h3
  constructor
  · conv => rhs; rw [← List.take_append_drop k xs]
    rw [List.filter_append, List.filter_eq_self.2, List.filter_eq_nil_iff.2, List.append_nil]
    · intro y hy; have := h3 y hy; simp; omega
    · intro y hy; simpa using h2 y hy
  · conv => rhs; rw [← List.take_append_drop k xs]
    rw [List.filter_append, List.filter_eq_nil_iff.2, List.filter_eq_self.2, List.nil_append]
    · intro y hy; simpa using h3 y hy
    · intro y hy; have := h2 y hy; simp; omega

/-- C27: for a priority-ordered, well-linked source queue and empty queues `higher` and
`low_equal`, `pq_split_key` puts into `higher` exactly the source elements that compare
greater than the key and into `low_equal` exactly those that compare less than or equal to
it, each in the order of the source and with `rear` on its last node; the two sizes add up
to the old source size, and the source is left empty with size 0. -/
theorem C27_split_key_partitions (higher low_equal source : priority_queue α) (key : α)
    (hc : AVL.CompareOrder source.compare)
    (hord : priority_ordered source.compare source.front)
    (hrear : source.rear = rear_of source.front)
    (hh : higher.front = [] ∧ higher.rear = null)
    (hl : low_equal.front = [] ∧ low_equal.rear = null) :
    (pq_split_key higher low_equal source key).1.front
        = source.front.filter (fun x => decide (0 < source.compare x key)) ∧
    (pq_split_key higher low_equal source key).2.1.front
        = source.front.filter (fun x => decide (source.compare x key ≤ 0)) ∧
    (pq_split_key higher low_equal source key).1.rear
        = rear_of (pq_split_key higher low_equal source key).1.front ∧
    (pq_split_key higher low_equal source key).2.1.rear
        = rear_of (pq_split_key higher low_equal source key).2.1.front ∧
    (pq_split_key higher low_equal source key).1.size
        = ((pq_split_key higher low_equal source key).1.front.length : Int) ∧
    (pq_split_key higher low_equal source key).1.size
        + (pq_split_key higher low_equal source key).2.1.size = source.size ∧
    (pq_split_key higher low_equal source key).2.2.front = [] ∧
    (pq_split_key higher low_equal source key).2.2.rear = null ∧
    (pq_split_key higher low_equal source key).2.2.size = 0 := by
  have hp := (ordered_iff_pairwise hc _).1 hord
  obtain ⟨f1, f2⟩ := split_is_filter hc key source.front hp
  obtain ⟨hk, _, _⟩ := nodes_above_spec source.compare key source.front
  rw [← f1, ← f2]
  have e1 : (pq_split_key higher low_equal source key).1.front
      = source.front.take (nodes_above source.compare key source.front) ∧
      (pq_split_key higher low_equal source key).1.rear
      = rear_of (source.front.take (nodes_above source.compare key source.front)) := by
    simp only [pq_split_key]
    cases hn : nodes_above source.compare key source.front with
    | zero => simp [hh.1, hh.2, rear_of]
    | succ p =>
      rw [hn] at hk
      have : (source.front.take (p + 1)).length = p + 1 := by
        rw [List.length_take]; omega
      simp [rear_of, this]
  have e2 : (pq_split_key higher low_equal source key).2.1.front
      = source.front.drop (nodes_above source.compare key source.front) ∧
      (pq_split_key higher low_equal source key).2.1.rear
      = rear_of (source.front.drop (nodes_above source.compare key source.front)) := by
    simp only [pq_split_key]
    cases hd : source.front.drop (nodes_above source.compare key source.front) with
    | nil => simp [hl.1, hl.2, rear_of]
    | cons c rest =>
      have hlt : nodes_above source.compare key source.front < source.front.length := by
        have := congrArg List.length hd
        simp at this; omega
      refine ⟨rfl, ?_⟩
      show after_cut _ source.rear = _
      rw [hrear, after_cut_rear _ _ hlt, hd]
  refine ⟨e1.1, e2.1, ?_, ?_, ?_, ?_, rfl, rfl, rfl⟩
  · rw [e1.2, e1.1]
  · rw [e2.2, e2.1]
  · rw [e1.1]
    show ((nodes_above source.compare key source.front : Nat) : Int) = _
    rw [List.length_take]; congr 1; omega
  · show ((nodes_above source.compare key source.front : Nat) : Int)
      + (source.size - (nodes_above source.compare key source.front : Nat)) = source.size
    omega

theorem C27_split_key_partitions_witness :
    pq_split_key ( pq_initialize AVL.data_compare) ( pq_initialize AVL.data_compare) pq_97442 4
      = ({ size := 2, front := [9, 7], rear := idx 1, compare := AVL.data_compare },
         { size := 3, front := [4, 4, 2], rear := idx 2, compare := AVL.data_compare },
         { size := 0, front := [], rear := null, compare := AVL.data_compare }) ∧
    (pq_split_key ( pq_initialize AVL.data_compare) ( pq_initialize AVL.data_compare)
        pq_97442 4).1.front
      = pq_97442.front.filter (fun x => decide (0 < pq_97442.compare x 4)) :=
  ⟨rfl, (C27_split_key_partitions ( pq_initialize AVL.data_compare)
    ( pq_initialize AVL.data_compare) pq_97442 4 AVL.data_compare_order
    (by simp [priority_ordered, pq_97442, AVL.data_compare]) rfl ⟨rfl, rfl⟩ ⟨rfl, rfl⟩).1⟩

theorem merge_chain_nil_right (compare : α → α → Int) (xs : List α) :
    merge_chain compare xs [] = xs := by
  cases xs <;> simp [merge_chain]

/-- The merged chain holds exactly the elements of the two chains. -/
theorem merge_chain_perm (compare : α → α → Int) : ∀ (n : Nat) (xs ys : List α),
    xs.length + ys.length ≤ n → (merge_chain compare xs ys).Perm (xs ++ ys) := by
  intro n
  induction n with
  | zero =>
    intro xs ys h
    cases xs with
    | nil => simp [merge_chain]
    | cons a xs => simp at h
  | succ n ih =>
    intro xs ys h
    cases xs with
    | nil => simp [merge_chain]
    | cons a xs =>
      cases ys with
      | nil => simp [merge_chain]
      | cons b ys =>
        simp only [List.length_cons] at h
        rw [merge_chain]
        split
        · exact (ih xs (b :: ys) (by simp only [List.length_cons]; omega)).cons a
        · have := (ih (a :: xs) ys (by simp only [List.length_cons]; omega)).cons b
          exact this.trans (List.perm_middle.symm)

/-- Merging two priority-ordered chains gives a priority-ordered chain. -/
theorem merge_chain_ordered {compare : α → α → Int} (hc : AVL.CompareOrder compare) :
    ∀ (n : Nat) (xs ys : List α), xs.length + ys.length ≤ n →
    xs.Pairwise (fun a b => compare b a ≤ 0) → ys.Pairwise (fun a b => compare b a ≤ 0) →
    (merge_chain compare xs ys).Pairwise (fun a b => compare b a ≤ 0) := by
  intro n
  induction n with
  | zero =>
    intro xs ys h hx hy
    cases xs with
    | nil => simpa [merge_chain] using hy
    | cons a xs => simp at h
  | succ n ih =>
    intro xs ys h hx hy
    cases xs with
    | nil => simpa [merge_chain] using hy
    | cons a xs =>
      cases ys with
      | nil => simpa [merge_chain] using hx
      | cons b ys =>
        simp only [List.length_cons] at h
        rw [merge_chain]
        have hxa := List.pairwise_cons.1 hx
        have hyb := List.pairwise_cons.1 hy
        split
        · rename_i hlt
          refine List.pairwise_cons.2 ⟨?_, ih xs (b :: ys)
            (by simp only [List.length_cons]; omega) hxa.2 hy⟩
          intro z hz
          have hz1 := (merge_chain_perm compare _ xs (b :: ys) (le_refl _)).subset hz
          rcases List.mem_append.1 hz1 with hz2 | hz2
          · exact hxa.1 z hz2
          · rcases List.mem_cons.1 hz2 with rfl | hz3
            · omega
            · exact hc.le_trans _ _ _ (hyb.1 z hz3) (by omega)
        · rename_i hge
          have hab : compare a b ≤ 0 := by
            have := hc.swap b a
            by_contra hcon
            exact hge (this.2 (by omega))
          refine List.pairwise_cons.2 ⟨?_, ih (a :: xs) ys
            (by simp only [List.length_cons]; omega) hx hyb.2⟩
          intro z hz
          have hz1 := (merge_chain_perm compare _ (a :: xs) ys (le_refl _)).subset hz
          rcases List.mem_append.1 hz1 with hz2 | hz2
          · rcases List.mem_cons.1 hz2 with rfl | hz3
            · exact hab
            · exact hc.le_trans _ _ _ (hxa.1 z hz3) hab
          · exact hyb.1 z hz2

/-- Function `move_front_to_rear` on well-linked queues: the front node of the source
becomes the last node of the target. -/
theorem move_spec (target source : priority_queue α) (x : α) (rest : List α)
    (ht : target.rear = rear_of target.front) (hs : source.rear = rear_of source.front)
    (hf : source.front = x :: rest) :
    move_front_to_rear target source = some
      ({ target with front := target.front ++ [x], rear := rear_of (target.front ++ [x]),
                     size := target.size + 1 },
       { source with front := rest, rear := rear_of rest, size := source.size - 1 }) := by
  have hcut : ∀ y ys, rest = y :: ys → after_cut 1 source.rear = rear_of rest := by
    intro y ys hr
    rw [hs, hf, after_cut_rear 1 (x :: rest) (by simp [hr])]
    rfl
  unfold move_front_to_rear
  rw [hf]
  cases hr : rest with
  | nil =>
    cases htf : target.front with
    | nil => simp [rear_of]
    | cons y ys =>
      simp only
      rw [ht, htf, set_next_rear]
      simp [rear_of]
  | cons z zs =>
    have h1 := hcut z zs hr
    rw [hr] at h1
    cases htf : target.front with
    | nil => simp [rear_of, h1]
    | cons y ys =>
      simp only
      rw [ht, htf, set_next_rear]
      simp [rear_of, h1]

/-- Function `append_queue` on well-linked queues with a non-empty source: the chain of the
source is linked behind the chain of the target. -/
theorem append_spec (target source : priority_queue α) (x : α) (rest : List α)
    (ht : target.rear = rear_of target.front) (hs : source.rear = rear_of source.front)
    (hf : source.front = x :: rest) :
    append_queue target source = some
      ({ target with front := target.front ++ source.front,
                     rear := rear_of (target.front ++ source.front),
                     size := target.size + source.size },
       { source with front := [], rear := null, size := 0 }) := by
  unfold append_queue
  cases htf : target.front with
  | nil => simp [hs]
  | cons y ys =>
    simp only
    rw [ht, htf, set_next_rear, hs, hf]
    simp [rear_of, after_prepend]
    omega

/-- The loop of `pq_combine` on well-linked queues: it ends with one source exhausted, having
moved a prefix of the merge to the rear of the target. -/
theorem combine_loop_spec : ∀ (fuel : Nat) (t s1 s2 : priority_queue α),
    s1.front.length + s2.front.length ≤ fuel →
    t.rear = rear_of t.front → s1.rear = rear_of s1.front → s2.rear = rear_of s2.front →
    ∃ t1 s11 s21, pq_combine_loop fuel t s1 s2 = some (t1, s11, s21) ∧
      t1.rear = rear_of t1.front ∧ s11.rear = rear_of s11.front ∧
      s21.rear = rear_of s21.front ∧
      (s11.front = [] ∨ s21.front = []) ∧
      t1.front ++ merge_chain t.compare s11.front s21.front
        = t.front ++ merge_chain t.compare s1.front s2.front ∧
      t1.size + s11.size + s21.size = t.size + s1.size + s2.size ∧
      s11.size - s11.front.length = s1.size - s1.front.length ∧
      s21.size - s21.front.length = s2.size - s2.front.length ∧
      t1.compare = t.compare := by
  intro fuel
  induction fuel with
  | zero =>
    intro t s1 s2 h ht h1 h2
    have e1 : s1.front = [] := List.length_eq_zero.1 (by omega)
    have e2 : s2.front = [] := List.length_eq_zero.1 (by omega)
    refine ⟨t, s1, s2, ?_, ht, h1, h2, Or.inl e1, rfl, rfl, rfl, rfl, rfl⟩
    simp [pq_combine_loop, e1, e2]
  | succ fuel ih =>
    intro t s1 s2 h ht h1 h2
    cases e1 : s1.front with
    | nil =>
      refine ⟨t, s1, s2, ?_, ht, h1, h2, Or.inl e1, by rw [e1], rfl, by rw [e1], rfl, rfl⟩
      simp [pq_combine_loop, e1]
    | cons a xs =>
      cases e2 : s2.front with
      | nil =>
        refine ⟨t, s1, s2, ?_, ht, h1, h2, Or.inr e2, by rw [e1, e2], rfl, by rw [e1],
          by rw [e2], rfl⟩
        simp [pq_combine_loop, e1, e2]
      | cons b ys =>
        rw [e1, e2] at h
        simp only [List.length_cons] at h
        by_cases hlt : t.compare b a < 0
        · obtain ⟨t1, s11, s21, e, r1, r2, r3, r4, r5, r6, r7, r8, r9⟩ :=
            ih { t with front := t.front ++ [a], rear := rear_of (t.front ++ [a]),
                        size := t.size + 1 }
              { s1 with front := xs, rear := rear_of xs, size := s1.size - 1 } s2
              (by simp only [e2, List.length_cons]; omega) rfl rfl h2
          refine ⟨t1, s11, s21, ?_, r1, r2, r3, r4, ?_, ?_, ?_, by rw [← e2]; exact r8, r9⟩
          · rw [pq_combine_loop]
            simp only [e1, e2, hlt, if_true]
            rw [move_spec t s1 a xs ht h1 e1]
            exact e
          · simp only at r5
            rw [r5, e2, List.append_assoc]
            conv => rhs; rw [merge_chain, if_pos hlt]
            rfl
          · simp only at r6; omega
          · simp only [List.length_cons] at r7 ⊢
            push_cast
            omega
        · obtain ⟨t1, s11, s21, e, r1, r2, r3, r4, r5, r6, r7, r8, r9⟩ :=
            ih { t with front := t.front ++ [b], rear := rear_of (t.front ++ [b]),
                        size := t.size + 1 } s1
              { s2 with front := ys, rear := rear_of ys, size := s2.size - 1 }
              (by simp only [e1, List.length_cons]; omega) rfl h1 rfl
          refine ⟨t1, s11, s21, ?_, r1, r2, r3, r4, ?_, ?_, by rw [← e1]; exact r7, ?_, r9⟩
          · rw [pq_combine_loop]
            simp only [e1, e2, hlt, if_false]
            rw [move_spec t s2 b ys ht h2 e2]
            exact e
          · simp only at r5
            rw [r5, e1, List.append_assoc]
            conv => rhs; rw [merge_chain, if_neg hlt]
            rfl
          · simp only at r6; omega
          · simp only [List.length_cons] at r8 ⊢
            push_cast
            omega

/-- C26: for two well-linked source queues in priority order (in the order of the compare
function of the target, which is the one `pq_combine` calls) whose `size` is their number of
nodes, and an empty target, `pq_combine` returns with the target holding exactly the elements
of both sources in priority order, its size the sum of the source sizes and its `rear` on the
last node, and with both sources empty: front and rear `NULL`, size 0. -/
theorem C26_combine_merges (target source1 source2 : priority_queue α)
    (hc : AVL.CompareOrder target.compare)
    (ht : target.front = [] ∧ target.rear = null ∧ target.size = 0)
    (h1 : priority_ordered target.compare source1.front)
    (h2 : priority_ordered target.compare source2.front)
    (r1 : source1.rear = rear_of source1.front) (r2 : source2.rear = rear_of source2.front)
    (z1 : source1.size = source1.front.length) (z2 : source2.size = source2.front.length) :
    ∃ t s1 s2, pq_combine target source1 source2 = some (t, s1, s2) ∧
      t.front.Perm (source1.front ++ source2.front) ∧
      priority_ordered target.compare t.front ∧
      t.size = source1.size + source2.size ∧ t.rear = rear_of t.front ∧
      s1.front = [] ∧ s1.rear = null ∧ s1.size = 0 ∧
      s2.front = [] ∧ s2.rear = null ∧ s2.size = 0 := by
  obtain ⟨htf, htr, hts⟩ := ht
  obtain ⟨t1, s11, s21, e, q1, q2, q3, q4, q5, q6, q7, q8, q9⟩ :=
    combine_loop_spec (source1.front.length + source2.front.length) target source1 source2
      (le_refl _) (by rw [htr, htf]; rfl) r1 r2
  rw [htf, List.nil_append] at q5
  have hperm := merge_chain_perm target.compare _ source1.front source2.front (le_refl _)
  have hordm := (ordered_iff_pairwise hc _).2 (merge_chain_ordered hc _ source1.front
    source2.front (le_refl _) ((ordered_iff_pairwise hc _).1 h1)
    ((ordered_iff_pairwise hc _).1 h2))
  rw [← q5] at hperm hordm
  cases f1 : s11.front with
  | nil =>
    rw [f1] at q2 q7
    cases f2 : s21.front with
    | nil =>
      rw [f2] at q3 q8
      rw [f1, f2] at hperm hordm
      simp only [merge_chain, List.append_nil] at hperm hordm
      simp only [List.length_nil] at q7 q8
      have ec : pq_combine target source1 source2 = some (t1, s11, s21) := by
        simp only [pq_combine, e, f1, f2]
      exact ⟨t1, s11, s21, ec, hperm, hordm, by push_cast at q7 q8; omega, q1, f1, q2,
        by push_cast at q7; omega, f2, q3, by push_cast at q8; omega⟩
    | cons c cs =>
      rw [f1, f2] at hperm hordm
      simp only [merge_chain] at hperm hordm
      simp only [List.length_nil] at q7
      have ec : pq_combine target source1 source2 = some
          ({ t1 with front := t1.front ++ s21.front,
                     rear := rear_of (t1.front ++ s21.front),
                     size := t1.size + s21.size }, s11,
           { s21 with front := [], rear := null, size := 0 }) := by
        simp only [pq_combine, e, f1, f2]
        rw [append_spec t1 s21 c cs q1 q3 f2, f2]
      refine ⟨_, _, _, ec, ?_, ?_, ?_, rfl, f1, q2, by push_cast at q7; omega, rfl, rfl, rfl⟩
      · rw [f2]; exact hperm
      · rw [f2]; exact hordm
      · show t1.size + s21.size = _
        push_cast at q7; omega
  | cons c cs =>
    cases f2 : s21.front with
    | nil =>
      rw [f2] at q3 q8
      rw [f1, f2] at hperm hordm
      simp only [merge_chain] at hperm hordm
      simp only [List.length_nil] at q8
      have ec : pq_combine target source1 source2 = some
          ({ t1 with front := t1.front ++ s11.front,
                     rear := rear_of (t1.front ++ s11.front),
                     size := t1.size + s11.size },
           { s11 with front := [], rear := null, size := 0 }, s21) := by
        simp only [pq_combine, e, f1, f2]
        rw [append_spec t1 s11 c cs q1 q2 f1, f1]
      refine ⟨_, _, _, ec, ?_, ?_, ?_, rfl, rfl, rfl, rfl, f2, q3,
        by push_cast at q8; omega⟩
      · rw [f1]; exact hperm
      · rw [f1]; exact hordm
      · show t1.size + s11.size = _
        push_cast at q8; omega
    | cons d ds =>
      rw [f1, f2] at q4
      simp at q4

theorem C26_combine_merges_witness :
    pq_combine ( pq_initialize AVL.data_compare) pq_8551 pq_952
      = some ({ size := 7, front := [9, 8, 5, 5, 5, 2, 1], rear := idx 6,
                compare := AVL.data_compare },
              { size := 0, front := [], rear := null, compare := AVL.data_compare },
              { size := 0, front := [], rear := null, compare := AVL.data_compare }) ∧
    ∃ t s1 s2, pq_combine ( pq_initialize AVL.data_compare) pq_8551 pq_952
        = some (t, s1, s2) ∧
      t.front.Perm (pq_8551.front ++ pq_952.front) ∧
      priority_ordered AVL.data_compare t.front ∧
      t.size = pq_8551.size + pq_952.size ∧ t.rear = rear_of t.front ∧
      s1.front = [] ∧ s1.rear = null ∧ s1.size = 0 ∧
      s2.front = [] ∧ s2.rear = null ∧ s2.size = 0 :=
  ⟨rfl, C26_combine_merges ( pq_initialize AVL.data_compare) pq_8551 pq_952
    AVL.data_compare_order ⟨rfl, rfl, rfl⟩
    (by simp [priority_ordered, pq_8551, pq_initialize, AVL.data_compare])
    (by simp [priority_ordered, pq_952, pq_initialize, AVL.data_compare]) rfl rfl rfl rfl⟩

end PQ

/-! # Verification of the popularity tree -/

namespace PT

open pt_node

variable {α : Type}

/-- C28: after inserting 1, 2, 3, 4 into an empty popularity tree and retrieving 1 and then
3, the rotation that lifts 3 above 2 lowers that subtree while the cached height of the root
stays 4, and `pt_valid` returns 0. -/
theorem C28_valid_fails_after_retrieve :
    ∃ t, pt_run ( pt_initialize AVL.data_compare)
        [pt_op.insert 1, pt_op.insert 2, pt_op.insert 3, pt_op.insert 4,
          pt_op.retrieve 1, pt_op.retrieve 3] = some t ∧
      t.root = node 1 4 1 (node 3 2 1 (node 4 1 0 nil nil) (node 2 1 0 nil nil)) nil ∧
      pt_valid t = false :=
  ⟨{ count := 4, compare := AVL.data_compare,
     root := node 1 4 1 (node 3 2 1 (node 4 1 0 nil nil) (node 2 1 0 nil nil)) nil },
    rfl, rfl, by decide⟩

/-- The two retrieval-count tests of `pt.c` are the same test. -/
theorem rcount_below_eq (rc : Int) (n : pt_node α) : rcount_below rc n = rcount_above rc n := by
  cases n <;> rfl

/-- A subtree whose root count does not exceed a bound does not exceed a larger bound. -/
theorem rcount_above_mono (b c : Int) (hbc : b ≤ c) (n : pt_node α)
    (h : rcount_above b n = false) : rcount_above c n = false := by
  cases n with
  | nil => rfl
  | node v hh rc l r =>
    simp only [rcount_above, decide_eq_false_iff_not, gt_iff_lt, not_lt] at h ⊢
    omega

/-- What `pt_retrieve_aux` does on a subtree in which no child has a higher count than its
parent: on a miss the subtree is returned as it was; on a hit the value found compares equal
to the key, its count has gone up by one, every other count and the in-order sequence are as
before, and no child has a higher count than its parent. The root count stays within every
bound it was within, or exceeds it by exactly one over children that are within it. -/
theorem retrieve_aux_spec (tree : pt α) (key : α) : ∀ t : pt_node α, rcount_heap t →
    ∃ t1 res, pt_retrieve_aux tree t key = some (t1, res) ∧
      (res = none → t1 = t) ∧
      (∀ x, res = some x → tree.compare x key = 0 ∧ rcount_heap t1 ∧
        (∃ p c q, pt_pairs t = p ++ (x, c) :: q ∧ pt_pairs t1 = p ++ (x, c + 1) :: q) ∧
        ∀ b, rcount_above b t = false →
          (rcount_above b t1 = false ∨
            ∃ v h l r, t1 = node v h (b + 1) l r ∧ rcount_above b l = false ∧
              rcount_above b r = false)) := by
  intro t
  induction t with
  | nil =>
    intro _
    exact ⟨nil, none, rfl, fun _ => rfl, fun x hx => by cases hx⟩
  | node v h rc l r ihl ihr =>
    rintro ⟨hl0, hr0, hl, hr⟩
    by_cases c0 : tree.compare v key = 0
    · have bl : rcount_below (rc + 1) l = false := by
        rw [rcount_below_eq]; exact rcount_above_mono rc (rc + 1) (by omega) l hl0
      have br : rcount_below (rc + 1) r = false := by
        rw [rcount_below_eq]; exact rcount_above_mono rc (rc + 1) (by omega) r hr0
      refine ⟨node v h (rc + 1) l r, some v, ?_, (fun hx => by cases hx), ?_⟩
      · simp [pt_retrieve_aux, c0, pt_retrieve_finish, pt_rebalance, bl, br]
      · intro x hx
        cases hx
        refine ⟨c0, ⟨by rw [← rcount_below_eq]; exact bl, by rw [← rcount_below_eq]; exact br,
          hl, hr⟩, ⟨pt_pairs l, rc, pt_pairs r, rfl, rfl⟩, ?_⟩
        intro b hb
        simp only [rcount_above, decide_eq_false_iff_not, gt_iff_lt, not_lt] at hb
        by_cases hb1 : rc + 1 ≤ b
        · left
          simp only [rcount_above, decide_eq_false_iff_not, gt_iff_lt, not_lt]
          exact hb1
        · right
          have : b = rc := by omega
          subst this
          exact ⟨v, h, l, r, rfl, hl0, hr0⟩
    · by_cases c1 : tree.compare v key < 0
      · obtain ⟨l1, res, e, hnone, hsome⟩ := ihl hl
        cases res with
        | none =>
          have := hnone rfl
          subst this
          refine ⟨node v h rc l1 r, none, ?_, fun _ => rfl, fun x hx => by cases hx⟩
          simp [pt_retrieve_aux, c0, c1, e, pt_retrieve_finish]
        | some x =>
          obtain ⟨cx, heap1, ⟨p, c, q, ep, eq⟩, hbound⟩ := hsome x rfl
          rcases hbound rc hl0 with hle | ⟨xv, xh, xl, xr, rfl, hxl, hxr⟩
          · refine ⟨node v h rc l1 r, some x, ?_, (fun hx => by cases hx), ?_⟩
            · simp [pt_retrieve_aux, c0, c1, e, pt_retrieve_finish, pt_rebalance,
                rcount_below_eq, hle, hr0]
            · intro y hy
              cases hy
              refine ⟨cx, ⟨hle, hr0, heap1, hr⟩, ⟨p, c, q ++ (v, rc) :: pt_pairs r, ?_, ?_⟩,
                fun b hb => Or.inl hb⟩
              · simp [pt_pairs, ep]
              · simp [pt_pairs, eq]
          · obtain ⟨_, _, hxlh, hxrh⟩ := heap1
            refine ⟨node xv (MAX_HEIGHT (pt_node_height xl)
                (MAX_HEIGHT (pt_node_height xr) (pt_node_height r) + 1) + 1) (rc + 1) xl
              (node v (MAX_HEIGHT (pt_node_height xr) (pt_node_height r) + 1) rc xr r),
              some x, ?_, (fun hx => by cases hx), ?_⟩
            · simp [pt_retrieve_aux, c0, c1, e, pt_retrieve_finish, pt_rebalance,
                rcount_below, pt_rotate_right, pt_update_height, pt_node_height]
            · intro y hy
              cases hy
              refine ⟨cx, ⟨rcount_above_mono rc (rc + 1) (by omega) xl hxl, by simp [rcount_above],
                hxlh, hxr, hr0, hxrh, hr⟩, ⟨p, c, q ++ (v, rc) :: pt_pairs r, ?_, ?_⟩, ?_⟩
              · simp [pt_pairs, ep]
              · have := congrArg (fun xs => xs ++ (v, rc) :: pt_pairs r) eq
                simpa [pt_pairs] using this
              · intro b hb
                simp only [rcount_above, decide_eq_false_iff_not, gt_iff_lt, not_lt] at hb
                by_cases hb1 : rc + 1 ≤ b
                · left
                  simp only [rcount_above, decide_eq_false_iff_not, gt_iff_lt, not_lt]
                  exact hb1
                · right
                  have : b = rc := by omega
                  subst this
                  exact ⟨_, _, _, _, rfl, hxl, by simp [rcount_above]⟩
      · have c2 : tree.compare v key > 0 := by omega
        obtain ⟨r1, res, e, hnone, hsome⟩ := ihr hr
        cases res with
        | none =>
          have := hnone rfl
          subst this
          refine ⟨node v h rc l r1, none, ?_, fun _ => rfl, fun x hx => by cases hx⟩
          simp [pt_retrieve_aux, c0, c1, c2, e, pt_retrieve_finish]
        | some x =>
          obtain ⟨cx, heap1, ⟨p, c, q, ep, eq⟩, hbound⟩ := hsome x rfl
          rcases hbound rc hr0 with hle | ⟨xv, xh, xl, xr, rfl, hxl, hxr⟩
          · refine ⟨node v h rc l r1, some x, ?_, (fun hx => by cases hx), ?_⟩
            · simp [pt_retrieve_aux, c0, c1, c2, e, pt_retrieve_finish, pt_rebalance,
                rcount_below_eq, hle, hl0]
            · intro y hy
              cases hy
              refine ⟨cx, ⟨hl0, hle, hl, heap1⟩, ⟨pt_pairs l ++ (v, rc) :: p, c, q, ?_, ?_⟩,
                fun b hb => Or.inl hb⟩
              · simp [pt_pairs, ep]
              · simp [pt_pairs, eq]
          · obtain ⟨_, _, hxlh, hxrh⟩ := heap1
            refine ⟨node xv (MAX_HEIGHT (MAX_HEIGHT (pt_node_height l) (pt_node_height xl) + 1)
                (pt_node_height xr) + 1) (rc + 1)
              (node v (MAX_HEIGHT (pt_node_height l) (pt_node_height xl) + 1) rc l xl) xr,
              some x, ?_, (fun hx => by cases hx), ?_⟩
            · have bl : rcount_below rc l = false := by rw [rcount_below_eq]; exact hl0
              have br : rcount_below rc (node xv xh (rc + 1) xl xr) = true := by
                simp [rcount_below]
              simp [pt_retrieve_aux, c0, c1, c2, e, pt_retrieve_finish, pt_rebalance,
                bl, br, pt_rotate_left, pt_update_height, pt_node_height]
            · intro y hy
              cases hy
              refine ⟨cx, ⟨by simp [rcount_above],
                rcount_above_mono rc (rc + 1) (by omega) xr hxr,
                ⟨hl0, hxl, hl, hxlh⟩, hxrh⟩, ⟨pt_pairs l ++ (v, rc) :: p, c, q, ?_, ?_⟩, ?_⟩
              · simp [pt_pairs, ep]
              · have := congrArg (fun xs => pt_pairs l ++ (v, rc) :: xs) eq
                simpa [pt_pairs] using this
              · intro b hb
                simp only [rcount_above, decide_eq_false_iff_not, gt_iff_lt, not_lt] at hb
                by_cases hb1 : rc + 1 ≤ b
                · left
                  simp only [rcount_above, decide_eq_false_iff_not, gt_iff_lt, not_lt]
                  exact hb1
                · right
                  have : b = rc := by omega
                  subst this
                  exact ⟨_, _, _, _, rfl, by simp [rcount_above], hxr⟩

/-- C40: on a popularity tree in which no child has a higher retrieval count than its
parent, `pt_retrieve` returns. If it finds a value (one that compares equal to the key), the
count of that node has gone up by exactly 1, every other count is as before, the in-order
sequence of values is unchanged, and again no child has a higher count than its parent. If
it misses, the tree is as before. (BST order is not needed for any of this.) -/
theorem C40_retrieve_keeps_rcount_heap (tree : pt α) (key : α)
    (hheap : rcount_heap tree.root) :
    ∃ tree1 res, pt_retrieve tree key = some (tree1, res) ∧
      (res = none → tree1 = tree) ∧
      (∀ x, res = some x → tree.compare x key = 0 ∧
        (∃ p c q, pt_pairs tree.root = p ++ (x, c) :: q ∧
          pt_pairs tree1.root = p ++ (x, c + 1) :: q) ∧
        rcount_heap tree1.root ∧ pt_elems tree1.root = pt_elems tree.root) := by
  obtain ⟨t1, res, e, hnone, hsome⟩ := retrieve_aux_spec tree key tree.root hheap
  refine ⟨{ tree with root := t1 }, res, by simp [pt_retrieve, e], ?_, ?_⟩
  · intro hr
    rw [hnone hr]
  · intro x hx
    obtain ⟨cx, heap1, ⟨p, c, q, ep, eq⟩, _⟩ := hsome x hx
    refine ⟨cx, ⟨p, c, q, ep, eq⟩, heap1, ?_⟩
    show (pt_pairs t1).map Prod.fst = (pt_pairs tree.root).map Prod.fst
    rw [ep, eq]
    simp

theorem C40_retrieve_keeps_rcount_heap_witness :
    (pt_run ( pt_initialize AVL.data_compare)
      [pt_op.insert 1, pt_op.insert 2, pt_op.insert 3, pt_op.insert 4, pt_op.retrieve 1]).map
      (fun t => t.root) = some pt_chain.root ∧
    rcount_heap pt_chain.root ∧
    pt_pairs pt_chain.root = [(4, 0), (3, 0), (2, 0), (1, 1)] ∧
    (pt_retrieve pt_chain 3).map (fun p => (pt_pairs p.1.root, p.2))
      = some ([(4, 0), (3, 1), (2, 0), (1, 1)], some 3) ∧
    ∃ tree1 res, pt_retrieve pt_chain 3 = some (tree1, res) ∧
      (res = none → tree1 = pt_chain) ∧
      (∀ x, res = some x → pt_chain.compare x 3 = 0 ∧
        (∃ p c q, pt_pairs pt_chain.root = p ++ (x, c) :: q ∧
          pt_pairs tree1.root = p ++ (x, c + 1) :: q) ∧
        rcount_heap tree1.root ∧ pt_elems tree1.root = pt_elems pt_chain.root) :=
  ⟨by decide, by simp [rcount_heap, pt_chain, rcount_above], by decide, by decide,
    C40_retrieve_keeps_rcount_heap pt_chain 3 (by simp [rcount_heap, pt_chain, rcount_above])⟩

end PT
